import Mathlib

/-!
Verification of the online grid-search engine consisting of two strategy
implementations: an A*-style frontier best-first search (a_star.py) and an
exhaustive depth-first mapper with breadth-first distance propagation
(backtracking.py).  The agent lives on a 9 by 9 grid (coordinates 0..8),
emits moves, and receives item observations after every move; items
('P', 'A', 'S') are dangers, ('K') marks the target ("keymaker").

The environment is modelled as a function from the destination of a move to
the list of items contained in the protocol response for that move: dangers
are static in the game, so the response depends only on the position moved
to.  Where the source iterates over a Python set (whose iteration order is
implementation defined), the model fixes the generation order of the set's
elements; all universally quantified theorems below are insensitive to that
order, and concrete runs used as counterexamples are chosen so that every
best-cell selection has a strictly smallest candidate, making the selected
run independent of the set iteration order.
-/

/-- Positions are integer pairs, exactly as the Python tuples. -/
abbrev Pos := Int × Int

/-- Shared constant MIN_COORD = 0 (defined identically in both source files). -/
def MIN_COORD : Int := 0

/-- Shared constant MAX_COORD = 8 (defined identically in both source files). -/
def MAX_COORD : Int := 8

/-- Shared constant INT_INFINITY = 2^31 - 1 (defined identically in both files). -/
def INT_INFINITY : Nat := 2 ^ 31 - 1

/-- Danger item kinds, DANGER_ITEMS = ('P', 'A', 'S') in both source files. -/
def DANGER_ITEMS : List Char := ['P', 'A', 'S']

/-- Observation items of one protocol response: position and item kind. -/
abbrev Items := List (Pos × Char)

/-- Environment: for each destination position, the response items produced by
the system after a move to that position (dangers are static, so the response
is a function of the position). -/
abbrev Env := Pos → Items

/-- Proposition that a position is inside the 9 by 9 grid (0..8 inclusive). -/
def inBounds (p : Pos) : Prop :=
  0 ≤ p.1 ∧ p.1 ≤ 8 ∧ 0 ≤ p.2 ∧ p.2 ≤ 8

instance (p : Pos) : Decidable (inBounds p) := by
  unfold inBounds; infer_instance

namespace AStarM

/-- Candidate moves POSSIBLE_MOVES = ((1,0),(0,1),(-1,0),(0,-1)) from a_star.py. -/
def POSSIBLE_MOVES : List (Int × Int) := [(1, 0), (0, 1), (-1, 0), (0, -1)]

/-- Translation of get_neighbours (a_star.py lines 11-23).  Note the source
bound checks are 0 <= new_x < MAX_COORD, i.e. a strict upper bound of 8.
The source builds a Python set; the model keeps the generation order. -/
def get_neighbours (coord : Pos) : List Pos :=
  (POSSIBLE_MOVES.map (fun d => (coord.1 + d.1, coord.2 + d.2))).filter
    (fun p => decide (0 ≤ p.1) && decide (p.1 < MAX_COORD) &&
      decide (0 ≤ p.2) && decide (p.2 < MAX_COORD))

/-- Translation of class Cell (a_star.py lines 26-51).  Python integers on the
paths involved are non-negative, so costs are modelled as Nat. -/
structure Cell where
  coords : Pos
  from_init : Nat
  to_goal : Nat
  total_path : Nat
  path_from_init : List Pos
  neighbours : List Pos
deriving DecidableEq

/-- Constructor of Cell: total_path = from_init + to_goal and
neighbours = get_neighbours(coords), as in Cell.__init__. -/
def mkCell (coords : Pos) (from_init to_goal : Nat) (path : List Pos) : Cell :=
  { coords := coords, from_init := from_init, to_goal := to_goal,
    total_path := from_init + to_goal, path_from_init := path,
    neighbours := get_neighbours coords }

/-- Translation of Cell.__lt__: order by total_path, ties by to_goal. -/
def cellLt (a b : Cell) : Bool :=
  if a.total_path = b.total_path then decide (a.to_goal < b.to_goal)
  else decide (a.total_path < b.total_path)

/-- Translation of _init_to_goals (a_star.py lines 54-69): the heuristic
table maps each coordinate to its Manhattan distance from the keymaker.  The
source dict is populated exactly for in-bounds coordinates and is only ever
read at in-bounds coordinates; the model is the distance function itself. -/
def to_goals (keymaker p : Pos) : Nat :=
  (keymaker.1 - p.1).natAbs + (keymaker.2 - p.2).natAbs

/-- Translation of from_current_to_best (a_star.py lines 88-100), as the list
of destinations of the moves it emits (one response is drained per move):
all of the current cell's path except its last element, reversed, followed by
the best cell's path without its first and last elements. -/
def from_current_to_best (current_cell best_cell : Cell) : List Pos :=
  current_cell.path_from_init.dropLast.reverse ++
    (best_cell.path_from_init.drop 1).dropLast

/-- Length of the longest common prefix of two paths. -/
def commonPrefixLen : List Pos → List Pos → Nat
  | a :: as, b :: bs => if a = b then commonPrefixLen as bs + 1 else 0
  | _, _ => 0

/-- Modelled from the spec (section 4.5 Navigator): the minimal relocation
walks backward along the current position's path-from-origin only until the
nearest common ancestor with the best cell's path, then forward along the
best cell's path (the final step onto the best cell itself is emitted by the
caller, as in the source).  With k the length of the common prefix of the two
paths, the backward leg revisits the current path's entries after position
k-1 in reverse, and the forward leg visits the best path's entries from
position k on, excluding the best cell. -/
def specMinimalRelocation (p q : List Pos) : List Pos :=
  let k := commonPrefixLen p q
  (p.dropLast.drop (k - 1)).reverse ++ (q.drop k).dropLast

/-- Python dict lookup on an insertion-ordered association list. -/
def dictLookup (d : List (Pos × Cell)) (p : Pos) : Option Cell :=
  match d with
  | [] => none
  | (q, c) :: rest => if q = p then some c else dictLookup rest p

/-- Python dict assignment: updates the entry in place if the key is present
(keeping its insertion position), otherwise appends the new entry. -/
def dictInsert (d : List (Pos × Cell)) (p : Pos) (c : Cell) : List (Pos × Cell) :=
  match d with
  | [] => [(p, c)]
  | (q, c0) :: rest =>
    if q = p then (q, c) :: rest else (q, c0) :: dictInsert rest p c

/-- Translation of AStar._is_valid (a_star.py lines 114-126): in bounds
(inclusive bound 8 here, unlike get_neighbours), not a known danger, and not
visited. -/
def is_valid (dangers : List Pos) (visited : List (Pos × Cell)) (c : Pos) : Bool :=
  decide (MIN_COORD ≤ c.1) && decide (c.1 ≤ MAX_COORD) &&
    decide (MIN_COORD ≤ c.2) && decide (c.2 ≤ MAX_COORD) &&
    !(dangers.contains c) && (dictLookup visited c).isNone

/-- Translation of AStar._get_available_coords (a_star.py lines 136-150).
The source builds a Python set from the four candidates; the model keeps the
candidate generation order. -/
def get_available_coords (dangers : List Pos) (visited : List (Pos × Cell))
    (coord : Pos) : List Pos :=
  (POSSIBLE_MOVES.map (fun d => (coord.1 + d.1, coord.2 + d.2))).filter
    (is_valid dangers visited)

/-- Loop body of AStar._update_available for one available neighbour n of a
visited cell vc: a fresh Cell whose cost is the minimum of the new candidate
cost vc.from_init + 1 and any existing entry's cost, and whose path is
always the path through vc. -/
def updStep (keymaker : Pos) (vc : Cell) (acc : List (Pos × Cell)) (n : Pos) :
    List (Pos × Cell) :=
  match dictLookup acc n with
  | some old =>
    dictInsert acc n
      (mkCell n (Nat.min (vc.from_init + 1) old.from_init) (to_goals keymaker n)
        (vc.path_from_init ++ [n]))
  | none =>
    dictInsert acc n
      (mkCell n (vc.from_init + 1) (to_goals keymaker n) (vc.path_from_init ++ [n]))

/-- Translation of AStar._update_available (a_star.py lines 152-177) for one
visited coordinate: each available neighbour gets the updStep treatment. -/
def update_available (keymaker : Pos) (dangers : List Pos)
    (visited : List (Pos × Cell)) (coord : Pos)
    (av : List (Pos × Cell)) : List (Pos × Cell) :=
  match dictLookup visited coord with
  | none => av
  | some vc =>
    (get_available_coords dangers visited coord).foldl (updStep keymaker vc) av

/-- Translation of AStar._update_all_available (a_star.py lines 179-186):
clears the frontier and recomputes it from every visited cell, iterating the
visited dict in insertion order. -/
def update_all_available (keymaker : Pos) (dangers : List Pos)
    (visited : List (Pos × Cell)) : List (Pos × Cell) :=
  visited.foldl (fun acc pc => update_available keymaker dangers visited pc.1 acc) []

/-- Translation of AStar._get_best_cell (a_star.py lines 188-207): None on an
empty frontier, otherwise a fold that replaces the running best (initially a
sentinel cell at (0,0) with infinite costs) by any strictly smaller cell. -/
def get_best_cell (av : List (Pos × Cell)) : Option Cell :=
  if av.length = 0 then none
  else
    some (av.foldl (fun best pc => if cellLt pc.2 best then pc.2 else best)
      (mkCell (0, 0) INT_INFINITY INT_INFINITY []))

/-- Positions of the danger items of a response; AStar._update_dangers
(a_star.py lines 209-217) adds exactly these to the danger set. -/
def danger_positions (items : Items) : List Pos :=
  (items.filter (fun it => DANGER_ITEMS.contains it.2)).map (fun it => it.1)

/-- Translation of AStar._update_dangers: the danger set after recording a
response (the source uses a Python set; only membership is ever queried). -/
def update_dangers (dangers : List Pos) (items : Items) : List Pos :=
  dangers ++ danger_positions items

/-- Protocol output events: a real move, a success report (e n), or the
unreachable report (e -1). -/
inductive Event where
  | move : Pos → Event
  | success : Nat → Event
  | failure : Event
deriving DecidableEq

/-- State of the AStar engine (a_star.py class AStar plus the position of
the loop of find_path): the evolving dicts and danger set, the Cell of the
current physical anchor position (current_move in find_path), the emitted
protocol output, and whether a terminal report has been emitted. -/
structure AState where
  keymaker : Pos
  visited : List (Pos × Cell)
  dangers : List Pos
  available_cells : List (Pos × Cell)
  current : Cell
  output : List Event
  done : Bool

/-- Translation of AStar._zeroth_move (a_star.py lines 219-232) together with
the engine construction: emits the move to (0,0), records the response,
marks (0,0) visited and computes the initial frontier. -/
def zeroth_move (obs : Env) (keymaker : Pos) : AState :=
  let zc : Pos := (0, 0)
  let z := mkCell zc 0 (to_goals keymaker zc) [zc]
  let dangers := update_dangers [] (obs zc)
  let visited := dictInsert [] zc z
  { keymaker := keymaker, visited := visited, dangers := dangers,
    available_cells := update_all_available keymaker dangers visited,
    current := z, output := [Event.move zc], done := false }

/-- Translation of one iteration of the while loop of AStar.find_path
(a_star.py lines 234-259): pick the best frontier cell; report e -1 if none;
report success if it is the keymaker; otherwise relocate if it is not in the
current cell's neighbour set (the relocation responses are read and
discarded by from_current_to_best), move to it, record the response, mark it
visited and recompute the frontier. -/
def find_path_step (obs : Env) (s : AState) : AState :=
  if s.done then s
  else
    match get_best_cell s.available_cells with
    | none => { s with output := s.output ++ [Event.failure], done := true }
    | some best =>
      if best.coords = s.keymaker then
        { s with output := s.output ++ [Event.success best.from_init], done := true }
      else
        let reloc :=
          if s.current.neighbours.contains best.coords then []
          else from_current_to_best s.current best
        let dangers := update_dangers s.dangers (obs best.coords)
        let visited := dictInsert s.visited best.coords best
        { s with
          output := s.output ++ (reloc ++ [best.coords]).map Event.move,
          dangers := dangers, visited := visited,
          available_cells := update_all_available s.keymaker dangers visited,
          current := best }

/-- State of the engine after the zeroth move and n iterations of the loop
of AStar.find_path. -/
def aStarSteps (obs : Env) (keymaker : Pos) : Nat → AState
  | 0 => zeroth_move obs keymaker
  | n + 1 => find_path_step obs (aStarSteps obs keymaker n)

/-- Keys of a dict in insertion order. -/
def dictKeys (d : List (Pos × Cell)) : List Pos := d.map Prod.fst

/-- Accumulated candidate cost from an existing frontier entry, if any. -/
def accCand (acc : List (Pos × Cell)) (n : Pos) : List Nat :=
  match dictLookup acc n with
  | some old => [old.from_init]
  | none => []

/-- Coordinate sum of a position; on a danger-free grid this is the true
move distance from the origin to any in-bounds position. -/
def sumC (p : Pos) : Nat := p.1.natAbs + p.2.natAbs

/-- Monotone staircase from the origin to b: first along the x axis, then
along the y axis. -/
def stair (b : Pos) : List Pos :=
  ((List.range (b.1.toNat + 1)).map (fun (i : Nat) => (((i : Int)), ((0 : Int))))) ++
    ((List.range b.2.toNat).map (fun (j : Nat) => (b.1, ((j : Int)) + 1)))

/-- Step relation along a staircase: an axis step from the a_star move list
that increases the coordinate sum by one. -/
def stairRel (p q : Pos) : Prop :=
  (q.1 - p.1, q.2 - p.2) ∈ POSSIBLE_MOVES ∧ sumC q = sumC p + 1

end AStarM

/-- Master invariant of the AStar engine state for environment obs: visited
keys are distinct, in bounds and were all emitted as moves; every visited
cell is keyed by its own coordinates, carries a nonempty path ending at
itself whose cells are all visited, and has accumulated cost below the
number of visited keys; the origin is visited; the current cell's path is
nonempty, ends at the current coordinates and stays inside the visited
keys; every known danger was reported by some response; a visited key that
equals the keymaker can only be the origin; the frontier is exactly the
recomputation from the visited set and danger set; and the keymaker position
read from the initial configuration is in bounds. -/
def aWF (obs : Env) (s : AStarM.AState) : Prop :=
  (AStarM.dictKeys s.visited).Nodup ∧
  (∀ pc ∈ s.visited, pc.2.coords = pc.1 ∧ inBounds pc.1 ∧
    pc.2.path_from_init ≠ [] ∧ pc.2.path_from_init.getLast? = some pc.1 ∧
    (∀ q ∈ pc.2.path_from_init, q ∈ AStarM.dictKeys s.visited) ∧
    pc.2.from_init < (AStarM.dictKeys s.visited).length ∧
    AStarM.Event.move pc.1 ∈ s.output) ∧
  ((0, 0) : Pos) ∈ AStarM.dictKeys s.visited ∧
  (s.current.path_from_init ≠ [] ∧
    s.current.path_from_init.getLast? = some s.current.coords ∧
    (∀ q ∈ s.current.path_from_init, q ∈ AStarM.dictKeys s.visited)) ∧
  (∀ q ∈ s.dangers, ∃ p, q ∈ AStarM.danger_positions (obs p)) ∧
  (∀ p ∈ AStarM.dictKeys s.visited, p = s.keymaker → p = ((0, 0) : Pos)) ∧
  s.available_cells =
    AStarM.update_all_available s.keymaker s.dangers s.visited ∧
  inBounds s.keymaker

namespace BacktrackM

/-- Candidate moves POSSIBLE_MOVES = [(1,0),(-1,0),(0,1),(0,-1)] from
backtracking.py (note the order differs from a_star.py). -/
def POSSIBLE_MOVES : List (Int × Int) := [(1, 0), (-1, 0), (0, 1), (0, -1)]

/-- Translation of is_valid (backtracking.py lines 12-24): inclusive bounds
MIN_COORD <= x <= MAX_COORD on both coordinates. -/
def is_valid (pos : Pos) : Bool :=
  decide (MIN_COORD ≤ pos.1) && decide (pos.1 ≤ MAX_COORD) &&
    decide (MIN_COORD ≤ pos.2) && decide (pos.2 ≤ MAX_COORD)

/-- Translation of get_neighbors (backtracking.py lines 27-42). -/
def get_neighbors (pos : Pos) : List Pos :=
  (POSSIBLE_MOVES.map (fun d => (pos.1 + d.1, pos.2 + d.2))).filter is_valid

/-- Translation of read_response (backtracking.py lines 45-61): of the items
of a response, only dangers and the keymaker marker are kept. -/
def read_response_items (items : Items) : Items :=
  items.filter (fun it => DANGER_ITEMS.contains it.2 || it.2 = ('K'))

/-- Pointwise update of the game map (GameMap._change_info; the source's
9 by 9 array is only ever indexed at in-bounds positions). -/
def map_set (m : Pos → Option Char) (p : Pos) (c : Char) : Pos → Option Char :=
  fun q => if q = p then some c else m q

/-- Translation of GameMap._add_items (backtracking.py lines 124-131). -/
def add_items (m : Pos → Option Char) (items : Items) : Pos → Option Char :=
  items.foldl (fun acc it => map_set acc it.1 it.2) m

/-- Translation of GameMap._add_visited (backtracking.py lines 133-141):
marks the position with '.' only if it is still unknown. -/
def add_visited (m : Pos → Option Char) (p : Pos) : Pos → Option Char :=
  match m p with
  | none => map_set m p ('.')
  | some _ => m

/-- State of the exhaustive mapper (backtracking.py class GameMap and the
loop position of fill_map).  Besides the source fields game_map,
visited_path (a deque used as a stack: append pushes, pop pops the right
end) and is_first_backtrack, the model records the emitted moves, the
destination of the last emitted move (the agent's physical position), the
sequence of stack pushes, whether the loop has returned, and whether a pop
of the empty deque occurred (an IndexError in the source). -/
structure GState where
  game_map : Pos → Option Char
  visited_path : List Pos
  is_first_backtrack : Bool
  agent : Pos
  moves : List Pos
  pushes : List Pos
  finished : Bool
  crashed : Bool

/-- Translation of GameMap._get_available_neighbours (backtracking.py lines
70-83): unvisited (unknown) neighbours of a position. -/
def get_available_neighbours (m : Pos → Option Char) (pos : Pos) : List Pos :=
  (get_neighbors pos).filter (fun n => (m n).isNone)

/-- Translation of GameMap._has_available_neighbours. -/
def has_available (m : Pos → Option Char) (pos : Pos) : Bool :=
  !(get_available_neighbours m pos).isEmpty

/-- Translation of GameMap._get_neighbour: the first available neighbour. -/
def get_neighbour (m : Pos → Option Char) (pos : Pos) : Option Pos :=
  (get_available_neighbours m pos).head?

/-- Translation of GameMap._get_current_pos (backtracking.py lines 156-164). -/
def get_current_pos (s : GState) : Pos :=
  match s.visited_path.getLast? with
  | none => (0, 0)
  | some p => p

/-- Translation of GameMap._move_to (backtracking.py lines 143-154): emit the
move, record the filtered response into the map, mark the position visited,
and push it onto the walk stack. -/
def move_to (obs : Env) (s : GState) (p : Pos) : GState :=
  let items := read_response_items (obs p)
  let m1 := add_items s.game_map items
  let m2 := add_visited m1 p
  { s with
    game_map := m2, visited_path := s.visited_path ++ [p],
    agent := p, moves := s.moves ++ [p], pushes := s.pushes ++ [p] }

/-- Translation of one iteration of the while loop of GameMap.fill_map
(backtracking.py lines 174-200).  The reposition move (print of current_pos
when resuming after a backtrack) and the backtrack move both read and
discard a response, so they change only the move trace and agent position. -/
def fill_map_step (obs : Env) (s : GState) : GState :=
  if s.finished || s.crashed then s
  else
    let cur := get_current_pos s
    if cur = (0, 0) && !(has_available s.game_map cur) then
      { s with finished := true }
    else if has_available s.game_map cur then
      let s1 :=
        if !s.is_first_backtrack then
          { s with
            moves := s.moves ++ [cur], agent := cur,
            is_first_backtrack := true }
        else s
      match get_neighbour s1.game_map cur with
      | some n => move_to obs s1 n
      | none => { s1 with crashed := true }
    else
      let s1 :=
        if s.is_first_backtrack then
          if s.visited_path.isEmpty then { s with crashed := true }
          else
            { s with
              visited_path := s.visited_path.dropLast,
              is_first_backtrack := false }
        else s
      if s1.crashed then s1
      else
        match s1.visited_path.getLast? with
        | some prev =>
          { s1 with
            visited_path := s1.visited_path.dropLast,
            moves := s1.moves ++ [prev], agent := prev }
        | none => { s1 with crashed := true }

/-- Initial state of fill_map: the mandatory move to (0,0). -/
def fill_map_init (obs : Env) : GState :=
  move_to obs
    { game_map := fun _ => none, visited_path := [], is_first_backtrack := true,
      agent := (0, 0), moves := [], pushes := [], finished := false,
      crashed := false } (0, 0)

/-- State of the exhaustive mapper after the initial move and n iterations of
the fill_map loop. -/
def fillMapSteps (obs : Env) : Nat → GState
  | 0 => fill_map_init obs
  | n + 1 => fill_map_step obs (fillMapSteps obs n)

/-- Result of PathFinder.find_path: a success report (e n) or e -1. -/
inductive PFResult where
  | success : Nat → PFResult
  | unreachable : PFResult
deriving DecidableEq

/-- State of the distance propagation (backtracking.py class PathFinder): the
distance grid (a function model of the 9 by 9 array, INT_INFINITY
everywhere initially), the FIFO cells_queue, the terminal result if any. -/
structure PFState where
  distances : Pos → Nat
  cells_queue : List Pos
  result : Option PFResult

/-- Danger test on a map entry: `info not in DANGER_ITEMS` is False exactly
for recorded danger items (an unknown cell, None, is not a danger). -/
def isDangerInfo : Option Char → Bool
  | some c => DANGER_ITEMS.contains c
  | none => false

/-- Translation of PathFinder._get_available_neighbours (backtracking.py
lines 213-227): neighbours with distance still at least INT_INFINITY whose
map entry is not a danger item. -/
def pf_available_neighbours (m : Pos → Option Char) (dist : Pos → Nat)
    (pos : Pos) : List Pos :=
  (get_neighbors pos).filter
    (fun n => decide (INT_INFINITY ≤ dist n) && !(isDangerInfo (m n)))

/-- Python's min of a list (min of the empty list raises; the source only
applies it to neighbour lists of in-bounds positions, which are nonempty;
the empty-list value here is arbitrary). -/
def minList : List Nat → Nat
  | [] => INT_INFINITY + 1
  | x :: xs => xs.foldl Nat.min x

/-- Translation of PathFinder._set_min_distance_to (backtracking.py lines
267-276): the position's distance becomes 1 plus the minimum distance over
all its grid neighbours (dangerous ones included). -/
def set_min_distance_to (dist : Pos → Nat) (pos : Pos) : Pos → Nat :=
  fun q => if q = pos then minList ((get_neighbors pos).map dist) + 1 else dist q

/-- Translation of one iteration of the while loop of PathFinder.find_path
(backtracking.py lines 290-301), over the static discovered map m: report
e -1 on an empty queue; otherwise pop the head, set its minimum distance,
enqueue its available neighbours, and report success if its map entry is the
keymaker marker. -/
def pf_step (m : Pos → Option Char) (s : PFState) : PFState :=
  match s.result with
  | some _ => s
  | none =>
    match s.cells_queue with
    | [] => { s with result := some PFResult.unreachable }
    | current :: rest =>
      let dist1 := set_min_distance_to s.distances current
      let queue1 := rest ++ pf_available_neighbours m dist1 current
      { distances := dist1, cells_queue := queue1,
        result := if m current = some ('K') then some (PFResult.success (dist1 current))
          else none }

/-- Initial propagation state (backtracking.py lines 287-288): distance 0 at
the origin, INT_INFINITY elsewhere, queue seeded from the origin. -/
def pf_init (m : Pos → Option Char) : PFState :=
  let dist0 : Pos → Nat := fun p => if p = ((0, 0) : Pos) then 0 else INT_INFINITY
  { distances := dist0,
    cells_queue := pf_available_neighbours m dist0 (0, 0),
    result := none }

/-- Propagation state after n iterations of the loop. -/
def pfSteps (m : Pos → Option Char) : Nat → PFState
  | 0 => pf_init m
  | n + 1 => pf_step m (pfSteps m n)

/-- Inductive invariant of the distance propagation, with a step counter
bound k: dangerous cells are never queued and keep the infinite sentinel;
every queued cell has a neighbour with finite distance; every finite
distance other than the origin's is supported by a neighbour one step
cheaper; finite distances are bounded by k; the origin is never queued and
keeps distance 0; all distances are at most the sentinel; queued cells are
in bounds. -/
def pfInv (m : Pos → Option Char) (k : Nat) (s : PFState) : Prop :=
  (∀ p, isDangerInfo (m p) = true →
    p ∉ s.cells_queue ∧ s.distances p = INT_INFINITY) ∧
  (∀ q ∈ s.cells_queue, ∃ n ∈ get_neighbors q, s.distances n < INT_INFINITY) ∧
  (∀ p, s.distances p < INT_INFINITY →
    p = (0, 0) ∨ ∃ n ∈ get_neighbors p, s.distances n + 1 ≤ s.distances p) ∧
  (∀ p, s.distances p < INT_INFINITY → s.distances p ≤ k) ∧
  (((0, 0) : Pos) ∉ s.cells_queue ∧ s.distances (0, 0) = 0) ∧
  (∀ p, s.distances p ≤ INT_INFINITY) ∧
  (∀ q ∈ s.cells_queue, inBounds q)

/-- Effective walk record of the exhaustive mapper: the stack itself while
walking forward, and the stack together with the agent's position while in a
backtrack chain (the agent is then one cell ahead of the stack top). -/
def effStack (s : GState) : List Pos :=
  if s.is_first_backtrack then s.visited_path else s.visited_path ++ [s.agent]

end BacktrackM

/-- Environment with no items in any response. -/
def envEmpty : Env := fun _ => []

/-- Environment used for the C5 counterexample run: the response at (0,1)
reports a danger at (0,2); every other response is empty. -/
def envC5 : Env :=
  fun p => if p = ((0, 1) : Pos) then [(((0 : Int), (2 : Int)), ('P'))] else []

/-- Environment used for the C6 counterexample run: the response at the
origin reveals dangers at (1,1) and (2,0), making (1,0) a dead end; every
other response is empty. -/
def envC6 : Env :=
  fun p =>
    if p = ((0, 0) : Pos) then
      [(((1 : Int), (1 : Int)), ('P')), (((2 : Int), (0 : Int)), ('P'))]
    else []

/-- Fully discovered danger-free map: every in-bounds cell was visited and
recorded as '.', exactly what fill_map produces on a danger-free grid with
no keymaker sighting recorded away from the explored cells. -/
def mapAllDot : Pos → Option Char :=
  fun p => if inBounds p then some ('.') else none

/-- Axis adjacency of two grid positions: they differ by one unit step. -/
def adjStep (p q : Pos) : Prop :=
  (q.1 - p.1, q.2 - p.2) ∈ AStarM.POSSIBLE_MOVES ∨
    (q.1 - p.1, q.2 - p.2) ∈ BacktrackM.POSSIBLE_MOVES

instance (p q : Pos) : Decidable (adjStep p q) := by
  unfold adjStep; infer_instance

/-- Structural invariant of the exhaustive mapper's walk record: the
effective stack is a nonempty, duplicate-free chain of axis-adjacent cells,
its last element is the agent's physical position, its first element is the
origin or (once the walk has backtracked into and re-left the origin, whose
stack entry is then lost) a neighbour of the origin, and all its cells are
recorded on the game map. -/
def btQ (s : BacktrackM.GState) : Prop :=
  BacktrackM.effStack s ≠ [] ∧
  List.Chain' adjStep (BacktrackM.effStack s) ∧
  (BacktrackM.effStack s).Nodup ∧
  (BacktrackM.effStack s).getLast? = some s.agent ∧
  (∃ h, (BacktrackM.effStack s).head? = some h ∧
    (h = ((0, 0) : Pos) ∨ adjStep (0, 0) h)) ∧
  (∀ p ∈ BacktrackM.effStack s, s.game_map p ≠ none)

/-- Membership in an offset-mapped move list is membership of the coordinate
difference in the move list. -/
theorem mem_offsets (mv : List (Int × Int)) (p q : Pos) :
    q ∈ mv.map (fun d => (p.1 + d.1, p.2 + d.2)) ↔
      (q.1 - p.1, q.2 - p.2) ∈ mv := by
  simp only [List.mem_map]
  constructor
  · rintro ⟨d, hd, rfl⟩
    simpa using hd
  · intro h
    exact ⟨(q.1 - p.1, q.2 - p.2), h, by cases p; cases q; simp⟩

/-- Adjacency is membership of the difference in backtracking's move list
(the two sources list the same four moves, in different orders). -/
theorem adjStep_iff_bt (p q : Pos) :
    adjStep p q ↔ (q.1 - p.1, q.2 - p.2) ∈ BacktrackM.POSSIBLE_MOVES := by
  unfold adjStep AStarM.POSSIBLE_MOVES BacktrackM.POSSIBLE_MOVES
  constructor
  · rintro (h | h)
    · simp only [List.mem_cons, List.not_mem_nil, or_false] at h ⊢
      tauto
    · exact h
  · intro h
    exact Or.inr h

/-- Validity check of backtracking.py agrees with the in-bounds predicate. -/
theorem bt_is_valid_iff (p : Pos) : BacktrackM.is_valid p = true ↔ inBounds p := by
  unfold BacktrackM.is_valid inBounds MIN_COORD MAX_COORD
  simp only [Bool.and_eq_true, decide_eq_true_eq]
  tauto

/-- The claim C2 describes both neighbour functions as returning every
axis-adjacent in-bounds position, with bound 8 inclusive.  This holds of
backtracking.get_neighbors. -/
theorem bt_get_neighbors_spec (p q : Pos) :
    q ∈ BacktrackM.get_neighbors p ↔ adjStep p q ∧ inBounds q := by
  unfold BacktrackM.get_neighbors
  rw [List.mem_filter, mem_offsets, adjStep_iff_bt, bt_is_valid_iff]

/-- Claim C2 (code_bug): a_star.get_neighbours uses the strict bound
new_x < MAX_COORD, so a position with a coordinate equal to 8 is never
returned.  At the failing input (8,8): get_neighbours returns the empty set
although (7,8) and (8,7) are its in-bounds axis-adjacent neighbours, which
backtracking.get_neighbors does return, and which a_star's own validity
check AStar._is_valid (modelled below as a_star_is_valid) accepts; the claim
(and spec) state the inclusive bound. -/
theorem C2_neighbours_code_bug :
    AStarM.get_neighbours (8, 8) = [] ∧
    BacktrackM.get_neighbors (8, 8) = [(7, 8), (8, 7)] ∧
    ((7, 8) : Pos) ∉ AStarM.get_neighbours (8, 8) ∧
    (adjStep (8, 8) (7, 8) ∧ inBounds ((7, 8) : Pos)) ∧
    ((7, 8) : Pos) ∉ AStarM.get_neighbours (7, 7) ∧
    (adjStep (7, 7) (7, 8) ∧ inBounds ((7, 8) : Pos)) := by
  refine ⟨by decide, by decide, by decide, by decide, by decide, by decide⟩

/-- Claim C1, counterexample: a relocation call where the current cell's path
is [(0,0),(0,1),(0,2)] and the best cell's path is [(0,0),(0,1),(1,1)] (the
two paths share the prefix [(0,0),(0,1)], whose last element (0,1) is the
nearest common ancestor).  The minimal relocation sequence is the single
move to (0,1), but from_current_to_best emits three moves, walking all the
way back to the origin: [(0,1),(0,0),(0,1)]. -/
theorem C1_relocation_counterexample :
    AStarM.from_current_to_best
        (AStarM.mkCell (0, 2) 2 3 [(0, 0), (0, 1), (0, 2)])
        (AStarM.mkCell (1, 1) 2 3 [(0, 0), (0, 1), (1, 1)]) =
      [(0, 1), (0, 0), (0, 1)] ∧
    AStarM.specMinimalRelocation [(0, 0), (0, 1), (0, 2)]
        [(0, 0), (0, 1), (1, 1)] = [(0, 1)] ∧
    ([(0, 1), (0, 0), (0, 1)] : List Pos) ≠ [(0, 1)] ∧
    ¬ (([(0, 1), (0, 0), (0, 1)] : List Pos).length ≤
        ([((0 : Int), (1 : Int))] : List Pos).length) := by
  refine ⟨by decide, by decide, by decide, by decide⟩

/-- Claim C1, amended: from_current_to_best always walks backward along the
whole current path to the origin and then forward along the whole best path;
its move sequence has length (length of current path - 1) plus (length of
best path - 2), and it coincides with the minimal nearest-common-ancestor
relocation exactly in the degenerate case where the two paths share only
their first element (common prefix length 1). -/
theorem C1_relocation_amended (c b : AStarM.Cell)
    (h : AStarM.commonPrefixLen c.path_from_init b.path_from_init = 1) :
    AStarM.from_current_to_best c b =
      AStarM.specMinimalRelocation c.path_from_init b.path_from_init ∧
    (AStarM.from_current_to_best c b).length =
      (c.path_from_init.length - 1) + (b.path_from_init.length - 2) := by
  constructor
  · unfold AStarM.from_current_to_best AStarM.specMinimalRelocation
    rw [h]
    simp
  · unfold AStarM.from_current_to_best
    simp [List.length_dropLast, List.length_drop]
    omega

/-- Witness for C1_relocation_amended at concrete cells whose paths share
only the origin. -/
theorem C1_relocation_witness :
    AStarM.commonPrefixLen [(0, 0), (1, 0)] [(0, 0), (0, 1), (0, 2)] = 1 ∧
    (AStarM.from_current_to_best
        (AStarM.mkCell (1, 0) 1 2 [(0, 0), (1, 0)])
        (AStarM.mkCell (0, 2) 2 1 [(0, 0), (0, 1), (0, 2)]) =
      AStarM.specMinimalRelocation [(0, 0), (1, 0)] [(0, 0), (0, 1), (0, 2)] ∧
     (AStarM.from_current_to_best
        (AStarM.mkCell (1, 0) 1 2 [(0, 0), (1, 0)])
        (AStarM.mkCell (0, 2) 2 1 [(0, 0), (0, 1), (0, 2)])).length =
      (([(0, 0), (1, 0)] : List Pos).length - 1) +
        (([(0, 0), (0, 1), (0, 2)] : List Pos).length - 2)) :=
  ⟨by decide,
   C1_relocation_amended
     (AStarM.mkCell (1, 0) 1 2 [(0, 0), (1, 0)])
     (AStarM.mkCell (0, 2) 2 1 [(0, 0), (0, 1), (0, 2)]) (by decide)⟩

/-- Claim C5, counterexample: in the run with keymaker (0,3) where the
response at (0,1) reveals a danger at (0,2), the engine visits (0,0), (0,1),
(1,1) (each pick strictly smallest, so independent of set iteration order).
The recomputed frontier entry for (1,0) — reachable from the two visited
neighbours (0,0) (cost 0) and (1,1) (cost 2) — stores the minimum
accumulated cost 1, but carries the path through (1,1), of length 4, where a
path consistent with the stored cost has length cost + 1 = 2. -/
theorem C5_frontier_counterexample :
    AStarM.dictLookup (AStarM.aStarSteps envC5 (0, 3) 2).available_cells (1, 0) =
      some (AStarM.mkCell (1, 0) 1 4 [(0, 0), (0, 1), (1, 1), (1, 0)]) ∧
    ¬ (([(0, 0), (0, 1), (1, 1), (1, 0)] : List Pos).length = 1 + 1) ∧
    (AStarM.dictLookup (AStarM.aStarSteps envC5 (0, 3) 2).visited (0, 0)).isSome = true ∧
    (AStarM.dictLookup (AStarM.aStarSteps envC5 (0, 3) 2).visited (1, 1)).isSome = true ∧
    adjStep (0, 0) (1, 0) ∧ adjStep (1, 1) (1, 0) ∧
    ((1, 0) : Pos) ∉ (AStarM.aStarSteps envC5 (0, 3) 2).dangers ∧
    AStarM.dictLookup (AStarM.aStarSteps envC5 (0, 3) 2).visited (1, 0) = none := by
  refine ⟨by decide, by decide, by decide, by decide, by decide, by decide,
    by decide, by decide⟩

/-- Claim C6, counterexample: with dangers at (1,1) and (2,0) revealed at the
origin, the walk moves to (1,0), finds it a dead end, and backtracks.  After
the third real move (the backtrack move to (0,0)) the Walk Stack is empty,
although the literal sequence of forward moves from the origin to the
agent's position (0,0) is the nonempty [(0,0)]; and the sequence of stack
pushes [(0,0),(1,0)] does not reproduce the emitted move sequence
[(0,0),(1,0),(0,0)]. -/
theorem C6_walk_stack_counterexample :
    (BacktrackM.fillMapSteps envC6 2).visited_path = [] ∧
    (BacktrackM.fillMapSteps envC6 2).agent = (0, 0) ∧
    (BacktrackM.fillMapSteps envC6 2).moves = [(0, 0), (1, 0), (0, 0)] ∧
    (BacktrackM.fillMapSteps envC6 2).pushes = [(0, 0), (1, 0)] ∧
    (BacktrackM.fillMapSteps envC6 2).crashed = false ∧
    (BacktrackM.fillMapSteps envC6 2).pushes ≠
      (BacktrackM.fillMapSteps envC6 2).moves ∧
    (([] : List Pos) ≠ [(0, 0)]) := by
  refine ⟨by decide, by decide, by decide, by decide, by decide, by decide,
    by decide⟩

/-- Claim C7, counterexample: propagating over the fully discovered
danger-free map, after two loop iterations the queue is
[(2,0),(1,1),(1,1),(0,2)]: the position (1,1) has entered the queue twice in
the same propagation pass (once from (1,0), once from (0,1)). -/
theorem C7_queue_counterexample :
    (BacktrackM.pfSteps mapAllDot 2).cells_queue = [(2, 0), (1, 1), (1, 1), (0, 2)] ∧
    (BacktrackM.pfSteps mapAllDot 2).cells_queue.count ((1, 1) : Pos) = 2 ∧
    ¬ ((BacktrackM.pfSteps mapAllDot 2).cells_queue.count ((1, 1) : Pos) ≤ 1) := by
  refine ⟨by decide, by decide, by decide⟩

/-- Folded minimum is at most its initial value. -/
theorem foldl_min_le_init (l : List Nat) (a : Nat) : l.foldl Nat.min a ≤ a := by
  induction l generalizing a with
  | nil => exact Nat.le_refl a
  | cons x xs ih =>
    exact Nat.le_trans (ih (Nat.min a x)) (Nat.min_le_left a x)

/-- Folded minimum is at most any list member. -/
theorem foldl_min_le_mem (l : List Nat) (a b : Nat) (hb : b ∈ l) :
    l.foldl Nat.min a ≤ b := by
  induction l generalizing a with
  | nil => cases hb
  | cons x xs ih =>
    rcases List.mem_cons.1 hb with h | h
    · subst h
      exact Nat.le_trans (foldl_min_le_init xs (Nat.min a b)) (Nat.min_le_right a b)
    · exact ih (Nat.min a x) h

/-- Folded minimum is the initial value or a list member. -/
theorem foldl_min_mem (l : List Nat) (a : Nat) :
    l.foldl Nat.min a = a ∨ l.foldl Nat.min a ∈ l := by
  induction l generalizing a with
  | nil => exact Or.inl rfl
  | cons x xs ih =>
    rcases ih (Nat.min a x) with h | h
    · rcases Nat.le_total a x with hax | hxa
      · left
        rw [List.foldl_cons, h]
        exact Nat.min_eq_left hax
      · right
        rw [List.foldl_cons, h]
        have hx : Nat.min a x = x := Nat.min_eq_right hxa
        rw [hx]
        exact List.mem_cons_self x xs
    · exact Or.inr (List.mem_cons_of_mem x h)

/-- Lower bounds pass to the folded minimum. -/
theorem le_foldl_min (l : List Nat) (a c : Nat) (hc : c ≤ a)
    (h : ∀ b ∈ l, c ≤ b) : c ≤ l.foldl Nat.min a := by
  induction l generalizing a with
  | nil => exact hc
  | cons x xs ih =>
    exact ih (Nat.min a x) (Nat.le_min.2 ⟨hc, h x (List.mem_cons_self x xs)⟩)
      (fun b hb => h b (List.mem_cons_of_mem x hb))

/-- Python's min is at most any member of the list. -/
theorem minList_le (l : List Nat) (b : Nat) (hb : b ∈ l) :
    BacktrackM.minList l ≤ b := by
  cases l with
  | nil => cases hb
  | cons x xs =>
    simp only [BacktrackM.minList]
    rcases List.mem_cons.1 hb with h | h
    · subst h; exact foldl_min_le_init xs b
    · exact foldl_min_le_mem xs x b h

/-- Python's min of a nonempty list is a member of the list. -/
theorem minList_mem (l : List Nat) (h : l ≠ []) : BacktrackM.minList l ∈ l := by
  cases l with
  | nil => exact absurd rfl h
  | cons x xs =>
    simp only [BacktrackM.minList]
    rcases foldl_min_mem xs x with h1 | h1
    · rw [h1]; exact List.mem_cons_self x xs
    · exact List.mem_cons_of_mem x h1

/-- Lower bounds pass to Python's min of a nonempty list. -/
theorem le_minList (l : List Nat) (c : Nat) (h : ∀ b ∈ l, c ≤ b) (hne : l ≠ []) :
    c ≤ BacktrackM.minList l := by
  cases l with
  | nil => exact absurd rfl hne
  | cons x xs =>
    simp only [BacktrackM.minList]
    exact le_foldl_min xs x c (h x (List.mem_cons_self x xs))
      (fun b hb => h b (List.mem_cons_of_mem x hb))

/-- Adjacency is symmetric. -/
theorem adjStep_symm (p q : Pos) (h : adjStep p q) : adjStep q p := by
  rw [adjStep_iff_bt] at h ⊢
  unfold BacktrackM.POSSIBLE_MOVES at h ⊢
  simp only [List.mem_cons, List.not_mem_nil, or_false, Prod.mk.injEq] at h ⊢
  omega

/-- A position is not its own neighbour. -/
theorem not_mem_get_neighbors_self (p : Pos) : p ∉ BacktrackM.get_neighbors p := by
  intro h
  rw [bt_get_neighbors_spec] at h
  rcases h with ⟨hadj, _⟩
  rw [adjStep_iff_bt] at hadj
  unfold BacktrackM.POSSIBLE_MOVES at hadj
  simp only [List.mem_cons, List.not_mem_nil, or_false, Prod.mk.injEq] at hadj
  omega

/-- Neighbours are in bounds. -/
theorem bt_get_neighbors_inBounds (p q : Pos) (h : q ∈ BacktrackM.get_neighbors p) :
    inBounds q :=
  ((bt_get_neighbors_spec p q).1 h).2

/-- Neighbourhood is symmetric between in-bounds positions. -/
theorem bt_get_neighbors_symm (p q : Pos) (h : q ∈ BacktrackM.get_neighbors p)
    (hp : inBounds p) : p ∈ BacktrackM.get_neighbors q := by
  rw [bt_get_neighbors_spec] at h ⊢
  exact ⟨adjStep_symm p q h.1, hp⟩

/-- Membership in the propagation frontier filter. -/
theorem mem_pf_available (m : Pos → Option Char) (dist : Pos → Nat) (pos n : Pos) :
    n ∈ BacktrackM.pf_available_neighbours m dist pos ↔
      n ∈ BacktrackM.get_neighbors pos ∧ INT_INFINITY ≤ dist n ∧
        BacktrackM.isDangerInfo (m n) = false := by
  unfold BacktrackM.pf_available_neighbours
  simp [List.mem_filter, Bool.and_eq_true, decide_eq_true_eq, Bool.not_eq_true',
    and_assoc]

/-- The sentinel is positive. -/
theorem INT_INFINITY_pos : 0 < INT_INFINITY := by
  unfold INT_INFINITY; norm_num

/-- Distance written by _set_min_distance_to at the target position. -/
theorem set_min_self (dist : Pos → Nat) (pos : Pos) :
    BacktrackM.set_min_distance_to dist pos pos =
      BacktrackM.minList ((BacktrackM.get_neighbors pos).map dist) + 1 := by
  unfold BacktrackM.set_min_distance_to
  simp

/-- Distances elsewhere are untouched by _set_min_distance_to. -/
theorem set_min_other (dist : Pos → Nat) (pos q : Pos) (h : q ≠ pos) :
    BacktrackM.set_min_distance_to dist pos q = dist q := by
  unfold BacktrackM.set_min_distance_to
  simp [h]

/-- One propagation step never increases any distance and preserves the
propagation invariant (with the step bound advanced by one). -/
theorem pf_step_mono_inv (m : Pos → Option Char) (k : Nat) (s : BacktrackM.PFState)
    (hk : k + 1 < INT_INFINITY) (hinv : BacktrackM.pfInv m k s) :
    (∀ p, (BacktrackM.pf_step m s).distances p ≤ s.distances p) ∧
      BacktrackM.pfInv m (k + 1) (BacktrackM.pf_step m s) := by
  obtain ⟨hP1, hP2, hP3, hP4, ⟨hP5q, hP5d⟩, hP6, hP7⟩ := hinv
  cases hres : s.result with
  | some r =>
    have hstep : BacktrackM.pf_step m s = s := by
      unfold BacktrackM.pf_step
      rw [hres]
    rw [hstep]
    exact ⟨fun p => le_refl _,
      hP1, hP2, hP3, fun p hp => Nat.le_trans (hP4 p hp) (Nat.le_succ k),
      ⟨hP5q, hP5d⟩, hP6, hP7⟩
  | none =>
    cases hq : s.cells_queue with
    | nil =>
      have hstep : BacktrackM.pf_step m s =
          { s with result := some BacktrackM.PFResult.unreachable } := by
        unfold BacktrackM.pf_step
        rw [hres, hq]
      rw [hstep]
      refine ⟨fun p => le_refl _, ?_, ?_, ?_, ?_, ⟨?_, ?_⟩, ?_, ?_⟩
      · exact fun p hp => (hP1 p hp)
      · exact hP2
      · exact hP3
      · exact fun p hp => Nat.le_trans (hP4 p hp) (Nat.le_succ k)
      · exact hP5q
      · exact hP5d
      · exact hP6
      · exact hP7
    | cons current rest =>
      have hstep : BacktrackM.pf_step m s =
          { distances := BacktrackM.set_min_distance_to s.distances current,
            cells_queue := rest ++ BacktrackM.pf_available_neighbours m
              (BacktrackM.set_min_distance_to s.distances current) current,
            result := if m current = some ('K') then
              some (BacktrackM.PFResult.success
                (BacktrackM.set_min_distance_to s.distances current current))
              else none } := by
        unfold BacktrackM.pf_step
        rw [hres, hq]
      have hcur_mem : current ∈ s.cells_queue := by
        rw [hq]; exact List.mem_cons_self _ _
      have hcur_inB : inBounds current := hP7 current hcur_mem
      have hcur_nd : BacktrackM.isDangerInfo (m current) = false := by
        cases hdc : BacktrackM.isDangerInfo (m current)
        · rfl
        · exact absurd hcur_mem ((hP1 current hdc).1)
      obtain ⟨n0, hn0mem, hn0fin⟩ := hP2 current hcur_mem
      have hmm_le_n0 : BacktrackM.minList
          ((BacktrackM.get_neighbors current).map s.distances) ≤ s.distances n0 :=
        minList_le _ _ (List.mem_map_of_mem s.distances hn0mem)
      have hmmk : BacktrackM.minList
          ((BacktrackM.get_neighbors current).map s.distances) ≤ k :=
        Nat.le_trans hmm_le_n0 (hP4 n0 hn0fin)
      have hd1cur : BacktrackM.set_min_distance_to s.distances current current =
          BacktrackM.minList ((BacktrackM.get_neighbors current).map s.distances) + 1 :=
        set_min_self s.distances current
      have hd1curlt :
          BacktrackM.set_min_distance_to s.distances current current < INT_INFINITY := by
        rw [hd1cur]; omega
      have hcur_ne0 : current ≠ (0, 0) := by
        intro hc; rw [hc] at hcur_mem; exact hP5q hcur_mem
      have hmono : ∀ p,
          BacktrackM.set_min_distance_to s.distances current p ≤ s.distances p := by
        intro p
        by_cases hp : p = current
        · subst hp
          rw [hd1cur]
          rcases Nat.lt_or_ge (s.distances p) INT_INFINITY with hfin | hinf
          · rcases hP3 p hfin with h0 | ⟨n1, hn1mem, hn1le⟩
            · exact absurd h0 hcur_ne0
            · have hmle : BacktrackM.minList
                  ((BacktrackM.get_neighbors p).map s.distances) ≤ s.distances n1 :=
                minList_le _ _ (List.mem_map_of_mem s.distances hn1mem)
              omega
          · have hEq : s.distances p = INT_INFINITY :=
              Nat.le_antisymm (hP6 p) hinf
            omega
        · rw [set_min_other s.distances current p hp]
      rw [hstep]
      refine ⟨hmono, ?_, ?_, ?_, ?_, ⟨?_, ?_⟩, ?_, ?_⟩
      · -- dangers never queued, distance stays infinite
        intro p hdp
        constructor
        · intro hmem
          rcases List.mem_append.1 hmem with hm1 | hm1
          · exact (hP1 p hdp).1 (by rw [hq]; exact List.mem_cons_of_mem _ hm1)
          · rw [mem_pf_available] at hm1
            rw [hm1.2.2] at hdp
            cases hdp
        · have hpne : p ≠ current := by
            intro hcon; rw [hcon] at hdp; rw [hdp] at hcur_nd; cases hcur_nd
          show BacktrackM.set_min_distance_to s.distances current p = INT_INFINITY
          rw [set_min_other s.distances current p hpne]
          exact (hP1 p hdp).2
      · -- every queued cell has a neighbour with finite distance
        intro q hq1
        rcases List.mem_append.1 hq1 with hm1 | hm1
        · obtain ⟨n, hnmem, hnfin⟩ :=
            hP2 q (by rw [hq]; exact List.mem_cons_of_mem _ hm1)
          exact ⟨n, hnmem, Nat.lt_of_le_of_lt (hmono n) hnfin⟩
        · rw [mem_pf_available] at hm1
          exact ⟨current, bt_get_neighbors_symm current q hm1.1 hcur_inB, hd1curlt⟩
      · -- every finite non-origin distance is supported by a neighbour
        intro p hpfin
        by_cases hp : p = current
        · subst hp
          right
          have hmem := minList_mem
            ((BacktrackM.get_neighbors p).map s.distances) (by
              intro hcon
              rw [List.map_eq_nil_iff] at hcon
              rw [hcon] at hn0mem
              cases hn0mem)
          rw [List.mem_map] at hmem
          obtain ⟨n2, hn2mem, hn2eq⟩ := hmem
          refine ⟨n2, hn2mem, ?_⟩
          have hn2ne : n2 ≠ p := by
            intro hcon
            rw [hcon] at hn2mem
            exact not_mem_get_neighbors_self p hn2mem
          show BacktrackM.set_min_distance_to s.distances p n2 + 1 ≤
            BacktrackM.set_min_distance_to s.distances p p
          rw [set_min_other s.distances p n2 hn2ne, hd1cur, hn2eq]
        · have hpfin2 : s.distances p < INT_INFINITY := by
            have hx : BacktrackM.set_min_distance_to s.distances current p
                = s.distances p := set_min_other s.distances current p hp
            exact hx ▸ hpfin
          rcases hP3 p hpfin2 with h0 | ⟨n, hnmem, hnle⟩
          · exact Or.inl h0
          · right
            refine ⟨n, hnmem, ?_⟩
            have h1 := hmono n
            show BacktrackM.set_min_distance_to s.distances current n + 1 ≤
              BacktrackM.set_min_distance_to s.distances current p
            rw [set_min_other s.distances current p hp]
            omega
      · -- finite distances bounded by the step count
        intro p hpfin
        by_cases hp : p = current
        · subst hp
          show BacktrackM.set_min_distance_to s.distances p p ≤ k + 1
          rw [hd1cur]
          omega
        · show BacktrackM.set_min_distance_to s.distances current p ≤ k + 1
          rw [set_min_other s.distances current p hp]
          have hpfin2 : s.distances p < INT_INFINITY := by
            have hx : BacktrackM.set_min_distance_to s.distances current p
                = s.distances p := set_min_other s.distances current p hp
            exact hx ▸ hpfin
          exact Nat.le_trans (hP4 p hpfin2) (Nat.le_succ k)
      · -- the origin is never queued
        intro hmem
        rcases List.mem_append.1 hmem with hm1 | hm1
        · exact hP5q (by rw [hq]; exact List.mem_cons_of_mem _ hm1)
        · rw [mem_pf_available] at hm1
          have h0 : BacktrackM.set_min_distance_to s.distances current (0, 0) = 0 := by
            rw [set_min_other s.distances current (0, 0) (Ne.symm hcur_ne0)]
            exact hP5d
          rw [h0] at hm1
          have := INT_INFINITY_pos
          omega
      · -- the origin keeps distance 0
        show BacktrackM.set_min_distance_to s.distances current (0, 0) = 0
        rw [set_min_other s.distances current (0, 0) (Ne.symm hcur_ne0)]
        exact hP5d
      · -- all distances bounded by the sentinel
        intro p
        by_cases hp : p = current
        · subst hp
          show BacktrackM.set_min_distance_to s.distances p p ≤ INT_INFINITY
          rw [hd1cur]
          omega
        · show BacktrackM.set_min_distance_to s.distances current p ≤ INT_INFINITY
          rw [set_min_other s.distances current p hp]
          exact hP6 p
      · -- queued cells are in bounds
        intro q hq1
        rcases List.mem_append.1 hq1 with hm1 | hm1
        · exact hP7 q (by rw [hq]; exact List.mem_cons_of_mem _ hm1)
        · rw [mem_pf_available] at hm1
          exact bt_get_neighbors_inBounds current q hm1.1

/-- The initial propagation state satisfies the invariant (provided the
origin itself is not recorded as a danger, which holds whenever the agent
survived the walk: fill_map marks the origin '.' unless a response reported
a danger item at the origin itself). -/
theorem pf_init_inv (m : Pos → Option Char)
    (hm : BacktrackM.isDangerInfo (m (0, 0)) = false) :
    BacktrackM.pfInv m 0 (BacktrackM.pf_init m) := by
  have hdval : ∀ p : Pos, (BacktrackM.pf_init m).distances p =
      if p = ((0, 0) : Pos) then 0 else INT_INFINITY := fun p => rfl
  have hq0 : (BacktrackM.pf_init m).cells_queue =
      BacktrackM.pf_available_neighbours m
        (BacktrackM.pf_init m).distances (0, 0) := rfl
  refine ⟨?_, ?_, ?_, ?_, ⟨?_, ?_⟩, ?_, ?_⟩
  · intro p hdp
    constructor
    · intro hmem
      rw [hq0, mem_pf_available] at hmem
      rw [hmem.2.2] at hdp
      cases hdp
    · have hp0 : p ≠ ((0, 0) : Pos) := by
        intro hc; rw [hc] at hdp; rw [hdp] at hm; cases hm
      rw [hdval p, if_neg hp0]
  · intro q hmem
    rw [hq0, mem_pf_available] at hmem
    refine ⟨(0, 0), bt_get_neighbors_symm (0, 0) q hmem.1 (by decide), ?_⟩
    rw [hdval (0, 0), if_pos rfl]
    exact INT_INFINITY_pos
  · intro p hp
    by_cases hp0 : p = ((0, 0) : Pos)
    · exact Or.inl hp0
    · rw [hdval p, if_neg hp0] at hp
      exact absurd hp (Nat.lt_irrefl INT_INFINITY)
  · intro p hp
    by_cases hp0 : p = ((0, 0) : Pos)
    · rw [hdval p, if_pos hp0]
    · rw [hdval p, if_neg hp0] at hp
      exact absurd hp (Nat.lt_irrefl INT_INFINITY)
  · intro hmem
    rw [hq0, mem_pf_available] at hmem
    exact not_mem_get_neighbors_self (0, 0) hmem.1
  · rw [hdval (0, 0), if_pos rfl]
  · intro p
    by_cases hp0 : p = ((0, 0) : Pos)
    · rw [hdval p, if_pos hp0]
      exact Nat.zero_le INT_INFINITY
    · rw [hdval p, if_neg hp0]
  · intro q hmem
    rw [hq0, mem_pf_available] at hmem
    exact bt_get_neighbors_inBounds (0, 0) q hmem.1

/-- The propagation invariant holds after any number of steps below the
sentinel. -/
theorem pf_steps_inv (m : Pos → Option Char)
    (hm : BacktrackM.isDangerInfo (m (0, 0)) = false) (n : Nat)
    (hn : n < INT_INFINITY) :
    BacktrackM.pfInv m n (BacktrackM.pfSteps m n) := by
  induction n with
  | zero => exact pf_init_inv m hm
  | succ i ih =>
    have hi : i < INT_INFINITY := Nat.lt_of_succ_lt hn
    exact (pf_step_mono_inv m i (BacktrackM.pfSteps m i) hn (ih hi)).2

/-- Claim C7, amended: a position can enter the Propagation Queue several
times in one pass (see the counterexample), but the distance value stored
for any position never increases as the queue drains: every step of the
propagation loop is pointwise non-increasing on the distance grid. -/
theorem C7_propagation_amended (m : Pos → Option Char) (n : Nat) (p : Pos)
    (hm : BacktrackM.isDangerInfo (m (0, 0)) = false)
    (hn : n + 1 < INT_INFINITY) :
    (BacktrackM.pfSteps m (n + 1)).distances p ≤
      (BacktrackM.pfSteps m n).distances p := by
  have hinv := pf_steps_inv m hm n (Nat.lt_of_succ_lt hn)
  exact (pf_step_mono_inv m n (BacktrackM.pfSteps m n) hn hinv).1 p

/-- Witness for C7_propagation_amended on the discovered danger-free map. -/
theorem C7_propagation_witness :
    BacktrackM.isDangerInfo (mapAllDot (0, 0)) = false ∧
    (0 : Nat) + 1 < INT_INFINITY ∧
    (BacktrackM.pfSteps mapAllDot (0 + 1)).distances (1, 0) ≤
      (BacktrackM.pfSteps mapAllDot 0).distances (1, 0) :=
  ⟨by decide, by norm_num [INT_INFINITY],
    C7_propagation_amended mapAllDot 0 (1, 0) (by decide)
      (by norm_num [INT_INFINITY])⟩

/-- Claim C10: during propagation, a position recorded as a danger item is
never in the queue and its distance stays at the infinity sentinel, and for
every popped cell (the queue head) the minimum that _set_min_distance_to
takes over ALL grid neighbours equals the minimum over the traversable
(non-danger) neighbours only, that set being nonempty. -/
theorem C10_danger_isolation (m : Pos → Option Char) (n : Nat)
    (hm : BacktrackM.isDangerInfo (m (0, 0)) = false)
    (hn : n < INT_INFINITY) :
    (∀ p, BacktrackM.isDangerInfo (m p) = true →
      p ∉ (BacktrackM.pfSteps m n).cells_queue ∧
        (BacktrackM.pfSteps m n).distances p = INT_INFINITY) ∧
    (∀ current rest,
      (BacktrackM.pfSteps m n).cells_queue = current :: rest →
      ((BacktrackM.get_neighbors current).filter
          (fun q => !(BacktrackM.isDangerInfo (m q)))) ≠ [] ∧
      BacktrackM.minList ((BacktrackM.get_neighbors current).map
          (BacktrackM.pfSteps m n).distances) =
        BacktrackM.minList
          (((BacktrackM.get_neighbors current).filter
            (fun q => !(BacktrackM.isDangerInfo (m q)))).map
              (BacktrackM.pfSteps m n).distances)) := by
  obtain ⟨hP1, hP2, hP3, hP4, hP5, hP6, hP7⟩ := pf_steps_inv m hm n hn
  refine ⟨hP1, ?_⟩
  intro current rest hqeq
  have hcur_mem : current ∈ (BacktrackM.pfSteps m n).cells_queue := by
    rw [hqeq]; exact List.mem_cons_self _ _
  obtain ⟨n0, hn0mem, hn0fin⟩ := hP2 current hcur_mem
  have hn0nd : BacktrackM.isDangerInfo (m n0) = false := by
    cases hdc : BacktrackM.isDangerInfo (m n0)
    · rfl
    · have hINF := (hP1 n0 hdc).2
      rw [hINF] at hn0fin
      exact absurd hn0fin (Nat.lt_irrefl _)
  have hn0filt : n0 ∈ (BacktrackM.get_neighbors current).filter
      (fun q => !(BacktrackM.isDangerInfo (m q))) := by
    rw [List.mem_filter]
    exact ⟨hn0mem, by rw [hn0nd]; rfl⟩
  refine ⟨List.ne_nil_of_mem hn0filt, ?_⟩
  apply Nat.le_antisymm
  · have hvmem := minList_mem
      (((BacktrackM.get_neighbors current).filter
        (fun q => !(BacktrackM.isDangerInfo (m q)))).map
          (BacktrackM.pfSteps m n).distances) (by
        intro hcon
        rw [List.map_eq_nil_iff] at hcon
        rw [hcon] at hn0filt
        cases hn0filt)
    rw [List.mem_map] at hvmem
    obtain ⟨x, hxfilt, hxeq⟩ := hvmem
    have hxnbr : x ∈ BacktrackM.get_neighbors current :=
      List.mem_of_mem_filter hxfilt
    rw [← hxeq]
    exact minList_le _ _ (List.mem_map_of_mem _ hxnbr)
  · have hvmem := minList_mem
      ((BacktrackM.get_neighbors current).map
        (BacktrackM.pfSteps m n).distances) (by
        intro hcon
        rw [List.map_eq_nil_iff] at hcon
        rw [hcon] at hn0mem
        cases hn0mem)
    rw [List.mem_map] at hvmem
    obtain ⟨x, hxnbr, hxeq⟩ := hvmem
    by_cases hdx : BacktrackM.isDangerInfo (m x) = true
    · have hxINF : (BacktrackM.pfSteps m n).distances x = INT_INFINITY :=
        (hP1 x hdx).2
      have hle : BacktrackM.minList
          (((BacktrackM.get_neighbors current).filter
            (fun q => !(BacktrackM.isDangerInfo (m q)))).map
              (BacktrackM.pfSteps m n).distances) ≤
          (BacktrackM.pfSteps m n).distances n0 :=
        minList_le _ _ (List.mem_map_of_mem _ hn0filt)
      rw [← hxeq, hxINF]
      omega
    · have hdx2 : BacktrackM.isDangerInfo (m x) = false := by
        cases hb : BacktrackM.isDangerInfo (m x)
        · rfl
        · exact absurd hb hdx
      have hxfilt : x ∈ (BacktrackM.get_neighbors current).filter
          (fun q => !(BacktrackM.isDangerInfo (m q))) := by
        rw [List.mem_filter]
        exact ⟨hxnbr, by rw [hdx2]; rfl⟩
      rw [← hxeq]
      exact minList_le _ _ (List.mem_map_of_mem _ hxfilt)

/-- Witness for C10_danger_isolation on the danger-free map after two steps,
where the queue head is (2,0). -/
theorem C10_danger_isolation_witness :
    BacktrackM.isDangerInfo (mapAllDot (0, 0)) = false ∧
    (2 : Nat) < INT_INFINITY ∧
    (((BacktrackM.get_neighbors (2, 0)).filter
        (fun q => !(BacktrackM.isDangerInfo (mapAllDot q)))) ≠ [] ∧
      BacktrackM.minList ((BacktrackM.get_neighbors (2, 0)).map
          (BacktrackM.pfSteps mapAllDot 2).distances) =
        BacktrackM.minList
          (((BacktrackM.get_neighbors (2, 0)).filter
            (fun q => !(BacktrackM.isDangerInfo (mapAllDot q)))).map
              (BacktrackM.pfSteps mapAllDot 2).distances)) :=
  ⟨by decide, by norm_num [INT_INFINITY],
    (C10_danger_isolation mapAllDot 2 (by decide) (by norm_num [INT_INFINITY])).2
      (2, 0) [(1, 1), (1, 1), (0, 2)] (by decide)⟩

/-- Recording items never erases map knowledge. -/
theorem add_items_ne_none (items : Items) (m : Pos → Option Char) (p : Pos)
    (h : m p ≠ none) : BacktrackM.add_items m items p ≠ none := by
  induction items generalizing m with
  | nil => exact h
  | cons it its ih =>
    unfold BacktrackM.add_items at ih ⊢
    rw [List.foldl_cons]
    apply ih
    unfold BacktrackM.map_set
    by_cases hp : p = it.1
    · simp [hp]
    · simpa [hp] using h

/-- Marking a cell visited never erases map knowledge. -/
theorem add_visited_ne_none (m : Pos → Option Char) (q p : Pos)
    (h : m p ≠ none) : BacktrackM.add_visited m q p ≠ none := by
  unfold BacktrackM.add_visited
  cases hq : m q
  · unfold BacktrackM.map_set
    by_cases hpq : p = q <;> simp [hpq, h]
  · simp [h]

/-- The moved-to cell is recorded on the map. -/
theorem add_visited_target (m : Pos → Option Char) (p : Pos) :
    BacktrackM.add_visited m p p ≠ none := by
  unfold BacktrackM.add_visited
  cases hq : m p
  · unfold BacktrackM.map_set
    simp
  · simp [hq]

/-- Map knowledge is monotone along a move. -/
theorem move_to_map_mono (obs : Env) (s : BacktrackM.GState) (p q : Pos)
    (h : s.game_map q ≠ none) : (BacktrackM.move_to obs s p).game_map q ≠ none := by
  unfold BacktrackM.move_to
  exact add_visited_ne_none _ p q (add_items_ne_none _ s.game_map q h)

/-- The destination of a move is recorded on the map. -/
theorem move_to_map_target (obs : Env) (s : BacktrackM.GState) (p : Pos) :
    (BacktrackM.move_to obs s p).game_map p ≠ none := by
  unfold BacktrackM.move_to
  exact add_visited_target _ p

/-- Membership in the mapper's available-neighbour list. -/
theorem mem_get_available (m : Pos → Option Char) (pos n : Pos) :
    n ∈ BacktrackM.get_available_neighbours m pos ↔
      n ∈ BacktrackM.get_neighbors pos ∧ m n = none := by
  unfold BacktrackM.get_available_neighbours
  simp [List.mem_filter, Option.isNone_iff_eq_none]

/-- A position with available neighbours yields its first one. -/
theorem get_neighbour_of_has (m : Pos → Option Char) (pos : Pos)
    (h : BacktrackM.has_available m pos = true) :
    ∃ n, BacktrackM.get_neighbour m pos = some n ∧
      n ∈ BacktrackM.get_available_neighbours m pos := by
  unfold BacktrackM.has_available at h
  unfold BacktrackM.get_neighbour
  cases hl : BacktrackM.get_available_neighbours m pos with
  | nil => rw [hl] at h; simp at h
  | cons x xs =>
    exact ⟨x, rfl, List.mem_cons_self x xs⟩

/-- A finished mapper state is a fixed point of the loop. -/
theorem fill_map_step_finished (obs : Env) (s : BacktrackM.GState)
    (h : s.finished = true) : BacktrackM.fill_map_step obs s = s := by
  unfold BacktrackM.fill_map_step
  rw [h]
  simp

/-- A crashed mapper state is a fixed point of the loop. -/
theorem fill_map_step_crashed (obs : Env) (s : BacktrackM.GState)
    (h : s.crashed = true) : BacktrackM.fill_map_step obs s = s := by
  unfold BacktrackM.fill_map_step
  rw [h]
  simp

/-- Termination branch: at the origin with no available neighbour. -/
theorem fill_map_step_term (obs : Env) (s : BacktrackM.GState)
    (h1 : s.finished = false) (h2 : s.crashed = false)
    (h3 : BacktrackM.get_current_pos s = (0, 0))
    (h4 : BacktrackM.has_available s.game_map (BacktrackM.get_current_pos s) = false) :
    BacktrackM.fill_map_step obs s = { s with finished := true } := by
  unfold BacktrackM.fill_map_step
  rw [h1, h2, h3]
  rw [h3] at h4
  have h4z : BacktrackM.has_available s.game_map 0 = false := h4
  simp [h4z]

/-- Forward branch while already in forward mode: move to the first
available neighbour. -/
theorem fill_map_step_forward (obs : Env) (s : BacktrackM.GState) (n : Pos)
    (h1 : s.finished = false) (h2 : s.crashed = false)
    (h4 : BacktrackM.has_available s.game_map (BacktrackM.get_current_pos s) = true)
    (h5 : s.is_first_backtrack = true)
    (hn : BacktrackM.get_neighbour s.game_map (BacktrackM.get_current_pos s) = some n) :
    BacktrackM.fill_map_step obs s = BacktrackM.move_to obs s n := by
  unfold BacktrackM.fill_map_step
  rw [h1, h2]
  simp [h4, h5, hn]

/-- Forward branch after a backtrack chain: first a repositioning move to
the stack top, then a move to the first available neighbour. -/
theorem fill_map_step_resume (obs : Env) (s : BacktrackM.GState) (n : Pos)
    (h1 : s.finished = false) (h2 : s.crashed = false)
    (h4 : BacktrackM.has_available s.game_map (BacktrackM.get_current_pos s) = true)
    (h5 : s.is_first_backtrack = false)
    (hn : BacktrackM.get_neighbour s.game_map (BacktrackM.get_current_pos s) = some n) :
    BacktrackM.fill_map_step obs s = BacktrackM.move_to obs
      { s with
        moves := s.moves ++ [BacktrackM.get_current_pos s],
        agent := BacktrackM.get_current_pos s,
        is_first_backtrack := true } n := by
  unfold BacktrackM.fill_map_step
  rw [h1, h2]
  simp [h4, h5, hn]

/-- First backtrack of a chain: a silent pop followed by a pop and a real
move to the popped cell. -/
theorem fill_map_step_backtrack_first (obs : Env) (s : BacktrackM.GState) (prev : Pos)
    (h1 : s.finished = false) (h2 : s.crashed = false)
    (h30 : BacktrackM.get_current_pos s ≠ (0, 0))
    (h4 : BacktrackM.has_available s.game_map (BacktrackM.get_current_pos s) = false)
    (h5 : s.is_first_backtrack = true)
    (hst : s.visited_path.isEmpty = false)
    (hprev : s.visited_path.dropLast.getLast? = some prev) :
    BacktrackM.fill_map_step obs s =
      { s with
        visited_path := s.visited_path.dropLast.dropLast,
        is_first_backtrack := false,
        moves := s.moves ++ [prev], agent := prev } := by
  unfold BacktrackM.fill_map_step
  rw [h1, h2]
  have h30z : ¬ BacktrackM.get_current_pos s = 0 := h30
  simp [h4, h5, h30z, hst, hprev, h1, h2]

/-- Later backtrack of a chain: a pop and a real move to the popped cell. -/
theorem fill_map_step_backtrack_next (obs : Env) (s : BacktrackM.GState) (prev : Pos)
    (h1 : s.finished = false) (h2 : s.crashed = false)
    (h30 : BacktrackM.get_current_pos s ≠ (0, 0))
    (h4 : BacktrackM.has_available s.game_map (BacktrackM.get_current_pos s) = false)
    (h5 : s.is_first_backtrack = false)
    (hprev : s.visited_path.getLast? = some prev) :
    BacktrackM.fill_map_step obs s =
      { s with
        visited_path := s.visited_path.dropLast,
        moves := s.moves ++ [prev], agent := prev } := by
  unfold BacktrackM.fill_map_step
  rw [h1, h2]
  have h30z : ¬ BacktrackM.get_current_pos s = 0 := h30
  simp [h4, h5, h30z, hprev, h1, h2]

/-- Head of an append with nonempty left part. -/
theorem head?_append_left (l₁ l₂ : List Pos) (h : l₁ ≠ []) :
    (l₁ ++ l₂).head? = l₁.head? := by
  cases l₁ with
  | nil => exact absurd rfl h
  | cons x xs => rfl

/-- Appending an adjacent cell preserves the adjacency chain. -/
theorem chain'_concat_adj (l : List Pos) (a : Pos)
    (hc : List.Chain' adjStep l)
    (hlink : ∀ x, l.getLast? = some x → adjStep x a) :
    List.Chain' adjStep (l ++ [a]) := by
  rw [List.chain'_append]
  refine ⟨hc, List.chain'_singleton a, ?_⟩
  intro x hx y hy
  simp only [List.head?_cons, Option.mem_def, Option.some.injEq] at hy
  subst hy
  exact hlink x hx

/-- Dropping the last element preserves the adjacency chain. -/
theorem chain'_dropLast_adj (l : List Pos) (hc : List.Chain' adjStep l) :
    List.Chain' adjStep l.dropLast := by
  by_cases h : l = []
  · subst h; exact List.chain'_nil
  · rw [← List.dropLast_append_getLast h] at hc
    exact (List.chain'_append.1 hc).1

/-- A list with a known last element is its dropLast plus that element. -/
theorem eq_dropLast_concat (l : List Pos) (a : Pos) (h : l.getLast? = some a) :
    l = l.dropLast ++ [a] := by
  induction l with
  | nil => cases h
  | cons x xs ih =>
    cases hxs : xs with
    | nil =>
      subst hxs
      simp only [List.getLast?_singleton, Option.some.injEq] at h
      subst h
      rfl
    | cons y ys =>
      subst hxs
      rw [List.getLast?_cons_cons] at h
      have hih := ih h
      show x :: (y :: ys) = (x :: (y :: ys).dropLast) ++ [a]
      rw [List.cons_append]
      exact congrArg (x :: ·) hih

/-- Head survives dropLast when something remains. -/
theorem head?_dropLast_pos (l : List Pos) (h : l.dropLast ≠ []) :
    l.dropLast.head? = l.head? := by
  cases l with
  | nil => exact absurd rfl h
  | cons x xs =>
    cases xs with
    | nil => exact absurd rfl h
    | cons y ys => rfl

/-- Current position once the walk stack's last entry is known. -/
theorem get_current_pos_eq (s : BacktrackM.GState) (a : Pos)
    (h : s.visited_path.getLast? = some a) :
    BacktrackM.get_current_pos s = a := by
  unfold BacktrackM.get_current_pos
  rw [h]

/-- Current position of an empty walk stack is the origin. -/
theorem get_current_pos_nil (s : BacktrackM.GState) (h : s.visited_path = []) :
    BacktrackM.get_current_pos s = (0, 0) := by
  unfold BacktrackM.get_current_pos
  rw [h]
  rfl

/-- Walk stack after a move. -/
theorem move_to_visited (obs : Env) (s : BacktrackM.GState) (p : Pos) :
    (BacktrackM.move_to obs s p).visited_path = s.visited_path ++ [p] := rfl

/-- Backtrack flag after a move. -/
theorem move_to_flag (obs : Env) (s : BacktrackM.GState) (p : Pos) :
    (BacktrackM.move_to obs s p).is_first_backtrack = s.is_first_backtrack := rfl

/-- Agent position after a move. -/
theorem move_to_agent (obs : Env) (s : BacktrackM.GState) (p : Pos) :
    (BacktrackM.move_to obs s p).agent = p := rfl

/-- Crash of the first pop when the stack is already empty. -/
theorem fill_map_step_crashA (obs : Env) (s : BacktrackM.GState)
    (h1 : s.finished = false) (h2 : s.crashed = false)
    (h30 : BacktrackM.get_current_pos s ≠ (0, 0))
    (h4 : BacktrackM.has_available s.game_map (BacktrackM.get_current_pos s) = false)
    (h5 : s.is_first_backtrack = true)
    (hst : s.visited_path.isEmpty = true) :
    BacktrackM.fill_map_step obs s = { s with crashed := true } := by
  unfold BacktrackM.fill_map_step
  rw [h1, h2]
  have h30z : ¬ BacktrackM.get_current_pos s = 0 := h30
  simp [h4, h5, h30z, hst, h1, h2]

/-- Crash of the second pop of the first backtrack. -/
theorem fill_map_step_crashB (obs : Env) (s : BacktrackM.GState)
    (h1 : s.finished = false) (h2 : s.crashed = false)
    (h30 : BacktrackM.get_current_pos s ≠ (0, 0))
    (h4 : BacktrackM.has_available s.game_map (BacktrackM.get_current_pos s) = false)
    (h5 : s.is_first_backtrack = true)
    (hst : s.visited_path.isEmpty = false)
    (hdl : s.visited_path.dropLast.getLast? = none) :
    BacktrackM.fill_map_step obs s =
      { s with
        visited_path := s.visited_path.dropLast,
        is_first_backtrack := false, crashed := true } := by
  unfold BacktrackM.fill_map_step
  rw [h1, h2]
  have h30z : ¬ BacktrackM.get_current_pos s = 0 := h30
  simp [h4, h5, h30z, hst, hdl, h1, h2]

/-- Crash of a later backtrack pop on an empty stack. -/
theorem fill_map_step_crashC (obs : Env) (s : BacktrackM.GState)
    (h1 : s.finished = false) (h2 : s.crashed = false)
    (h30 : BacktrackM.get_current_pos s ≠ (0, 0))
    (h4 : BacktrackM.has_available s.game_map (BacktrackM.get_current_pos s) = false)
    (h5 : s.is_first_backtrack = false)
    (hdl : s.visited_path.getLast? = none) :
    BacktrackM.fill_map_step obs s = { s with crashed := true } := by
  unfold BacktrackM.fill_map_step
  rw [h1, h2]
  have h30z : ¬ BacktrackM.get_current_pos s = 0 := h30
  simp [h4, h5, h30z, hdl, h2, h1]

/-- One non-crashing iteration of the fill_map loop preserves the walk
record invariant. -/
theorem btQ_step (obs : Env) (s : BacktrackM.GState)
    (hQ : btQ s) (hcrash : s.crashed = false)
    (hcrash2 : (BacktrackM.fill_map_step obs s).crashed = false) :
    btQ (BacktrackM.fill_map_step obs s) := by
  obtain ⟨hne, hchain, hnodup, hlast, hhead, hmap⟩ := hQ
  by_cases hfin : s.finished = true
  · rw [fill_map_step_finished obs s hfin]
    exact ⟨hne, hchain, hnodup, hlast, hhead, hmap⟩
  · have hfin2 : s.finished = false := by
      revert hfin; cases s.finished <;> simp
    by_cases hhas : BacktrackM.has_available s.game_map
        (BacktrackM.get_current_pos s) = true
    · obtain ⟨n, hn, hnav⟩ := get_neighbour_of_has _ _ hhas
      have hnav2 := hnav
      rw [mem_get_available] at hnav2
      obtain ⟨hnnbr, hnnone⟩ := hnav2
      by_cases h5 : s.is_first_backtrack = true
      · -- forward move in forward mode
        rw [fill_map_step_forward obs s n hfin2 hcrash hhas h5 hn]
        have heff : BacktrackM.effStack s = s.visited_path := by
          unfold BacktrackM.effStack; rw [h5]; simp
        rw [heff] at hne hchain hnodup hlast hhead hmap
        have hcur : BacktrackM.get_current_pos s = s.agent :=
          get_current_pos_eq s s.agent hlast
        have heff2 : BacktrackM.effStack (BacktrackM.move_to obs s n) =
            s.visited_path ++ [n] := by
          unfold BacktrackM.effStack
          rw [move_to_flag, h5, move_to_visited]
          simp
        have hnotin : n ∉ s.visited_path := by
          intro hmem
          exact (hmap n hmem) hnnone
        refine ⟨?_, ?_, ?_, ?_, ?_, ?_⟩
        · rw [heff2]; simp
        · rw [heff2]
          refine chain'_concat_adj _ n hchain ?_
          intro x hx
          rw [hlast] at hx
          injection hx with hx
          subst hx
          rw [hcur] at hnnbr
          exact ((bt_get_neighbors_spec s.agent n).1 hnnbr).1
        · rw [heff2, List.nodup_append]
          exact ⟨hnodup, List.nodup_singleton n, by
            intro x hx hx2
            simp only [List.mem_singleton] at hx2
            subst hx2
            exact hnotin hx⟩
        · rw [heff2, List.getLast?_concat, move_to_agent]
        · rw [heff2, head?_append_left _ _ hne]
          exact hhead
        · rw [heff2]
          intro p hp
          rcases List.mem_append.1 hp with hp1 | hp1
          · exact move_to_map_mono obs s n p (hmap p hp1)
          · simp only [List.mem_singleton] at hp1
            subst hp1
            exact move_to_map_target obs s p
      · -- resume: reposition to the stack top, then a forward move
        have h5f : s.is_first_backtrack = false := by
          revert h5; cases s.is_first_backtrack <;> simp
        rw [fill_map_step_resume obs s n hfin2 hcrash hhas h5f hn]
        have heff : BacktrackM.effStack s = s.visited_path ++ [s.agent] := by
          unfold BacktrackM.effStack; rw [h5f]; simp
        rw [heff] at hne hchain hnodup hlast hhead hmap
        have hchain2 : List.Chain' adjStep s.visited_path :=
          (List.chain'_append.1 hchain).1
        have hnodup2 : s.visited_path.Nodup :=
          (List.sublist_append_left s.visited_path [s.agent]).nodup hnodup
        have heff2 : BacktrackM.effStack (BacktrackM.move_to obs
            { s with
              moves := s.moves ++ [BacktrackM.get_current_pos s],
              agent := BacktrackM.get_current_pos s,
              is_first_backtrack := true } n) = s.visited_path ++ [n] := by
          unfold BacktrackM.effStack
          rw [move_to_flag, move_to_visited]
          simp
        have hnotin : n ∉ s.visited_path := by
          intro hmem
          exact (hmap n (List.mem_append_left _ hmem)) hnnone
        refine ⟨?_, ?_, ?_, ?_, ?_, ?_⟩
        · rw [heff2]; simp
        · rw [heff2]
          refine chain'_concat_adj _ n hchain2 ?_
          intro x hx
          have hcur : BacktrackM.get_current_pos s = x := get_current_pos_eq s x hx
          rw [hcur] at hnnbr
          exact ((bt_get_neighbors_spec x n).1 hnnbr).1
        · rw [heff2, List.nodup_append]
          exact ⟨hnodup2, List.nodup_singleton n, by
            intro x hx hx2
            simp only [List.mem_singleton] at hx2
            subst hx2
            exact hnotin hx⟩
        · rw [heff2, List.getLast?_concat, move_to_agent]
        · rw [heff2]
          rcases hst : s.visited_path with _ | ⟨x, xs⟩
          · refine ⟨n, rfl, Or.inr ?_⟩
            have hcur : BacktrackM.get_current_pos s = (0, 0) :=
              get_current_pos_nil s hst
            rw [hcur] at hnnbr
            exact ((bt_get_neighbors_spec (0, 0) n).1 hnnbr).1
          · rw [head?_append_left _ _ (by simp)]
            rw [hst, head?_append_left _ _ (by simp)] at hhead
            exact hhead
        · rw [heff2]
          intro p hp
          rcases List.mem_append.1 hp with hp1 | hp1
          · exact move_to_map_mono obs _ n p (hmap p (List.mem_append_left _ hp1))
          · simp only [List.mem_singleton] at hp1
            subst hp1
            exact move_to_map_target obs _ p
    · -- no available neighbour
      have hhasf : BacktrackM.has_available s.game_map
          (BacktrackM.get_current_pos s) = false := by
        revert hhas
        cases BacktrackM.has_available s.game_map (BacktrackM.get_current_pos s) <;>
          simp
      by_cases hcur0 : BacktrackM.get_current_pos s = (0, 0)
      · rw [fill_map_step_term obs s hfin2 hcrash hcur0 hhasf]
        exact ⟨hne, hchain, hnodup, hlast, hhead, hmap⟩
      · by_cases h5 : s.is_first_backtrack = true
        · -- first backtrack of a chain
          have heff : BacktrackM.effStack s = s.visited_path := by
            unfold BacktrackM.effStack; rw [h5]; simp
          rw [heff] at hne hchain hnodup hlast hhead hmap
          have hstE : s.visited_path.isEmpty = false := by
            rcases hl : s.visited_path with _ | ⟨x, xs⟩
            · exact absurd hl hne
            · rfl
          cases hdl : s.visited_path.dropLast.getLast? with
          | none =>
            have heq := fill_map_step_crashB obs s hfin2 hcrash hcur0 hhasf h5 hstE hdl
            rw [heq] at hcrash2
            simp at hcrash2
          | some prev =>
            rw [fill_map_step_backtrack_first obs s prev hfin2 hcrash hcur0
              hhasf h5 hstE hdl]
            have hdlne : s.visited_path.dropLast ≠ [] := by
              intro hcon; rw [hcon] at hdl; cases hdl
            have hdec : s.visited_path.dropLast =
                s.visited_path.dropLast.dropLast ++ [prev] :=
              eq_dropLast_concat _ prev hdl
            have heff2 : BacktrackM.effStack
                { s with
                  visited_path := s.visited_path.dropLast.dropLast,
                  is_first_backtrack := false,
                  moves := s.moves ++ [prev], agent := prev } =
                s.visited_path.dropLast := by
              unfold BacktrackM.effStack
              simp only [Bool.false_eq_true, if_false]
              exact hdec.symm
            refine ⟨?_, ?_, ?_, ?_, ?_, ?_⟩
            · rw [heff2]; exact hdlne
            · rw [heff2]; exact chain'_dropLast_adj _ hchain
            · rw [heff2]
              exact (List.dropLast_sublist s.visited_path).nodup hnodup
            · rw [heff2]; exact hdl
            · rw [heff2, head?_dropLast_pos _ hdlne]; exact hhead
            · rw [heff2]
              intro p hp
              exact hmap p ((List.dropLast_sublist s.visited_path).subset hp)
        · -- later backtrack of a chain
          have h5f : s.is_first_backtrack = false := by
            revert h5; cases s.is_first_backtrack <;> simp
          have heff : BacktrackM.effStack s = s.visited_path ++ [s.agent] := by
            unfold BacktrackM.effStack; rw [h5f]; simp
          rw [heff] at hne hchain hnodup hlast hhead hmap
          cases hdl : s.visited_path.getLast? with
          | none =>
            have heq := fill_map_step_crashC obs s hfin2 hcrash hcur0 hhasf h5f hdl
            rw [heq] at hcrash2
            simp at hcrash2
          | some prev =>
            rw [fill_map_step_backtrack_next obs s prev hfin2 hcrash hcur0
              hhasf h5f hdl]
            have hstne : s.visited_path ≠ [] := by
              intro hcon; rw [hcon] at hdl; cases hdl
            have hdec : s.visited_path =
                s.visited_path.dropLast ++ [prev] :=
              eq_dropLast_concat _ prev hdl
            have heff2 : BacktrackM.effStack
                { s with
                  visited_path := s.visited_path.dropLast,
                  moves := s.moves ++ [prev], agent := prev } =
                s.visited_path := by
              unfold BacktrackM.effStack
              rw [show ({ s with
                  visited_path := s.visited_path.dropLast,
                  moves := s.moves ++ [prev],
                  agent := prev } : BacktrackM.GState).is_first_backtrack =
                s.is_first_backtrack from rfl, h5f]
              simp only [Bool.false_eq_true, if_false]
              exact hdec.symm
            refine ⟨?_, ?_, ?_, ?_, ?_, ?_⟩
            · rw [heff2]; exact hstne
            · rw [heff2]; exact (List.chain'_append.1 hchain).1
            · rw [heff2]
              exact (List.sublist_append_left s.visited_path [s.agent]).nodup hnodup
            · rw [heff2]; exact hdl
            · rw [heff2]
              rw [head?_append_left _ _ hstne] at hhead
              exact hhead
            · rw [heff2]
              intro p hp
              exact hmap p (List.mem_append_left _ hp)

/-- The initial mapper state satisfies the walk record invariant. -/
theorem btQ_init (obs : Env) : btQ (BacktrackM.fill_map_init obs) := by
  have heff : BacktrackM.effStack (BacktrackM.fill_map_init obs) = [(0, 0)] := rfl
  refine ⟨?_, ?_, ?_, ?_, ?_, ?_⟩
  · rw [heff]; simp
  · rw [heff]; exact List.chain'_singleton _
  · rw [heff]; exact List.nodup_singleton _
  · rw [heff]; rfl
  · rw [heff]; exact ⟨(0, 0), rfl, Or.inl rfl⟩
  · rw [heff]
    intro p hp
    simp only [List.mem_singleton] at hp
    subst hp
    exact move_to_map_target obs _ (0, 0)

/-- Crashing is absorbing along the fill_map loop. -/
theorem fillMapSteps_crash_mono (obs : Env) (n : Nat)
    (h : (BacktrackM.fillMapSteps obs n).crashed = true) :
    (BacktrackM.fillMapSteps obs (n + 1)).crashed = true := by
  show (BacktrackM.fill_map_step obs (BacktrackM.fillMapSteps obs n)).crashed = true
  rw [fill_map_step_crashed obs _ h]
  exact h

/-- The walk record invariant holds at every non-crashed reachable state. -/
theorem bt_walk_inv (obs : Env) (n : Nat)
    (h : (BacktrackM.fillMapSteps obs n).crashed = false) :
    btQ (BacktrackM.fillMapSteps obs n) := by
  induction n with
  | zero => exact btQ_init obs
  | succ i ih =>
    have hci : (BacktrackM.fillMapSteps obs i).crashed = false := by
      cases hc : (BacktrackM.fillMapSteps obs i).crashed
      · rfl
      · rw [fillMapSteps_crash_mono obs i hc] at h
        cases h
    exact btQ_step obs (BacktrackM.fillMapSteps obs i) (ih hci) hci h

/-- One loop iteration keeps the pushed positions a subsequence of the
emitted moves (pushes happen exactly at forward moves; backtrack and
repositioning moves are emitted without a push). -/
theorem pushes_sublist_step (obs : Env) (s : BacktrackM.GState)
    (h : List.Sublist s.pushes s.moves) :
    List.Sublist (BacktrackM.fill_map_step obs s).pushes
      (BacktrackM.fill_map_step obs s).moves := by
  by_cases hcrash : s.crashed = true
  · rw [fill_map_step_crashed obs s hcrash]; exact h
  · have hcrash2 : s.crashed = false := by
      revert hcrash; cases s.crashed <;> simp
    by_cases hfin : s.finished = true
    · rw [fill_map_step_finished obs s hfin]; exact h
    · have hfin2 : s.finished = false := by
        revert hfin; cases s.finished <;> simp
      by_cases hhas : BacktrackM.has_available s.game_map
          (BacktrackM.get_current_pos s) = true
      · obtain ⟨n, hn, _⟩ := get_neighbour_of_has _ _ hhas
        by_cases h5 : s.is_first_backtrack = true
        · rw [fill_map_step_forward obs s n hfin2 hcrash2 hhas h5 hn]
          exact List.Sublist.append h (List.Sublist.refl [n])
        · have h5f : s.is_first_backtrack = false := by
            revert h5; cases s.is_first_backtrack <;> simp
          rw [fill_map_step_resume obs s n hfin2 hcrash2 hhas h5f hn]
          refine List.Sublist.append ?_ (List.Sublist.refl [n])
          exact h.trans (List.sublist_append_left s.moves _)
      · have hhasf : BacktrackM.has_available s.game_map
            (BacktrackM.get_current_pos s) = false := by
          revert hhas
          cases BacktrackM.has_available s.game_map (BacktrackM.get_current_pos s) <;>
            simp
        by_cases hcur0 : BacktrackM.get_current_pos s = (0, 0)
        · rw [fill_map_step_term obs s hfin2 hcrash2 hcur0 hhasf]; exact h
        · by_cases h5 : s.is_first_backtrack = true
          · cases hst : s.visited_path.isEmpty
            · cases hdl : s.visited_path.dropLast.getLast? with
              | none =>
                rw [fill_map_step_crashB obs s hfin2 hcrash2 hcur0 hhasf h5 hst hdl]
                exact h
              | some prev =>
                rw [fill_map_step_backtrack_first obs s prev hfin2 hcrash2 hcur0
                  hhasf h5 hst hdl]
                exact h.trans (List.sublist_append_left s.moves _)
            · rw [fill_map_step_crashA obs s hfin2 hcrash2 hcur0 hhasf h5 hst]
              exact h
          · have h5f : s.is_first_backtrack = false := by
              revert h5; cases s.is_first_backtrack <;> simp
            cases hdl : s.visited_path.getLast? with
            | none =>
              rw [fill_map_step_crashC obs s hfin2 hcrash2 hcur0 hhasf h5f hdl]
              exact h
            | some prev =>
              rw [fill_map_step_backtrack_next obs s prev hfin2 hcrash2 hcur0
                hhasf h5f hdl]
              exact h.trans (List.sublist_append_left s.moves _)

/-- The pushed positions always form a subsequence of the emitted moves. -/
theorem bt_pushes_sublist (obs : Env) (n : Nat) :
    List.Sublist (BacktrackM.fillMapSteps obs n).pushes
      (BacktrackM.fillMapSteps obs n).moves := by
  induction n with
  | zero => exact List.Sublist.refl _
  | succ i ih => exact pushes_sublist_step obs (BacktrackM.fillMapSteps obs i) ih

/-- Claim C6, amended: at every non-crashed reachable state of the
Exhaustive Mapper's walk, the Walk Stack - taken together with the agent's
position while inside a backtrack chain, when the stack is one entry short
of the agent - is a nonempty, duplicate-free chain of axis-adjacent cells
ending at the agent's physical position and starting at the origin or (after
the walk has backtracked into and re-left the origin, whose entry is then
lost) at a neighbour of the origin, with every cell recorded on the map; and
replaying the stack pushes reproduces the subsequence of forward real moves,
not the whole emitted move sequence. -/
theorem C6_walk_stack_amended (obs : Env) (n : Nat)
    (h : (BacktrackM.fillMapSteps obs n).crashed = false) :
    btQ (BacktrackM.fillMapSteps obs n) ∧
    List.Sublist (BacktrackM.fillMapSteps obs n).pushes
      (BacktrackM.fillMapSteps obs n).moves :=
  ⟨bt_walk_inv obs n h, bt_pushes_sublist obs n⟩

/-- Witness for C6_walk_stack_amended on the counterexample run right after
its backtrack move. -/
theorem C6_walk_stack_witness :
    (BacktrackM.fillMapSteps envC6 2).crashed = false ∧
    (btQ (BacktrackM.fillMapSteps envC6 2) ∧
      List.Sublist (BacktrackM.fillMapSteps envC6 2).pushes
        (BacktrackM.fillMapSteps envC6 2).moves) :=
  ⟨by decide, C6_walk_stack_amended envC6 2 (by decide)⟩

/-- Looking up the newly assigned key. -/
theorem dictLookup_insert_self (d : List (Pos × AStarM.Cell)) (p : Pos)
    (c : AStarM.Cell) :
    AStarM.dictLookup (AStarM.dictInsert d p c) p = some c := by
  induction d with
  | nil => simp [AStarM.dictInsert, AStarM.dictLookup]
  | cons qc rest ih =>
    obtain ⟨q0, c0⟩ := qc
    show AStarM.dictLookup
      (if q0 = p then (q0, c) :: rest else (q0, c0) :: AStarM.dictInsert rest p c)
      p = some c
    by_cases hq : q0 = p
    · rw [if_pos hq]
      show (if q0 = p then some c else AStarM.dictLookup rest p) = some c
      rw [if_pos hq]
    · rw [if_neg hq]
      show (if q0 = p then some c0
        else AStarM.dictLookup (AStarM.dictInsert rest p c) p) = some c
      rw [if_neg hq]
      exact ih

/-- Looking up any other key after an assignment. -/
theorem dictLookup_insert_other (d : List (Pos × AStarM.Cell)) (p q : Pos)
    (c : AStarM.Cell) (h : q ≠ p) :
    AStarM.dictLookup (AStarM.dictInsert d p c) q = AStarM.dictLookup d q := by
  induction d with
  | nil =>
    show (if p = q then some c else none) = none
    rw [if_neg (fun hc => h hc.symm)]
  | cons qc rest ih =>
    obtain ⟨q0, c0⟩ := qc
    show AStarM.dictLookup
      (if q0 = p then (q0, c) :: rest else (q0, c0) :: AStarM.dictInsert rest p c)
      q = AStarM.dictLookup ((q0, c0) :: rest) q
    by_cases hq : q0 = p
    · rw [if_pos hq]
      show (if q0 = q then some c else AStarM.dictLookup rest q) =
        AStarM.dictLookup ((q0, c0) :: rest) q
      rw [if_neg (fun hc => h (hq ▸ hc).symm)]
      show AStarM.dictLookup rest q =
        (if q0 = q then some c0 else AStarM.dictLookup rest q)
      rw [if_neg (fun hc => h (hq ▸ hc).symm)]
    · rw [if_neg hq]
      show (if q0 = q then some c0
          else AStarM.dictLookup (AStarM.dictInsert rest p c) q) =
        AStarM.dictLookup ((q0, c0) :: rest) q
      by_cases hqq : q0 = q
      · rw [if_pos hqq]
        show some c0 = (if q0 = q then some c0 else AStarM.dictLookup rest q)
        rw [if_pos hqq]
      · rw [if_neg hqq]
        rw [ih]
        show AStarM.dictLookup rest q =
          (if q0 = q then some c0 else AStarM.dictLookup rest q)
        rw [if_neg hqq]

/-- A lookup hit means the key is present with that cell. -/
theorem dictLookup_mem_keys (d : List (Pos × AStarM.Cell)) (p : Pos)
    (c : AStarM.Cell) (h : AStarM.dictLookup d p = some c) :
    p ∈ AStarM.dictKeys d ∧ (p, c) ∈ d := by
  induction d with
  | nil => cases h
  | cons qc rest ih =>
    obtain ⟨q0, c0⟩ := qc
    have h2 : (if q0 = p then some c0 else AStarM.dictLookup rest p) = some c := h
    by_cases hq : q0 = p
    · rw [if_pos hq] at h2
      injection h2 with h2
      subst h2
      subst hq
      exact ⟨List.mem_cons_self _ _, List.mem_cons_self _ _⟩
    · rw [if_neg hq] at h2
      obtain ⟨h3, h4⟩ := ih h2
      exact ⟨List.mem_cons_of_mem _ h3, List.mem_cons_of_mem _ h4⟩

/-- A present key yields a lookup hit. -/
theorem dictLookup_isSome_of_mem (d : List (Pos × AStarM.Cell)) (p : Pos)
    (h : p ∈ AStarM.dictKeys d) :
    ∃ c, AStarM.dictLookup d p = some c := by
  induction d with
  | nil => cases h
  | cons qc rest ih =>
    obtain ⟨q0, c0⟩ := qc
    by_cases hq : q0 = p
    · refine ⟨c0, ?_⟩
      show (if q0 = p then some c0 else AStarM.dictLookup rest p) = some c0
      rw [if_pos hq]
    · rcases List.mem_cons.1 h with h1 | h1
      · exact absurd h1.symm hq
      · obtain ⟨c, hc⟩ := ih h1
        refine ⟨c, ?_⟩
        show (if q0 = p then some c0 else AStarM.dictLookup rest p) = some c
        rw [if_neg hq]
        exact hc

/-- A pair of the dict with distinct keys is found by lookup. -/
theorem dictLookup_of_mem_nodup (d : List (Pos × AStarM.Cell)) (p : Pos)
    (c : AStarM.Cell) (hnd : (AStarM.dictKeys d).Nodup) (h : (p, c) ∈ d) :
    AStarM.dictLookup d p = some c := by
  induction d with
  | nil => cases h
  | cons qc rest ih =>
    obtain ⟨q0, c0⟩ := qc
    show (if q0 = p then some c0 else AStarM.dictLookup rest p) = some c
    rcases List.mem_cons.1 h with h1 | h1
    · injection h1 with ha hb
      subst ha
      subst hb
      rw [if_pos rfl]
    · have hq : q0 ≠ p := by
        intro hc
        subst hc
        have : q0 ∈ AStarM.dictKeys rest :=
          List.mem_map_of_mem Prod.fst h1
        exact (List.nodup_cons.1 hnd).1 this
      rw [if_neg hq]
      exact ih (List.nodup_cons.1 hnd).2 h1

/-- Validity check of a_star unpacked. -/
theorem a_is_valid_iff (D : List Pos) (vs : List (Pos × AStarM.Cell)) (n : Pos) :
    AStarM.is_valid D vs n = true ↔
      inBounds n ∧ n ∉ D ∧ AStarM.dictLookup vs n = none := by
  unfold AStarM.is_valid inBounds MIN_COORD MAX_COORD
  simp only [Bool.and_eq_true, decide_eq_true_eq,
    Option.isNone_iff_eq_none]
  simp
  tauto

/-- Membership in the available-coordinate list of a visited cell. -/
theorem mem_get_available_coords (D : List Pos) (vs : List (Pos × AStarM.Cell))
    (coord n : Pos) :
    n ∈ AStarM.get_available_coords D vs coord ↔
      (n.1 - coord.1, n.2 - coord.2) ∈ AStarM.POSSIBLE_MOVES ∧
        inBounds n ∧ n ∉ D ∧ AStarM.dictLookup vs n = none := by
  unfold AStarM.get_available_coords
  rw [List.mem_filter, mem_offsets, a_is_valid_iff]

/-- The candidate coordinates around a cell are pairwise distinct. -/
theorem get_available_coords_nodup (D : List Pos) (vs : List (Pos × AStarM.Cell))
    (coord : Pos) : (AStarM.get_available_coords D vs coord).Nodup := by
  unfold AStarM.get_available_coords
  apply List.Nodup.filter
  unfold AStarM.POSSIBLE_MOVES
  simp [Prod.ext_iff]

/-- Lookup after folding updStep over a duplicate-free coordinate list. -/
theorem upd_fold_aux (K : Pos) (vc : AStarM.Cell) (L : List Pos) (hL : L.Nodup) :
    ∀ (acc : List (Pos × AStarM.Cell)) (n : Pos),
    AStarM.dictLookup (L.foldl (AStarM.updStep K vc) acc) n =
      if n ∈ L then
        some (AStarM.mkCell n
          (match AStarM.dictLookup acc n with
           | some old => Nat.min (vc.from_init + 1) old.from_init
           | none => vc.from_init + 1)
          (AStarM.to_goals K n) (vc.path_from_init ++ [n]))
      else AStarM.dictLookup acc n := by
  induction L with
  | nil =>
    intro acc n
    simp
  | cons m L' ih =>
    intro acc n
    rw [List.foldl_cons]
    have hnd := List.nodup_cons.1 hL
    by_cases hnm : n = m
    · subst hnm
      rw [if_pos (List.mem_cons_self n L')]
      rw [ih hnd.2 (AStarM.updStep K vc acc n) n, if_neg hnd.1]
      unfold AStarM.updStep
      cases hacc : AStarM.dictLookup acc n with
      | some old =>
        rw [dictLookup_insert_self]
      | none =>
        rw [dictLookup_insert_self]
    · have hlook : AStarM.dictLookup (AStarM.updStep K vc acc m) n =
          AStarM.dictLookup acc n := by
        unfold AStarM.updStep
        cases hacc : AStarM.dictLookup acc m with
        | some old => exact dictLookup_insert_other acc m n _ hnm
        | none => exact dictLookup_insert_other acc m n _ hnm
      rw [ih hnd.2 (AStarM.updStep K vc acc m) n, hlook]
      by_cases hnL : n ∈ L'
      · rw [if_pos hnL, if_pos (List.mem_cons_of_mem m hnL)]
      · rw [if_neg hnL, if_neg (by
          intro hmem
          rcases List.mem_cons.1 hmem with h1 | h1
          · exact hnm h1
          · exact hnL h1)]

/-- Effect of _update_available for one visited coordinate on any key. -/
theorem update_available_lookup (K : Pos) (D : List Pos)
    (vs : List (Pos × AStarM.Cell)) (coord : Pos) (vc : AStarM.Cell)
    (acc : List (Pos × AStarM.Cell)) (n : Pos)
    (hvc : AStarM.dictLookup vs coord = some vc) :
    AStarM.dictLookup (AStarM.update_available K D vs coord acc) n =
      if n ∈ AStarM.get_available_coords D vs coord then
        some (AStarM.mkCell n
          (match AStarM.dictLookup acc n with
           | some old => Nat.min (vc.from_init + 1) old.from_init
           | none => vc.from_init + 1)
          (AStarM.to_goals K n) (vc.path_from_init ++ [n]))
      else AStarM.dictLookup acc n := by
  have hred : AStarM.update_available K D vs coord acc =
      (AStarM.get_available_coords D vs coord).foldl (AStarM.updStep K vc) acc := by
    unfold AStarM.update_available
    rw [hvc]
  rw [hred]
  exact upd_fold_aux K vc _ (get_available_coords_nodup D vs coord) acc n

/-- Field equations of the Cell constructor. -/
@[simp]
theorem mkCell_coords (n : Pos) (v tg : Nat) (path : List Pos) :
    (AStarM.mkCell n v tg path).coords = n := rfl

@[simp]
theorem mkCell_from_init (n : Pos) (v tg : Nat) (path : List Pos) :
    (AStarM.mkCell n v tg path).from_init = v := rfl

@[simp]
theorem mkCell_to_goal (n : Pos) (v tg : Nat) (path : List Pos) :
    (AStarM.mkCell n v tg path).to_goal = tg := rfl

@[simp]
theorem mkCell_total_path (n : Pos) (v tg : Nat) (path : List Pos) :
    (AStarM.mkCell n v tg path).total_path = v + tg := rfl

@[simp]
theorem mkCell_path (n : Pos) (v tg : Nat) (path : List Pos) :
    (AStarM.mkCell n v tg path).path_from_init = path := rfl

@[simp]
theorem mkCell_neighbours (n : Pos) (v tg : Nat) (path : List Pos) :
    (AStarM.mkCell n v tg path).neighbours = AStarM.get_neighbours n := rfl

/-- Effect of the full frontier recomputation fold on any key: the key is
present iff some iterated visited cell sees it as an available coordinate
(or it was already in the accumulator); the stored cost is the minimum of
all candidate costs (and of the accumulator entry), and the carried path
runs through one of the contributing visited cells. -/
theorem update_all_fold_spec (K : Pos) (D : List Pos)
    (vs : List (Pos × AStarM.Cell)) (n : Pos)
    (ws : List (Pos × AStarM.Cell)) :
    ∀ (acc : List (Pos × AStarM.Cell)),
    (∀ pc ∈ ws, AStarM.dictLookup vs pc.1 = some pc.2) →
    ((ws.filter (fun pc =>
        decide (n ∈ AStarM.get_available_coords D vs pc.1))) = [] →
      AStarM.dictLookup
        (ws.foldl (fun a pc => AStarM.update_available K D vs pc.1 a) acc) n =
        AStarM.dictLookup acc n) ∧
    ((ws.filter (fun pc =>
        decide (n ∈ AStarM.get_available_coords D vs pc.1))) ≠ [] →
      ∃ c, AStarM.dictLookup
          (ws.foldl (fun a pc => AStarM.update_available K D vs pc.1 a) acc) n =
            some c ∧
        c.coords = n ∧ c.to_goal = AStarM.to_goals K n ∧
        c.total_path = c.from_init + c.to_goal ∧
        c.neighbours = AStarM.get_neighbours n ∧
        (∃ v ∈ (ws.filter (fun pc =>
            decide (n ∈ AStarM.get_available_coords D vs pc.1))),
          c.path_from_init = v.2.path_from_init ++ [n]) ∧
        c.from_init ∈ (AStarM.accCand acc n ++
          (ws.filter (fun pc =>
            decide (n ∈ AStarM.get_available_coords D vs pc.1))).map
              (fun pc => pc.2.from_init + 1)) ∧
        (∀ x ∈ (AStarM.accCand acc n ++
          (ws.filter (fun pc =>
            decide (n ∈ AStarM.get_available_coords D vs pc.1))).map
              (fun pc => pc.2.from_init + 1)), c.from_init ≤ x)) := by
  induction ws with
  | nil =>
    intro acc hws
    refine ⟨fun _ => rfl, fun hne => absurd rfl hne⟩
  | cons w ws' ih =>
    intro acc hws
    have hw : AStarM.dictLookup vs w.1 = some w.2 :=
      hws w (List.mem_cons_self w ws')
    have hws' : ∀ pc ∈ ws', AStarM.dictLookup vs pc.1 = some pc.2 :=
      fun pc hpc => hws pc (List.mem_cons_of_mem w hpc)
    rw [List.foldl_cons]
    have hlookacc' := update_available_lookup K D vs w.1 w.2 acc n hw
    obtain ⟨ih1, ih2⟩ := ih (AStarM.update_available K D vs w.1 acc) hws'
    by_cases hwmem : n ∈ AStarM.get_available_coords D vs w.1
    · rw [if_pos hwmem] at hlookacc'
      have hfil : (w :: ws').filter (fun pc =>
          decide (n ∈ AStarM.get_available_coords D vs pc.1)) =
          w :: ws'.filter (fun pc =>
            decide (n ∈ AStarM.get_available_coords D vs pc.1)) := by
        simp [List.filter_cons, hwmem]
      rw [hfil]
      refine ⟨fun hcon => absurd hcon (List.cons_ne_nil _ _), fun _ => ?_⟩
      have haccCand : AStarM.accCand (AStarM.update_available K D vs w.1 acc) n =
          [(match AStarM.dictLookup acc n with
            | some old => Nat.min (w.2.from_init + 1) old.from_init
            | none => w.2.from_init + 1)] := by
        unfold AStarM.accCand
        rw [hlookacc']
        rfl
      by_cases hfe : ws'.filter (fun pc =>
          decide (n ∈ AStarM.get_available_coords D vs pc.1)) = []
      · refine ⟨AStarM.mkCell n
          (match AStarM.dictLookup acc n with
           | some old => Nat.min (w.2.from_init + 1) old.from_init
           | none => w.2.from_init + 1)
          (AStarM.to_goals K n) (w.2.path_from_init ++ [n]),
          ?_, rfl, rfl, rfl, rfl, ?_, ?_, ?_⟩
        · rw [ih1 hfe, hlookacc']
        · exact ⟨w, by rw [hfe]; exact List.mem_cons_self w [], rfl⟩
        · rw [hfe]
          unfold AStarM.accCand
          cases hacc : AStarM.dictLookup acc n with
          | none =>
            simp
          | some old =>
            simp only [List.map_cons, List.map_nil]
            rcases Nat.le_total (w.2.from_init + 1) old.from_init with h1 | h1
            · have : Nat.min (w.2.from_init + 1) old.from_init =
                  w.2.from_init + 1 := Nat.min_eq_left h1
              rw [this]
              simp
            · have : Nat.min (w.2.from_init + 1) old.from_init =
                  old.from_init := Nat.min_eq_right h1
              rw [this]
              simp
        · rw [hfe]
          unfold AStarM.accCand
          cases hacc : AStarM.dictLookup acc n with
          | none =>
            intro x hx
            simp only [List.nil_append, List.map_cons, List.map_nil,
              List.mem_singleton] at hx
            subst hx
            exact Nat.le_refl _
          | some old =>
            intro x hx
            simp only [List.map_cons, List.map_nil, List.cons_append,
              List.nil_append, List.mem_cons, List.mem_singleton,
              List.not_mem_nil, or_false] at hx
            rcases hx with hx | hx
            · subst hx
              exact Nat.min_le_right _ _
            · subst hx
              exact Nat.min_le_left _ _
      · obtain ⟨c, hcl, hc1, hc2, hc3, hc4, hpath, hmem, hle⟩ := ih2 hfe
        rw [haccCand] at hmem hle
        refine ⟨c, hcl, hc1, hc2, hc3, hc4, ?_, ?_, ?_⟩
        · obtain ⟨v, hv1, hv2⟩ := hpath
          exact ⟨v, List.mem_cons_of_mem w hv1, hv2⟩
        · cases hacc : AStarM.dictLookup acc n with
          | none =>
            simp only [hacc] at hmem
            unfold AStarM.accCand
            rw [hacc]
            simp only [List.nil_append, List.map_cons]
            rcases List.mem_append.1 hmem with hx | hx
            · simp only [List.mem_singleton] at hx
              rw [hx]
              exact List.mem_cons_self _ _
            · exact List.mem_cons_of_mem _ hx
          | some old =>
            simp only [hacc] at hmem
            unfold AStarM.accCand
            rw [hacc]
            simp only [List.cons_append, List.nil_append, List.map_cons]
            rcases List.mem_append.1 hmem with hx | hx
            · simp only [List.mem_singleton] at hx
              rcases Nat.le_total (w.2.from_init + 1) old.from_init with h1 | h1
              · have hx2 : c.from_init = w.2.from_init + 1 := by
                  rw [hx]
                  exact Nat.min_eq_left h1
                rw [hx2]
                exact List.mem_cons_of_mem _ (List.mem_cons_self _ _)
              · have hx2 : c.from_init = old.from_init := by
                  rw [hx]
                  exact Nat.min_eq_right h1
                rw [hx2]
                exact List.mem_cons_self _ _
            · exact List.mem_cons_of_mem _ (List.mem_cons_of_mem _ hx)
        · cases hacc : AStarM.dictLookup acc n with
          | none =>
            simp only [hacc] at hle
            unfold AStarM.accCand
            rw [hacc]
            intro x hx
            simp only [List.nil_append, List.map_cons, List.mem_cons] at hx
            rcases hx with hx | hx
            · subst hx
              have h1 := hle (w.2.from_init + 1)
                (List.mem_append_left _ (List.mem_singleton.2 rfl))
              exact h1
            · exact hle x (List.mem_append_right _ hx)
          | some old =>
            simp only [hacc] at hle
            unfold AStarM.accCand
            rw [hacc]
            intro x hx
            simp only [List.cons_append, List.nil_append, List.map_cons,
              List.mem_cons] at hx
            have hmin := hle (Nat.min (w.2.from_init + 1) old.from_init)
              (List.mem_append_left _ (List.mem_singleton.2 rfl))
            rcases hx with hx | hx | hx
            · subst hx
              exact Nat.le_trans hmin (Nat.min_le_right _ _)
            · subst hx
              exact Nat.le_trans hmin (Nat.min_le_left _ _)
            · exact hle x (List.mem_append_right _ hx)
    · rw [if_neg hwmem] at hlookacc'
      have hfil : (w :: ws').filter (fun pc =>
          decide (n ∈ AStarM.get_available_coords D vs pc.1)) =
          ws'.filter (fun pc =>
            decide (n ∈ AStarM.get_available_coords D vs pc.1)) := by
        simp [List.filter_cons, hwmem]
      rw [hfil]
      have haccCand : AStarM.accCand (AStarM.update_available K D vs w.1 acc) n =
          AStarM.accCand acc n := by
        unfold AStarM.accCand
        rw [hlookacc']
      constructor
      · intro hfe
        rw [ih1 hfe, hlookacc']
      · intro hne
        obtain ⟨c, hcl, hc1, hc2, hc3, hc4, hpath, hmem, hle⟩ := ih2 hne
        rw [haccCand] at hmem hle
        exact ⟨c, hcl, hc1, hc2, hc3, hc4, hpath, hmem, hle⟩

/-- Specification of _update_all_available: characterisation of every
frontier entry produced by the recomputation from a well-formed visited
dict. -/
theorem update_all_available_spec (K : Pos) (D : List Pos)
    (vs : List (Pos × AStarM.Cell)) (hnd : (AStarM.dictKeys vs).Nodup)
    (n : Pos) :
    ((vs.filter (fun pc =>
        decide (n ∈ AStarM.get_available_coords D vs pc.1))) = [] →
      AStarM.dictLookup (AStarM.update_all_available K D vs) n = none) ∧
    ((vs.filter (fun pc =>
        decide (n ∈ AStarM.get_available_coords D vs pc.1))) ≠ [] →
      ∃ c, AStarM.dictLookup (AStarM.update_all_available K D vs) n = some c ∧
        c.coords = n ∧ c.to_goal = AStarM.to_goals K n ∧
        c.total_path = c.from_init + c.to_goal ∧
        c.neighbours = AStarM.get_neighbours n ∧
        (∃ v ∈ (vs.filter (fun pc =>
            decide (n ∈ AStarM.get_available_coords D vs pc.1))),
          c.path_from_init = v.2.path_from_init ++ [n]) ∧
        c.from_init ∈ (vs.filter (fun pc =>
            decide (n ∈ AStarM.get_available_coords D vs pc.1))).map
              (fun pc => pc.2.from_init + 1) ∧
        (∀ x ∈ (vs.filter (fun pc =>
            decide (n ∈ AStarM.get_available_coords D vs pc.1))).map
              (fun pc => pc.2.from_init + 1), c.from_init ≤ x)) := by
  have hvs : ∀ pc ∈ vs, AStarM.dictLookup vs pc.1 = some pc.2 := by
    intro pc hpc
    exact dictLookup_of_mem_nodup vs pc.1 pc.2 hnd (by
      cases pc
      exact hpc)
  have hspec := update_all_fold_spec K D vs n vs [] hvs
  have hacc : AStarM.accCand [] n = [] := rfl
  constructor
  · intro hfe
    exact hspec.1 hfe
  · intro hne
    obtain ⟨c, hcl, hc1, hc2, hc3, hc4, hpath, hmem, hle⟩ := hspec.2 hne
    rw [hacc, List.nil_append] at hmem hle
    exact ⟨c, hcl, hc1, hc2, hc3, hc4, hpath, hmem, hle⟩

/-- Claim C5, amended: after frontier recomputation, every stored frontier
entry's accumulated cost is the minimum candidate cost over all visited
neighbours seeing it (min-relaxation holds for the cost), and the carried
path extends the path of one of those visited neighbours - but it is the
path of the last processed contributor, which need not achieve the minimum,
so the carried path's length need not be consistent with the stored cost
(see the counterexample). -/
theorem C5_frontier_amended (K : Pos) (D : List Pos)
    (vs : List (Pos × AStarM.Cell)) (hnd : (AStarM.dictKeys vs).Nodup)
    (n : Pos) (c : AStarM.Cell)
    (hc : AStarM.dictLookup (AStarM.update_all_available K D vs) n = some c) :
    BacktrackM.minList ((vs.filter (fun pc =>
      decide (n ∈ AStarM.get_available_coords D vs pc.1))).map
        (fun pc => pc.2.from_init + 1)) = c.from_init ∧
    (∃ v ∈ vs.filter (fun pc =>
      decide (n ∈ AStarM.get_available_coords D vs pc.1)),
      c.path_from_init = v.2.path_from_init ++ [n]) := by
  have hspec := update_all_available_spec K D vs hnd n
  by_cases hfe : (vs.filter (fun pc =>
      decide (n ∈ AStarM.get_available_coords D vs pc.1))) = []
  · rw [hspec.1 hfe] at hc
    cases hc
  · obtain ⟨c2, hcl, _, _, _, _, hpath, hmem, hle⟩ := hspec.2 hfe
    rw [hcl] at hc
    injection hc with hc
    subst hc
    refine ⟨?_, hpath⟩
    apply Nat.le_antisymm
    · exact minList_le _ _ hmem
    · exact le_minList _ _ hle (by
        intro hcon
        rw [List.map_eq_nil_iff] at hcon
        exact hfe hcon)

/-- Witness for C5_frontier_amended at the counterexample state: the entry
for (1,0) after the third recomputation of the run with keymaker (0,3) and
a danger at (0,2). -/
theorem C5_frontier_witness :
    ((AStarM.dictKeys (AStarM.aStarSteps envC5 (0, 3) 2).visited).Nodup ∧
      AStarM.dictLookup
        (AStarM.update_all_available (0, 3)
          (AStarM.aStarSteps envC5 (0, 3) 2).dangers
          (AStarM.aStarSteps envC5 (0, 3) 2).visited) (1, 0) =
        some (AStarM.mkCell (1, 0) 1 4 [(0, 0), (0, 1), (1, 1), (1, 0)])) ∧
    (BacktrackM.minList
        (((AStarM.aStarSteps envC5 (0, 3) 2).visited.filter (fun pc =>
          decide ((1, 0) ∈ AStarM.get_available_coords
            (AStarM.aStarSteps envC5 (0, 3) 2).dangers
            (AStarM.aStarSteps envC5 (0, 3) 2).visited pc.1))).map
            (fun pc => pc.2.from_init + 1)) =
      (AStarM.mkCell (1, 0) 1 4 [(0, 0), (0, 1), (1, 1), (1, 0)]).from_init ∧
    (∃ v ∈ (AStarM.aStarSteps envC5 (0, 3) 2).visited.filter (fun pc =>
        decide ((1, 0) ∈ AStarM.get_available_coords
          (AStarM.aStarSteps envC5 (0, 3) 2).dangers
          (AStarM.aStarSteps envC5 (0, 3) 2).visited pc.1)),
      (AStarM.mkCell (1, 0) 1 4 [(0, 0), (0, 1), (1, 1), (1, 0)]).path_from_init =
        v.2.path_from_init ++ [(1, 0)])) :=
  ⟨⟨by decide, by decide⟩,
    C5_frontier_amended (0, 3) (AStarM.aStarSteps envC5 (0, 3) 2).dangers
      (AStarM.aStarSteps envC5 (0, 3) 2).visited (by decide) (1, 0)
      (AStarM.mkCell (1, 0) 1 4 [(0, 0), (0, 1), (1, 1), (1, 0)]) (by decide)⟩

/-- Unfolding of Cell.__lt__ as a strict lexicographic comparison. -/
theorem cellLt_true_iff (a b : AStarM.Cell) :
    AStarM.cellLt a b = true ↔
      a.total_path < b.total_path ∨
        (a.total_path = b.total_path ∧ a.to_goal < b.to_goal) := by
  unfold AStarM.cellLt
  by_cases h : a.total_path = b.total_path <;> simp [h] <;> omega

/-- Negation of Cell.__lt__ as a lexicographic comparison. -/
theorem cellLt_false_iff (a b : AStarM.Cell) :
    AStarM.cellLt a b = false ↔
      b.total_path < a.total_path ∨
        (a.total_path = b.total_path ∧ b.to_goal ≤ a.to_goal) := by
  have h1 := cellLt_true_iff a b
  cases hb : AStarM.cellLt a b
  · rw [hb] at h1
    simp only [Bool.false_eq_true, false_iff] at h1
    simp only [true_iff]
    omega
  · rw [hb] at h1
    simp only [true_iff] at h1
    simp only [Bool.true_eq_false, false_iff]
    omega

/-- Failing to beat is transitive. -/
theorem cellLt_false_trans (a b c : AStarM.Cell)
    (h1 : AStarM.cellLt a b = false) (h2 : AStarM.cellLt b c = false) :
    AStarM.cellLt a c = false := by
  rw [cellLt_false_iff] at h1 h2 ⊢
  omega

/-- A strictly better cell than one we fail to beat is not beaten either. -/
theorem cellLt_true_false_trans (a b c : AStarM.Cell)
    (h1 : AStarM.cellLt a b = true) (h2 : AStarM.cellLt a c = false) :
    AStarM.cellLt b c = false := by
  rw [cellLt_true_iff] at h1
  rw [cellLt_false_iff] at h2 ⊢
  omega

/-- Invariants of the best-cell fold of _get_best_cell. -/
theorem get_best_fold_aux (l : List (Pos × AStarM.Cell)) :
    ∀ (b0 : AStarM.Cell),
    ((l.foldl (fun best pc => if AStarM.cellLt pc.2 best then pc.2 else best) b0)
        = b0 ∨
      ∃ pc ∈ l, pc.2 =
        l.foldl (fun best pc => if AStarM.cellLt pc.2 best then pc.2 else best) b0) ∧
    (∀ pc ∈ l, AStarM.cellLt pc.2
      (l.foldl (fun best pc => if AStarM.cellLt pc.2 best then pc.2 else best) b0)
        = false) ∧
    (AStarM.cellLt b0
      (l.foldl (fun best pc => if AStarM.cellLt pc.2 best then pc.2 else best) b0)
        = false) := by
  induction l with
  | nil =>
    intro b0
    refine ⟨Or.inl rfl, fun pc hpc => absurd hpc (List.not_mem_nil pc), ?_⟩
    show AStarM.cellLt b0 b0 = false
    rw [cellLt_false_iff]
    omega
  | cons pc0 l' ih =>
    intro b0
    rw [List.foldl_cons]
    obtain ⟨iha, ihb, ihc⟩ :=
      ih (if AStarM.cellLt pc0.2 b0 then pc0.2 else b0)
    by_cases hp : AStarM.cellLt pc0.2 b0 = true
    · rw [if_pos hp] at iha ihb ihc
      rw [if_pos hp]
      refine ⟨?_, ?_, ?_⟩
      · rcases iha with h | ⟨pc, hpc1, hpc2⟩
        · exact Or.inr ⟨pc0, List.mem_cons_self _ _, h.symm⟩
        · exact Or.inr ⟨pc, List.mem_cons_of_mem _ hpc1, hpc2⟩
      · intro pc hpc
        rcases List.mem_cons.1 hpc with h | h
        · rw [h]
          exact ihc
        · exact ihb pc h
      · exact cellLt_true_false_trans pc0.2 b0 _ hp ihc
    · have hp2 : AStarM.cellLt pc0.2 b0 = false := by
        revert hp; cases AStarM.cellLt pc0.2 b0 <;> simp
      rw [if_neg (by rw [hp2]; exact Bool.false_ne_true)] at iha ihb ihc
      rw [if_neg (by rw [hp2]; exact Bool.false_ne_true)]
      refine ⟨?_, ?_, ihc⟩
      · rcases iha with h | ⟨pc, h1, h2⟩
        · exact Or.inl h
        · exact Or.inr ⟨pc, List.mem_cons_of_mem _ h1, h2⟩
      · intro pc hpc
        rcases List.mem_cons.1 hpc with h | h
        · rw [h]
          exact cellLt_false_trans pc0.2 b0 _ hp2 ihc
        · exact ihb pc h

/-- Specification of _get_best_cell: on a nonempty frontier whose cells all
beat the sentinel, it returns a frontier cell that no frontier cell strictly
beats. -/
theorem get_best_cell_spec (av : List (Pos × AStarM.Cell)) (hne : av ≠ [])
    (hbound : ∀ pc ∈ av, pc.2.total_path < 2 * INT_INFINITY) :
    ∃ b, AStarM.get_best_cell av = some b ∧ (∃ pc ∈ av, pc.2 = b) ∧
      (∀ pc ∈ av, AStarM.cellLt pc.2 b = false) := by
  unfold AStarM.get_best_cell
  rw [if_neg (by
    intro hcon
    rw [List.length_eq_zero] at hcon
    exact hne hcon)]
  obtain ⟨ha, hb, hc⟩ :=
    get_best_fold_aux av (AStarM.mkCell (0, 0) INT_INFINITY INT_INFINITY [])
  refine ⟨_, rfl, ?_, hb⟩
  rcases ha with h | h
  · exfalso
    cases av with
    | nil => exact hne rfl
    | cons pc0 av' =>
      have hfirst := hb pc0 (List.mem_cons_self _ _)
      rw [h] at hfirst
      rw [cellLt_false_iff] at hfirst
      have hbnd := hbound pc0 (List.mem_cons_self _ _)
      have hsent : (AStarM.mkCell (0, 0) INT_INFINITY INT_INFINITY
          []).total_path = 2 * INT_INFINITY := by
        rw [mkCell_total_path]
        omega
      rw [hsent] at hfirst
      omega
  · exact h

/-- An empty best-cell query means an empty frontier. -/
theorem get_best_cell_none_iff (av : List (Pos × AStarM.Cell)) :
    AStarM.get_best_cell av = none ↔ av = [] := by
  unfold AStarM.get_best_cell
  by_cases h : av.length = 0
  · rw [if_pos h]
    simp [List.length_eq_zero.1 h]
  · rw [if_neg h]
    constructor
    · intro hcon; cases hcon
    · intro hcon
      subst hcon
      exact absurd rfl h

/-- Keys after a dict assignment. -/
theorem dictKeys_insert (d : List (Pos × AStarM.Cell)) (p : Pos) (c : AStarM.Cell) :
    AStarM.dictKeys (AStarM.dictInsert d p c) =
      if p ∈ AStarM.dictKeys d then AStarM.dictKeys d
      else AStarM.dictKeys d ++ [p] := by
  induction d with
  | nil => simp [AStarM.dictInsert, AStarM.dictKeys]
  | cons qc rest ih =>
    obtain ⟨q0, c0⟩ := qc
    by_cases hq : q0 = p
    · show AStarM.dictKeys
        (if q0 = p then (q0, c) :: rest else (q0, c0) :: AStarM.dictInsert rest p c) =
        if p ∈ q0 :: AStarM.dictKeys rest then q0 :: AStarM.dictKeys rest
        else (q0 :: AStarM.dictKeys rest) ++ [p]
      rw [if_pos hq, if_pos (by rw [← hq]; exact List.mem_cons_self q0 _)]
      rfl
    · show AStarM.dictKeys
        (if q0 = p then (q0, c) :: rest else (q0, c0) :: AStarM.dictInsert rest p c) =
        if p ∈ q0 :: AStarM.dictKeys rest then q0 :: AStarM.dictKeys rest
        else (q0 :: AStarM.dictKeys rest) ++ [p]
      rw [if_neg hq]
      show q0 :: AStarM.dictKeys (AStarM.dictInsert rest p c) = _
      rw [ih]
      by_cases hmem : p ∈ AStarM.dictKeys rest
      · rw [if_pos hmem, if_pos (List.mem_cons_of_mem q0 hmem)]
      · rw [if_neg hmem, if_neg (by
          intro hcon
          rcases List.mem_cons.1 hcon with h1 | h1
          · exact hq h1.symm
          · exact hmem h1)]
        rfl

/-- A dict assignment preserves distinctness of keys. -/
theorem dictInsert_keys_nodup (d : List (Pos × AStarM.Cell)) (p : Pos)
    (c : AStarM.Cell) (h : (AStarM.dictKeys d).Nodup) :
    (AStarM.dictKeys (AStarM.dictInsert d p c)).Nodup := by
  rw [dictKeys_insert]
  by_cases hmem : p ∈ AStarM.dictKeys d
  · rw [if_pos hmem]; exact h
  · rw [if_neg hmem]
    rw [List.nodup_append]
    exact ⟨h, List.nodup_singleton p, by
      intro x hx hx2
      simp only [List.mem_singleton] at hx2
      subst hx2
      exact hmem hx⟩

/-- The updStep body preserves distinctness of frontier keys. -/
theorem updStep_keys_nodup (K : Pos) (vc : AStarM.Cell)
    (acc : List (Pos × AStarM.Cell)) (n : Pos)
    (h : (AStarM.dictKeys acc).Nodup) :
    (AStarM.dictKeys (AStarM.updStep K vc acc n)).Nodup := by
  unfold AStarM.updStep
  cases AStarM.dictLookup acc n
  · exact dictInsert_keys_nodup acc n _ h
  · exact dictInsert_keys_nodup acc n _ h

/-- Folding updStep preserves distinctness of frontier keys. -/
theorem foldl_updStep_keys_nodup (K : Pos) (vc : AStarM.Cell) (L : List Pos) :
    ∀ (acc : List (Pos × AStarM.Cell)), (AStarM.dictKeys acc).Nodup →
    (AStarM.dictKeys (L.foldl (AStarM.updStep K vc) acc)).Nodup := by
  induction L with
  | nil => intro acc h; exact h
  | cons m L' ih =>
    intro acc h
    rw [List.foldl_cons]
    exact ih _ (updStep_keys_nodup K vc acc m h)

/-- One _update_available call preserves distinctness of frontier keys. -/
theorem update_available_keys_nodup (K : Pos) (D : List Pos)
    (vs : List (Pos × AStarM.Cell)) (coord : Pos)
    (acc : List (Pos × AStarM.Cell)) (h : (AStarM.dictKeys acc).Nodup) :
    (AStarM.dictKeys (AStarM.update_available K D vs coord acc)).Nodup := by
  cases hvc : AStarM.dictLookup vs coord with
  | none =>
    have hred : AStarM.update_available K D vs coord acc = acc := by
      unfold AStarM.update_available
      rw [hvc]
    rw [hred]
    exact h
  | some vc =>
    have hred : AStarM.update_available K D vs coord acc =
        (AStarM.get_available_coords D vs coord).foldl (AStarM.updStep K vc) acc := by
      unfold AStarM.update_available
      rw [hvc]
    rw [hred]
    exact foldl_updStep_keys_nodup K vc _ acc h

/-- The recomputed frontier has distinct keys. -/
theorem update_all_keys_nodup (K : Pos) (D : List Pos)
    (vs : List (Pos × AStarM.Cell)) :
    (AStarM.dictKeys (AStarM.update_all_available K D vs)).Nodup := by
  unfold AStarM.update_all_available
  have hgen : ∀ (ws : List (Pos × AStarM.Cell)) (acc : List (Pos × AStarM.Cell)),
      (AStarM.dictKeys acc).Nodup →
      (AStarM.dictKeys (ws.foldl
        (fun a pc => AStarM.update_available K D vs pc.1 a) acc)).Nodup := by
    intro ws
    induction ws with
    | nil => intro acc h; exact h
    | cons w ws' ih =>
      intro acc h
      rw [List.foldl_cons]
      exact ih _ (update_available_keys_nodup K D vs w.1 acc h)
  exact hgen vs [] List.nodup_nil

/-- The sentinel is comfortably large. -/
theorem INT_INFINITY_ge : 1000 ≤ INT_INFINITY := by
  unfold INT_INFINITY
  norm_num

/-- The grid as a finite set of positions. -/
theorem length_le_card_grid (l : List Pos) (hnd : l.Nodup)
    (hib : ∀ p ∈ l, inBounds p) : l.length ≤ 81 := by
  classical
  have hsub : l.toFinset ⊆ (Finset.Icc (0 : Int) 8) ×ˢ (Finset.Icc (0 : Int) 8) := by
    intro p hp
    rw [List.mem_toFinset] at hp
    have := hib p hp
    rw [Finset.mem_product, Finset.mem_Icc, Finset.mem_Icc]
    exact ⟨⟨this.1, this.2.1⟩, ⟨this.2.2.1, this.2.2.2⟩⟩
  have hcard : l.toFinset.card = l.length := List.toFinset_card_of_nodup hnd
  have hgrid : ((Finset.Icc (0 : Int) 8) ×ˢ (Finset.Icc (0 : Int) 8)).card = 81 := by
    rw [Finset.card_product, Int.card_Icc]
    decide
  calc l.length = l.toFinset.card := hcard.symm
    _ ≤ ((Finset.Icc (0 : Int) 8) ×ˢ (Finset.Icc (0 : Int) 8)).card :=
        Finset.card_le_card hsub
    _ = 81 := hgrid

/-- A terminated engine state is a fixed point of the loop. -/
theorem find_path_step_done (obs : Env) (s : AStarM.AState)
    (h : s.done = true) : AStarM.find_path_step obs s = s := by
  unfold AStarM.find_path_step
  rw [h]
  simp

/-- Unreachable branch: empty frontier reports e -1. -/
theorem find_path_step_fail (obs : Env) (s : AStarM.AState)
    (h1 : s.done = false)
    (h2 : AStarM.get_best_cell s.available_cells = none) :
    AStarM.find_path_step obs s =
      { s with
        output := s.output ++ [AStarM.Event.failure],
        done := true } := by
  unfold AStarM.find_path_step
  rw [h1, h2]
  simp

/-- Success branch: the picked cell is the keymaker. -/
theorem find_path_step_success (obs : Env) (s : AStarM.AState)
    (best : AStarM.Cell) (h1 : s.done = false)
    (h2 : AStarM.get_best_cell s.available_cells = some best)
    (h3 : best.coords = s.keymaker) :
    AStarM.find_path_step obs s =
      { s with
        output := s.output ++ [AStarM.Event.success best.from_init],
        done := true } := by
  unfold AStarM.find_path_step
  rw [h1, h2]
  simp [h3]

/-- Exploration branch: the picked cell is not the keymaker; the engine
relocates if needed, moves there, records the response and recomputes. -/
theorem find_path_step_move (obs : Env) (s : AStarM.AState)
    (best : AStarM.Cell) (h1 : s.done = false)
    (h2 : AStarM.get_best_cell s.available_cells = some best)
    (h3 : best.coords ≠ s.keymaker) :
    AStarM.find_path_step obs s =
      { s with
        output := s.output ++
          ((if s.current.neighbours.contains best.coords then []
            else AStarM.from_current_to_best s.current best) ++
              [best.coords]).map AStarM.Event.move,
        dangers := AStarM.update_dangers s.dangers (obs best.coords),
        visited := AStarM.dictInsert s.visited best.coords best,
        available_cells := AStarM.update_all_available s.keymaker
          (AStarM.update_dangers s.dangers (obs best.coords))
          (AStarM.dictInsert s.visited best.coords best),
        current := best } := by
  unfold AStarM.find_path_step
  rw [h1, h2]
  simp [h3]

/-- Assigning a fresh key appends the entry to the dict. -/
theorem dictInsert_not_mem (d : List (Pos × AStarM.Cell)) (p : Pos)
    (c : AStarM.Cell) (h : p ∉ AStarM.dictKeys d) :
    AStarM.dictInsert d p c = d ++ [(p, c)] := by
  induction d with
  | nil => rfl
  | cons qc rest ih =>
    obtain ⟨q0, c0⟩ := qc
    have h' : p ∉ q0 :: AStarM.dictKeys rest := h
    have hq : q0 ≠ p := fun hcon => h' (by rw [hcon]; exact List.mem_cons_self _ _)
    have h2 : p ∉ AStarM.dictKeys rest := fun hcon => h' (List.mem_cons_of_mem _ hcon)
    show (if q0 = p then (q0, c) :: rest else (q0, c0) :: AStarM.dictInsert rest p c) =
      (q0, c0) :: rest ++ [(p, c)]
    rw [if_neg hq, List.cons_append, ih h2]

/-- Heuristic values between in-bounds positions are at most 16. -/
theorem to_goals_le (K n : Pos) (hK : inBounds K) (hn : inBounds n) :
    AStarM.to_goals K n ≤ 16 := by
  unfold AStarM.to_goals
  unfold inBounds at hK hn
  omega

/-- Every frontier entry of a well-formed state has total cost far below
the sentinel cell's total. -/
theorem available_total_bound (obs : Env) (s : AStarM.AState) (h : aWF obs s) :
    ∀ pc ∈ s.available_cells, pc.2.total_path < 2 * INT_INFINITY := by
  intro pc hpc
  obtain ⟨h1, h2, h3, h4, h5, h6, h7, h8⟩ := h
  have hndav : (AStarM.dictKeys s.available_cells).Nodup := by
    rw [h7]
    exact update_all_keys_nodup _ _ _
  have hlook : AStarM.dictLookup s.available_cells pc.1 = some pc.2 :=
    dictLookup_of_mem_nodup _ _ _ hndav (by cases pc; exact hpc)
  rw [h7] at hlook
  have hspec := update_all_available_spec s.keymaker s.dangers s.visited h1 pc.1
  by_cases hfe : (s.visited.filter (fun qc =>
      decide (pc.1 ∈ AStarM.get_available_coords s.dangers s.visited qc.1))) = []
  · rw [hspec.1 hfe] at hlook
    cases hlook
  · obtain ⟨c, hcl, hc1, hc2, hc3, hc4, hpath, hmem, hle⟩ := hspec.2 hfe
    rw [hcl] at hlook
    have heq : c = pc.2 := by injection hlook
    rw [← heq, hc3, hc2]
    obtain ⟨w, hwf, hww⟩ := List.mem_map.1 hmem
    have hww' : w.2.from_init + 1 = c.from_init := hww
    have hwvs : w ∈ s.visited := (List.mem_filter.1 hwf).1
    have hwlt := (h2 w hwvs).2.2.2.2.2.1
    have hlen : (AStarM.dictKeys s.visited).length ≤ 81 :=
      length_le_card_grid _ h1 (by
        intro p hp
        obtain ⟨qc, hqc, hqc1⟩ := List.mem_map.1 hp
        rw [← hqc1]
        exact (h2 qc hqc).2.1)
    obtain ⟨v, hvf⟩ := List.exists_mem_of_ne_nil _ hfe
    have hvavail : pc.1 ∈ AStarM.get_available_coords s.dangers s.visited v.1 :=
      of_decide_eq_true (List.mem_filter.1 hvf).2
    have hibn : inBounds pc.1 := ((mem_get_available_coords _ _ _ _).1 hvavail).2.1
    have htg := to_goals_le s.keymaker pc.1 h8 hibn
    have hinf := INT_INFINITY_ge
    omega

/-- Properties of the cell returned by _get_best_cell in a well-formed
state: it is a frontier cell that no frontier cell strictly beats; its
coordinates are unvisited, in bounds and not a known danger; its fields
follow the recomputation spec; its cost is one more than the cost of some
visited cell seeing it and at most one more than the cost of every visited
cell seeing it; and its path extends such a visited cell's path. -/
theorem get_best_props (obs : Env) (s : AStarM.AState) (h : aWF obs s)
    (best : AStarM.Cell)
    (hb : AStarM.get_best_cell s.available_cells = some best) :
    (∀ pc ∈ s.available_cells, AStarM.cellLt pc.2 best = false) ∧
    AStarM.dictLookup s.visited best.coords = none ∧
    inBounds best.coords ∧ best.coords ∉ s.dangers ∧
    best.to_goal = AStarM.to_goals s.keymaker best.coords ∧
    best.total_path = best.from_init + best.to_goal ∧
    best.neighbours = AStarM.get_neighbours best.coords ∧
    (∃ v ∈ s.visited,
      best.coords ∈ AStarM.get_available_coords s.dangers s.visited v.1 ∧
      best.path_from_init = v.2.path_from_init ++ [best.coords]) ∧
    (∃ w ∈ s.visited,
      best.coords ∈ AStarM.get_available_coords s.dangers s.visited w.1 ∧
      best.from_init = w.2.from_init + 1) ∧
    (∀ w ∈ s.visited,
      best.coords ∈ AStarM.get_available_coords s.dangers s.visited w.1 →
      best.from_init ≤ w.2.from_init + 1) := by
  have hbound := available_total_bound obs s h
  obtain ⟨h1, h2, h3, h4, h5, h6, h7, h8⟩ := h
  have hne : s.available_cells ≠ [] := by
    intro hcon
    rw [hcon] at hb
    rw [(get_best_cell_none_iff []).2 rfl] at hb
    cases hb
  obtain ⟨b, hbs, ⟨pc, hpcm, hpc2⟩, hmin⟩ :=
    get_best_cell_spec s.available_cells hne hbound
  rw [hb] at hbs
  have hbb : best = b := by injection hbs
  rw [← hbb] at hpc2 hmin
  have hndav : (AStarM.dictKeys s.available_cells).Nodup := by
    rw [h7]
    exact update_all_keys_nodup _ _ _
  have hlook : AStarM.dictLookup s.available_cells pc.1 = some best := by
    rw [← hpc2]
    exact dictLookup_of_mem_nodup _ _ _ hndav (by cases pc; exact hpcm)
  rw [h7] at hlook
  have hspec := update_all_available_spec s.keymaker s.dangers s.visited h1 pc.1
  by_cases hfe : (s.visited.filter (fun qc =>
      decide (pc.1 ∈ AStarM.get_available_coords s.dangers s.visited qc.1))) = []
  · rw [hspec.1 hfe] at hlook
    cases hlook
  · obtain ⟨c, hcl, hc1, hc2, hc3, hc4, hpath, hmem, hle⟩ := hspec.2 hfe
    rw [hcl] at hlook
    have hceq : c = best := by injection hlook
    rw [hceq] at hc1 hc2 hc3 hc4 hpath hmem hle
    obtain ⟨v, hvf, hvpath⟩ := hpath
    have hvvs : v ∈ s.visited := (List.mem_filter.1 hvf).1
    have hvavail : pc.1 ∈ AStarM.get_available_coords s.dangers s.visited v.1 :=
      of_decide_eq_true (List.mem_filter.1 hvf).2
    obtain ⟨hmv, hibm, hndm, hnvm⟩ := (mem_get_available_coords _ _ _ _).1 hvavail
    obtain ⟨w, hwf, hww⟩ := List.mem_map.1 hmem
    have hww' : w.2.from_init + 1 = best.from_init := hww
    have hwvs : w ∈ s.visited := (List.mem_filter.1 hwf).1
    have hwavail : pc.1 ∈ AStarM.get_available_coords s.dangers s.visited w.1 :=
      of_decide_eq_true (List.mem_filter.1 hwf).2
    refine ⟨hmin, ?_, ?_, ?_, ?_, hc3, ?_, ?_, ?_, ?_⟩
    · rw [hc1]
      exact hnvm
    · rw [hc1]
      exact hibm
    · rw [hc1]
      exact hndm
    · rw [hc1]
      exact hc2
    · rw [hc1]
      exact hc4
    · refine ⟨v, hvvs, ?_, ?_⟩
      · rw [hc1]
        exact hvavail
      · rw [hc1]
        exact hvpath
    · refine ⟨w, hwvs, ?_, hww'.symm⟩
      rw [hc1]
      exact hwavail
    · intro w2 hw2 hw2av
      rw [hc1] at hw2av
      exact hle _ (List.mem_map_of_mem _ (List.mem_filter.2 ⟨hw2,
        decide_eq_true hw2av⟩))

/-- The engine invariant only constrains the output set upward: appending
events and setting the termination flag preserves it. -/
theorem aWF_output_ext (obs : Env) (s : AStarM.AState) (h : aWF obs s)
    (ev : List AStarM.Event) (d : Bool) :
    aWF obs { s with output := s.output ++ ev, done := d } := by
  obtain ⟨h1, h2, h3, h4, h5, h6, h7, h8⟩ := h
  refine ⟨h1, ?_, h3, h4, h5, h6, h7, h8⟩
  intro pc hpc
  obtain ⟨a, b, c, d2, e, f, g⟩ := h2 pc hpc
  exact ⟨a, b, c, d2, e, f, List.mem_append_left _ g⟩

/-- The state after the zeroth move satisfies the engine invariant,
provided the keymaker position read from the input is in bounds. -/
theorem aWF_init (obs : Env) (K : Pos) (hK : inBounds K) :
    aWF obs (AStarM.zeroth_move obs K) := by
  refine ⟨?_, ?_, ?_, ?_, ?_, ?_, rfl, hK⟩
  · exact List.nodup_singleton _
  · intro pc hpc
    have hpc' : pc ∈ [(((0, 0) : Pos),
        AStarM.mkCell (0, 0) 0 (AStarM.to_goals K (0, 0)) [(0, 0)])] := hpc
    simp only [List.mem_singleton] at hpc'
    subst hpc'
    refine ⟨rfl, by show inBounds ((0, 0) : Pos); decide,
      List.cons_ne_nil _ _, rfl, ?_, Nat.zero_lt_one, ?_⟩
    · intro q hq
      have hq' : q ∈ [((0, 0) : Pos)] := hq
      simp only [List.mem_singleton] at hq'
      subst hq'
      exact List.mem_singleton_self _
    · exact List.mem_singleton_self _
  · exact List.mem_singleton_self _
  · refine ⟨List.cons_ne_nil _ _, rfl, ?_⟩
    intro q hq
    have hq' : q ∈ [((0, 0) : Pos)] := hq
    simp only [List.mem_singleton] at hq'
    subst hq'
    exact List.mem_singleton_self _
  · intro q hq
    exact ⟨(0, 0), hq⟩
  · intro p hp hpk
    have hp' : p ∈ [((0, 0) : Pos)] := hp
    simp only [List.mem_singleton] at hp'
    exact hp'

/-- The loop body never changes the keymaker position. -/
theorem find_path_step_keymaker (obs : Env) (s : AStarM.AState) :
    (AStarM.find_path_step obs s).keymaker = s.keymaker := by
  by_cases hd : s.done = true
  · rw [find_path_step_done obs s hd]
  · have hd' : s.done = false := by revert hd; cases s.done <;> simp
    cases hb : AStarM.get_best_cell s.available_cells with
    | none => rw [find_path_step_fail obs s hd' hb]
    | some best =>
      by_cases hk : best.coords = s.keymaker
      · rw [find_path_step_success obs s best hd' hb hk]
      · rw [find_path_step_move obs s best hd' hb hk]

/-- The keymaker position of the running state is the one read initially. -/
theorem aStarSteps_keymaker (obs : Env) (K : Pos) (n : Nat) :
    (AStarM.aStarSteps obs K n).keymaker = K := by
  induction n with
  | zero => rfl
  | succ n ih =>
    show (AStarM.find_path_step obs (AStarM.aStarSteps obs K n)).keymaker = K
    rw [find_path_step_keymaker, ih]

/-- One loop iteration preserves the engine invariant. -/
theorem aWF_step (obs : Env) (s : AStarM.AState) (h : aWF obs s) :
    aWF obs (AStarM.find_path_step obs s) := by
  by_cases hd : s.done = true
  · rw [find_path_step_done obs s hd]
    exact h
  · have hd' : s.done = false := by revert hd; cases s.done <;> simp
    cases hb : AStarM.get_best_cell s.available_cells with
    | none =>
      rw [find_path_step_fail obs s hd' hb]
      exact aWF_output_ext obs s h _ _
    | some best =>
      by_cases hk : best.coords = s.keymaker
      · rw [find_path_step_success obs s best hd' hb hk]
        exact aWF_output_ext obs s h _ _
      · rw [find_path_step_move obs s best hd' hb hk]
        obtain ⟨hmin, hnv, hib, hnd, htg, htot, hnb, hpath, hwmin, hwall⟩ :=
          get_best_props obs s h best hb
        obtain ⟨h1, h2, h3, h4, h5, h6, h7, h8⟩ := h
        have hnkeys : best.coords ∉ AStarM.dictKeys s.visited := by
          intro hcon
          obtain ⟨c, hc⟩ := dictLookup_isSome_of_mem _ _ hcon
          rw [hnv] at hc
          cases hc
        have hins : AStarM.dictInsert s.visited best.coords best =
            s.visited ++ [(best.coords, best)] :=
          dictInsert_not_mem _ _ _ hnkeys
        have hkeys2 : AStarM.dictKeys (s.visited ++ [(best.coords, best)]) =
            AStarM.dictKeys s.visited ++ [best.coords] := by
          unfold AStarM.dictKeys
          rw [List.map_append]
          rfl
        obtain ⟨v, hvvs, hvav, hvpath⟩ := hpath
        obtain ⟨w, hwvs, hwav, hww⟩ := hwmin
        have hpne : best.path_from_init ≠ [] := by
          rw [hvpath]
          simp
        have hlast : best.path_from_init.getLast? = some best.coords := by
          rw [hvpath]
          simp
        have hclos : ∀ q ∈ best.path_from_init,
            q ∈ AStarM.dictKeys s.visited ++ [best.coords] := by
          intro q hq
          rw [hvpath] at hq
          rcases List.mem_append.1 hq with h' | h'
          · exact List.mem_append_left _ ((h2 v hvvs).2.2.2.2.1 q h')
          · simp only [List.mem_singleton] at h'
            subst h'
            exact List.mem_append_right _ (List.mem_singleton_self _)
        unfold aWF
        dsimp only
        simp only [hins, hkeys2]
        refine ⟨?_, ?_, ?_, ?_, ?_, ?_, trivial, h8⟩
        · rw [List.nodup_append]
          refine ⟨h1, List.nodup_singleton _, ?_⟩
          intro x hx hx2
          simp only [List.mem_singleton] at hx2
          subst hx2
          exact hnkeys hx
        · intro pc hpc
          rcases List.mem_append.1 hpc with hold | hnew
          · obtain ⟨a, b2, c2, d2, e2, f2, g2⟩ := h2 pc hold
            refine ⟨a, b2, c2, d2, ?_, ?_, List.mem_append_left _ g2⟩
            · intro q hq
              exact List.mem_append_left _ (e2 q hq)
            · rw [List.length_append]
              omega
          · simp only [List.mem_singleton] at hnew
            subst hnew
            refine ⟨rfl, hib, hpne, hlast, hclos, ?_, ?_⟩
            · have hwlt := (h2 w hwvs).2.2.2.2.2.1
              rw [hww, List.length_append]
              simp only [List.length_singleton]
              omega
            · exact List.mem_append_right _ (List.mem_map_of_mem _
                (List.mem_append_right _ (List.mem_singleton_self _)))
        · exact List.mem_append_left _ h3
        · exact ⟨hpne, hlast, hclos⟩
        · intro q hq
          have hq' : q ∈ s.dangers ++ AStarM.danger_positions (obs best.coords) := hq
          rcases List.mem_append.1 hq' with h' | h'
          · exact h5 q h'
          · exact ⟨best.coords, h'⟩
        · intro p hp hpk
          rcases List.mem_append.1 hp with h' | h'
          · exact h6 p h' hpk
          · simp only [List.mem_singleton] at h'
            subst h'
            exact absurd hpk hk

/-- The engine invariant holds at every reachable state of a run with an
in-bounds keymaker position. -/
theorem aWF_run (obs : Env) (K : Pos) (hK : inBounds K) (n : Nat) :
    aWF obs (AStarM.aStarSteps obs K n) := by
  induction n with
  | zero => exact aWF_init obs K hK
  | succ n ih => exact aWF_step obs _ ih

/-- With the keymaker at the origin, the a_star engine never emits a success
report: the success branch requires the picked frontier cell to be at the
(always-visited) origin, but frontier cells are never visited. -/
theorem aStar_origin_no_success (obs : Env) (n : Nat) :
    ∀ d, AStarM.Event.success d ∉ (AStarM.aStarSteps obs (0, 0) n).output := by
  induction n with
  | zero =>
    intro d hmem
    have hmem' : AStarM.Event.success d ∈ [AStarM.Event.move ((0, 0) : Pos)] := hmem
    have h2 := List.mem_singleton.1 hmem'
    cases h2
  | succ n ih =>
    intro d
    have haWF := aWF_run obs (0, 0) (by decide) n
    have hkm := aStarSteps_keymaker obs (0, 0) n
    have hstep : AStarM.aStarSteps obs (0, 0) (n + 1) =
        AStarM.find_path_step obs (AStarM.aStarSteps obs (0, 0) n) := rfl
    rw [hstep]
    generalize hs : AStarM.aStarSteps obs (0, 0) n = s at ih haWF hkm ⊢
    by_cases hd : s.done = true
    · rw [find_path_step_done obs s hd]
      exact ih d
    · have hd' : s.done = false := by revert hd; cases s.done <;> simp
      cases hb : AStarM.get_best_cell s.available_cells with
      | none =>
        rw [find_path_step_fail obs s hd' hb]
        intro hmem
        have hmem' : AStarM.Event.success d ∈ s.output ++ [AStarM.Event.failure] :=
          hmem
        rcases List.mem_append.1 hmem' with h' | h'
        · exact ih d h'
        · have h2 := List.mem_singleton.1 h'
          cases h2
      | some best =>
        by_cases hk : best.coords = s.keymaker
        · exfalso
          have hnv := (get_best_props obs s haWF best hb).2.1
          obtain ⟨c, hc⟩ := dictLookup_isSome_of_mem s.visited (0, 0) haWF.2.2.1
          rw [hk, hkm] at hnv
          rw [hnv] at hc
          cases hc
        · rw [find_path_step_move obs s best hd' hb hk]
          intro hmem
          have hmem' : AStarM.Event.success d ∈ s.output ++
              ((if s.current.neighbours.contains best.coords then []
                else AStarM.from_current_to_best s.current best) ++
                  [best.coords]).map AStarM.Event.move := hmem
          rcases List.mem_append.1 hmem' with h' | h'
          · exact ih d h'
          · obtain ⟨x, hx1, hx2⟩ := List.mem_map.1 h'
            cases hx2

/-- If the keymaker marker appears on the discovered map only at the origin,
the distance propagation never reports success: the origin starts at
distance 0, is therefore never enqueued (enqueueing requires the sentinel
distance), and the success check is only applied to popped queue cells. -/
theorem pf_no_success_origin (m : Pos → Option Char)
    (hK : ∀ p, m p = some ('K') → p = ((0, 0) : Pos)) (n : Nat) :
    ((0, 0) : Pos) ∉ (BacktrackM.pfSteps m n).cells_queue ∧
    (BacktrackM.pfSteps m n).distances (0, 0) = 0 ∧
    ∀ d, (BacktrackM.pfSteps m n).result ≠
      some (BacktrackM.PFResult.success d) := by
  induction n with
  | zero =>
    refine ⟨?_, rfl, ?_⟩
    · intro hmem
      have hmem' : ((0, 0) : Pos) ∈ BacktrackM.pf_available_neighbours m
          (BacktrackM.pf_init m).distances (0, 0) := hmem
      rw [mem_pf_available] at hmem'
      exact not_mem_get_neighbors_self (0, 0) hmem'.1
    · intro d hcon
      cases hcon
  | succ n ih =>
    obtain ⟨ihq, ihd, ihr⟩ := ih
    have hstep : BacktrackM.pfSteps m (n + 1) =
        BacktrackM.pf_step m (BacktrackM.pfSteps m n) := rfl
    rw [hstep]
    generalize hs : BacktrackM.pfSteps m n = s at ihq ihd ihr ⊢
    cases hres : s.result with
    | some r =>
      have heq : BacktrackM.pf_step m s = s := by
        unfold BacktrackM.pf_step
        rw [hres]
      rw [heq]
      exact ⟨ihq, ihd, ihr⟩
    | none =>
      cases hq : s.cells_queue with
      | nil =>
        have heq : BacktrackM.pf_step m s =
            { s with result := some BacktrackM.PFResult.unreachable } := by
          unfold BacktrackM.pf_step
          rw [hres, hq]
        rw [heq]
        refine ⟨ihq, ihd, ?_⟩
        intro d hcon
        have h2 : (some BacktrackM.PFResult.unreachable :
            Option BacktrackM.PFResult) =
            some (BacktrackM.PFResult.success d) := hcon
        injection h2 with h3
        cases h3
      | cons current rest =>
        have hcur : current ≠ ((0, 0) : Pos) := by
          intro hcon
          exact ihq (by rw [hq, hcon]; exact List.mem_cons_self _ _)
        have heq : BacktrackM.pf_step m s =
            { distances := BacktrackM.set_min_distance_to s.distances current,
              cells_queue := rest ++ BacktrackM.pf_available_neighbours m
                (BacktrackM.set_min_distance_to s.distances current) current,
              result := if m current = some ('K') then
                some (BacktrackM.PFResult.success
                  (BacktrackM.set_min_distance_to s.distances current current))
                else none } := by
          unfold BacktrackM.pf_step
          rw [hres, hq]
        rw [heq]
        have hd0 : BacktrackM.set_min_distance_to s.distances current (0, 0) = 0 := by
          rw [set_min_other s.distances current (0, 0) (fun hc => hcur hc.symm), ihd]
        have hres2 : (if m current = some ('K') then
            some (BacktrackM.PFResult.success
              (BacktrackM.set_min_distance_to s.distances current current))
            else none) = none := by
          rw [if_neg]
          intro hcon
          exact hcur (hK current hcon)
        refine ⟨?_, hd0, ?_⟩
        · intro hmem
          have hmem' : ((0, 0) : Pos) ∈ rest ++
              BacktrackM.pf_available_neighbours m
                (BacktrackM.set_min_distance_to s.distances current) current := hmem
          rcases List.mem_append.1 hmem' with h' | h'
          · exact ihq (by rw [hq]; exact List.mem_cons_of_mem _ h')
          · rw [mem_pf_available] at h'
            have h2 := h'.2.1
            rw [hd0] at h2
            have hpos := INT_INFINITY_pos
            omega
        · intro d
          show (if m current = some ('K') then
              some (BacktrackM.PFResult.success
                (BacktrackM.set_min_distance_to s.distances current current))
              else none) ≠ some (BacktrackM.PFResult.success d)
          rw [hres2]
          intro hcon
          cases hcon

/-- Claim C3: with the target at the origin, neither strategy can ever emit
a success report, so neither terminates with a success report carrying move
count 0; the claimed behaviour is unreachable in the code.  For a_star the
success branch fires only when the picked frontier cell sits at the
keymaker's position, but the origin is visited from the start and visited
positions never re-enter the frontier.  For backtracking the success check
is applied only to cells popped from the propagation queue; the origin,
the only position whose map entry can carry the keymaker marker, starts at
distance 0 and is never enqueued. -/
theorem C3_origin_target_code_bug :
    (∀ (obs : Env) (n d : Nat),
      AStarM.Event.success d ∉ (AStarM.aStarSteps obs (0, 0) n).output) ∧
    (∀ (m : Pos → Option Char),
      (∀ p, m p = some ('K') → p = ((0, 0) : Pos)) → ∀ (n d : Nat),
      (BacktrackM.pfSteps m n).result ≠
        some (BacktrackM.PFResult.success d)) :=
  ⟨fun obs n d => aStar_origin_no_success obs n d,
   fun m hK n d => (pf_no_success_origin m hK n).2.2 d⟩

/-- Witness for C3_origin_target_code_bug: the empty environment and the
fully discovered danger-free map (which carries no keymaker marker at all,
so trivially only at the origin), at concrete step counts. -/
theorem C3_origin_target_witness :
    (∀ p, mapAllDot p = some ('K') → p = ((0, 0) : Pos)) ∧
    AStarM.Event.success 0 ∉ (AStarM.aStarSteps envEmpty (0, 0) 3).output ∧
    (BacktrackM.pfSteps mapAllDot 3).result ≠
      some (BacktrackM.PFResult.success 0) := by
  have hK : ∀ p, mapAllDot p = some ('K') → p = ((0, 0) : Pos) := by
    intro p hp
    unfold mapAllDot at hp
    by_cases hb : inBounds p
    · rw [if_pos hb] at hp
      injection hp with hp2
      exact absurd hp2 (by decide)
    · rw [if_neg hb] at hp
      cases hp
  exact ⟨hK, C3_origin_target_code_bug.1 envEmpty 3 0,
    C3_origin_target_code_bug.2 mapAllDot hK 3 0⟩

/-- The Manhattan heuristic vanishes only at the keymaker itself. -/
theorem to_goals_pos (K n : Pos) (h : n ≠ K) : 1 ≤ AStarM.to_goals K n := by
  unfold AStarM.to_goals
  have h2 : ¬(K.1 = n.1 ∧ K.2 = n.2) := by
    intro hc
    exact h (Prod.ext hc.1.symm hc.2.symm)
  omega

/-- A terminated run is absorbing: later states equal the terminated one. -/
theorem aStarSteps_absorb (obs : Env) (K : Pos) (n : Nat)
    (h : (AStarM.aStarSteps obs K n).done = true) :
    ∀ m, AStarM.aStarSteps obs K (n + m) = AStarM.aStarSteps obs K n := by
  intro m
  induction m with
  | zero => rfl
  | succ m ih =>
    have hstep : AStarM.aStarSteps obs K (n + (m + 1)) =
        AStarM.find_path_step obs (AStarM.aStarSteps obs K (n + m)) := rfl
    rw [hstep, ih]
    exact find_path_step_done obs _ h

/-- Core of the adjacent-target scenario: with the keymaker axis-adjacent to
the origin and not reported dangerous by the origin response, the first loop
iteration picks the keymaker's frontier cell and reports success with count
1, after the single real move of the zeroth step. -/
theorem aStar_adjacent_core (obs : Env) (K : Pos)
    (hib : inBounds K) (hne : K ≠ ((0, 0) : Pos))
    (hmv : (K.1 - 0, K.2 - 0) ∈ AStarM.POSSIBLE_MOVES)
    (hsafe : K ∉ AStarM.danger_positions (obs (0, 0))) :
    (AStarM.aStarSteps obs K 1).done = true ∧
    (AStarM.aStarSteps obs K 1).output =
      [AStarM.Event.move (0, 0), AStarM.Event.success 1] := by
  have haWF := aWF_init obs K hib
  have hdone0 : (AStarM.zeroth_move obs K).done = false := rfl
  have hlookK : AStarM.dictLookup
      [(((0, 0) : Pos), AStarM.mkCell (0, 0) 0 (AStarM.to_goals K (0, 0))
        [(0, 0)])] K = none := by
    show (if ((0, 0) : Pos) = K then
      some (AStarM.mkCell (0, 0) 0 (AStarM.to_goals K (0, 0)) [(0, 0)])
      else AStarM.dictLookup [] K) = none
    rw [if_neg (fun hc => hne hc.symm)]
    rfl
  have havKc : K ∈ AStarM.get_available_coords
      (AStarM.danger_positions (obs (0, 0)))
      [(((0, 0) : Pos), AStarM.mkCell (0, 0) 0 (AStarM.to_goals K (0, 0))
        [(0, 0)])] (0, 0) := by
    rw [mem_get_available_coords]
    exact ⟨hmv, hib, hsafe, hlookK⟩
  have hfil : List.filter (fun pc =>
      decide (K ∈ AStarM.get_available_coords
        (AStarM.danger_positions (obs (0, 0)))
        [(((0, 0) : Pos), AStarM.mkCell (0, 0) 0 (AStarM.to_goals K (0, 0))
          [(0, 0)])] pc.1))
      [(((0, 0) : Pos), AStarM.mkCell (0, 0) 0 (AStarM.to_goals K (0, 0))
        [(0, 0)])] =
      [(((0, 0) : Pos), AStarM.mkCell (0, 0) 0 (AStarM.to_goals K (0, 0))
        [(0, 0)])] := by
    rw [List.filter_eq_self]
    intro a ha
    have ha2 := List.mem_singleton.1 ha
    subst ha2
    exact decide_eq_true havKc
  have hspec := update_all_available_spec K
    (AStarM.danger_positions (obs (0, 0)))
    [(((0, 0) : Pos), AStarM.mkCell (0, 0) 0 (AStarM.to_goals K (0, 0))
      [(0, 0)])]
    (by exact List.nodup_singleton ((0, 0) : Pos)) K
  have hfe : List.filter (fun pc =>
      decide (K ∈ AStarM.get_available_coords
        (AStarM.danger_positions (obs (0, 0)))
        [(((0, 0) : Pos), AStarM.mkCell (0, 0) 0 (AStarM.to_goals K (0, 0))
          [(0, 0)])] pc.1))
      [(((0, 0) : Pos), AStarM.mkCell (0, 0) 0 (AStarM.to_goals K (0, 0))
        [(0, 0)])] ≠ [] := by
    rw [hfil]
    exact List.cons_ne_nil _ _
  obtain ⟨cK, hcl, hc1, hc2, hc3, hc4, hpathK, hmemK, hleK⟩ := hspec.2 hfe
  rw [hfil] at hmemK
  have hmemK2 : cK.from_init ∈
      [(AStarM.mkCell ((0, 0) : Pos) 0 (AStarM.to_goals K (0, 0))
        [(0, 0)]).from_init + 1] := hmemK
  have hcK1 : cK.from_init = 1 := by
    have h3 := List.mem_singleton.1 hmemK2
    rw [h3]
    simp
  have htgK : AStarM.to_goals K K = 0 := by
    unfold AStarM.to_goals
    omega
  have hcKt : cK.total_path = 1 := by
    rw [hc3, hc2, htgK, hcK1]
  have hKav : (K, cK) ∈ (AStarM.zeroth_move obs K).available_cells :=
    (dictLookup_mem_keys _ K cK hcl).2
  cases hb : AStarM.get_best_cell (AStarM.zeroth_move obs K).available_cells with
  | none =>
    rw [get_best_cell_none_iff] at hb
    rw [hb] at hKav
    cases hKav
  | some best =>
    obtain ⟨hmin, hnv, hibb, hndb, htgb, htotb, hnbb, hpathb, hwminb, hwallb⟩ :=
      get_best_props obs _ haWF best hb
    obtain ⟨w, hwvs, hwav, hww⟩ := hwminb
    have hwvs2 : w ∈ [(((0, 0) : Pos),
        AStarM.mkCell (0, 0) 0 (AStarM.to_goals K (0, 0)) [(0, 0)])] := hwvs
    have hw1 := List.mem_singleton.1 hwvs2
    have hbf1 : best.from_init = 1 := by
      rw [hww, hw1]
      simp
    have htgb2 : best.to_goal = AStarM.to_goals K best.coords := htgb
    have hbcK : best.coords = K := by
      by_contra hbc
      have hlt := hmin (K, cK) hKav
      rw [cellLt_false_iff] at hlt
      have hlt2 : best.total_path < cK.total_path ∨
          (cK.total_path = best.total_path ∧ best.to_goal ≤ cK.to_goal) := hlt
      have h1le := to_goals_pos K best.coords hbc
      omega
    have hstep : AStarM.aStarSteps obs K 1 =
        AStarM.find_path_step obs (AStarM.zeroth_move obs K) := rfl
    have hkk : best.coords = (AStarM.zeroth_move obs K).keymaker := hbcK
    rw [hstep, find_path_step_success obs _ best hdone0 hb hkk]
    refine ⟨rfl, ?_⟩
    show (AStarM.zeroth_move obs K).output ++
        [AStarM.Event.success best.from_init] =
      [AStarM.Event.move (0, 0), AStarM.Event.success 1]
    rw [hbf1]
    rfl

/-- Claim C9: when the target is axis-adjacent to the origin and the origin
response does not mark it dangerous, the Frontier strategy issues exactly
one real move (the mandatory zeroth move onto the origin) and terminates at
the first loop iteration with a success report carrying move count 1: the
report is emitted the instant the picked frontier cell equals the target,
with no move onto the target itself. -/
theorem C9_adjacent_target (obs : Env) (K : Pos)
    (hadj : K = ((1, 0) : Pos) ∨ K = ((0, 1) : Pos))
    (hsafe : K ∉ AStarM.danger_positions (obs (0, 0))) :
    (AStarM.aStarSteps obs K 1).done = true ∧
    (AStarM.aStarSteps obs K 1).output =
      [AStarM.Event.move (0, 0), AStarM.Event.success 1] ∧
    ∀ m, AStarM.aStarSteps obs K (1 + m) = AStarM.aStarSteps obs K 1 := by
  have hcore : (AStarM.aStarSteps obs K 1).done = true ∧
      (AStarM.aStarSteps obs K 1).output =
        [AStarM.Event.move (0, 0), AStarM.Event.success 1] := by
    rcases hadj with rfl | rfl
    · exact aStar_adjacent_core obs (1, 0) (by decide) (by decide) (by decide) hsafe
    · exact aStar_adjacent_core obs (0, 1) (by decide) (by decide) (by decide) hsafe
  refine ⟨hcore.1, hcore.2, ?_⟩
  intro m
  exact aStarSteps_absorb obs K 1 hcore.1 m

/-- Witness for C9_adjacent_target: the empty environment with the keymaker
at (1,0). -/
theorem C9_adjacent_target_witness :
    ((((1, 0) : Pos) = ((1, 0) : Pos) ∨ ((1, 0) : Pos) = ((0, 1) : Pos)) ∧
      ((1, 0) : Pos) ∉ AStarM.danger_positions (envEmpty (0, 0))) ∧
    ((AStarM.aStarSteps envEmpty (1, 0) 1).done = true ∧
      (AStarM.aStarSteps envEmpty (1, 0) 1).output =
        [AStarM.Event.move (0, 0), AStarM.Event.success 1] ∧
      AStarM.aStarSteps envEmpty (1, 0) (1 + 2) =
        AStarM.aStarSteps envEmpty (1, 0) 1) :=
  ⟨⟨Or.inl rfl, by decide⟩,
    (C9_adjacent_target envEmpty (1, 0) (Or.inl rfl) (by decide)).1,
    (C9_adjacent_target envEmpty (1, 0) (Or.inl rfl) (by decide)).2.1,
    (C9_adjacent_target envEmpty (1, 0) (Or.inl rfl) (by decide)).2.2 2⟩

/-- The staircase starts at the origin. -/
theorem stair_head (b : Pos) :
    (AStarM.stair b).head? = some (((0 : Int)), ((0 : Int))) := by
  unfold AStarM.stair
  rw [List.head?_append_of_ne_nil _ (by
    simp only [ne_eq, List.map_eq_nil_iff, List.range_eq_nil]
    omega)]
  rw [List.head?_map, List.range_succ_eq_map]
  rfl

/-- The staircase ends at its target. -/
theorem stair_getLast (b : Pos) (hb1 : 0 ≤ b.1) (hb2 : 0 ≤ b.2) :
    (AStarM.stair b).getLast? = some b := by
  unfold AStarM.stair
  cases hn : b.2.toNat with
  | zero =>
    simp only [List.range_zero, List.map_nil, List.append_nil]
    rw [List.getLast?_map, List.range_succ, List.getLast?_concat]
    have hb1' : ((b.1.toNat : Nat) : Int) = b.1 := Int.toNat_of_nonneg hb1
    have hb2' : b.2 = 0 := by omega
    simp only [Option.map_some']
    exact congrArg some (by rw [Prod.ext_iff]; exact ⟨hb1', hb2'.symm⟩)
  | succ m =>
    rw [List.getLast?_append_of_ne_nil _ (by
      simp only [ne_eq, List.map_eq_nil_iff, List.range_eq_nil]
      omega)]
    rw [List.getLast?_map, List.range_succ, List.getLast?_concat]
    have hb2' : b.2 = ((m : Nat) : Int) + 1 := by omega
    simp only [Option.map_some']
    exact congrArg some (by rw [Prod.ext_iff]; exact ⟨rfl, hb2'.symm⟩)

/-- The staircase is a chain of unit axis steps each raising the coordinate
sum by one. -/
theorem stair_chain (b : Pos) (hb1 : 0 ≤ b.1) (hb2 : 0 ≤ b.2) :
    List.Chain' AStarM.stairRel (AStarM.stair b) := by
  unfold AStarM.stair
  apply List.Chain'.append
  · rw [List.chain'_map, List.chain'_range_succ]
    intro m hm
    unfold AStarM.stairRel AStarM.sumC AStarM.POSSIBLE_MOVES
    constructor
    · simp only [List.mem_cons, List.not_mem_nil, or_false, Prod.mk.injEq]
      omega
    · omega
  · rw [List.chain'_map]
    cases hn : b.2.toNat with
    | zero =>
      rw [List.range_zero]
      exact List.chain'_nil
    | succ m =>
      rw [List.chain'_range_succ]
      intro j hj
      unfold AStarM.stairRel AStarM.sumC AStarM.POSSIBLE_MOVES
      constructor
      · simp only [List.mem_cons, List.not_mem_nil, or_false, Prod.mk.injEq]
        omega
      · omega
  · intro x hx y hy
    rw [List.getLast?_map, List.range_succ, List.getLast?_concat] at hx
    simp only [Option.map_some', Option.mem_def, Option.some.injEq] at hx
    cases hn : b.2.toNat with
    | zero =>
      rw [hn, List.range_zero, List.map_nil] at hy
      simp at hy
    | succ m =>
      rw [hn, List.range_succ_eq_map] at hy
      simp only [List.map_cons, List.head?_cons, Option.mem_def,
        Option.some.injEq] at hy
      subst hx
      subst hy
      unfold AStarM.stairRel AStarM.sumC AStarM.POSSIBLE_MOVES
      constructor
      · simp only [List.mem_cons, List.not_mem_nil, or_false, Prod.mk.injEq]
        omega
      · omega

/-- Every staircase cell lies componentwise between the origin and the
target. -/
theorem stair_mem_bounds (b : Pos) (hb1 : 0 ≤ b.1) (hb2 : 0 ≤ b.2) :
    ∀ u ∈ AStarM.stair b, 0 ≤ u.1 ∧ u.1 ≤ b.1 ∧ 0 ≤ u.2 ∧ u.2 ≤ b.2 := by
  intro u hu
  unfold AStarM.stair at hu
  rcases List.mem_append.1 hu with h | h
  · obtain ⟨i, hi, rfl⟩ := List.mem_map.1 h
    rw [List.mem_range] at hi
    refine ⟨?_, ?_, ?_, ?_⟩ <;> dsimp only <;> omega
  · obtain ⟨j, hj, rfl⟩ := List.mem_map.1 h
    rw [List.mem_range] at hj
    refine ⟨?_, ?_, ?_, ?_⟩ <;> dsimp only <;> omega

/-- An absent key yields no lookup hit. -/
theorem dictLookup_none_of_not_mem (d : List (Pos × AStarM.Cell)) (p : Pos)
    (h : p ∉ AStarM.dictKeys d) : AStarM.dictLookup d p = none := by
  cases hl : AStarM.dictLookup d p with
  | none => rfl
  | some c => exact absurd (dictLookup_mem_keys d p c hl).1 h

/-- Along a chain whose head satisfies P and whose last element does not,
some related adjacent pair flips from P to not-P. -/
theorem chain_flip (R : Pos → Pos → Prop) (P : Pos → Prop) :
    ∀ (l : List Pos) (x : Pos), List.Chain' R (x :: l) → P x →
    (∀ e, (x :: l).getLast? = some e → ¬P e) →
    ∃ v u, R v u ∧ P v ∧ ¬P u ∧ u ∈ x :: l := by
  intro l
  induction l with
  | nil =>
    intro x hch hP hlast
    exact absurd hP (hlast x rfl)
  | cons y rest ih =>
    intro x hch hP hlast
    by_cases hPy : P y
    · obtain ⟨v, u, h1, h2, h3, h4⟩ := ih y (List.chain'_cons.1 hch).2 hPy
        (fun e he => hlast e (by rw [List.getLast?_cons_cons]; exact he))
      exact ⟨v, u, h1, h2, h3, List.mem_cons_of_mem _ h4⟩
    · exact ⟨x, y, (List.chain'_cons.1 hch).1, hP, hPy,
        List.mem_cons_of_mem _ (List.mem_cons_self _ _)⟩

/-- In a well-formed state with an empty danger set, every in-bounds
unvisited position b yields a frontier entry at the first unvisited cell u
of the staircase from the origin to b: the entry's cost is at most one more
than that of a visited cell vc whose coordinate sum is one below u's, and u
lies componentwise between the origin and b. -/
theorem exists_frontier_at_unvisited (obs : Env) (s : AStarM.AState)
    (h : aWF obs s) (hdang : s.dangers = []) (b : Pos) (hbib : inBounds b)
    (hbnv : b ∉ AStarM.dictKeys s.visited) :
    ∃ u cu vc, (u, cu) ∈ s.available_cells ∧
      vc ∈ s.visited ∧
      cu.coords = u ∧ cu.to_goal = AStarM.to_goals s.keymaker u ∧
      cu.total_path = cu.from_init + cu.to_goal ∧
      cu.from_init ≤ vc.2.from_init + 1 ∧
      AStarM.sumC u = AStarM.sumC vc.1 + 1 ∧
      0 ≤ u.1 ∧ u.1 ≤ b.1 ∧ 0 ≤ u.2 ∧ u.2 ≤ b.2 := by
  obtain ⟨h1, h2, h3, h4, h5, h6, h7, h8⟩ := h
  have hb1 : 0 ≤ b.1 := hbib.1
  have hb2 : 0 ≤ b.2 := hbib.2.2.1
  have hhead := stair_head b
  have hlast := stair_getLast b hb1 hb2
  have hchain := stair_chain b hb1 hb2
  have hbnds := stair_mem_bounds b hb1 hb2
  cases hst : AStarM.stair b with
  | nil =>
    rw [hst] at hhead
    cases hhead
  | cons x rest =>
    rw [hst] at hhead hlast hchain hbnds
    have hx : x = (((0 : Int)), ((0 : Int))) := by
      have h9 : some x = some (((0 : Int)), ((0 : Int))) := hhead
      injection h9
    obtain ⟨v, u, hR, hPv, hPu, humem⟩ := chain_flip AStarM.stairRel
      (fun p => p ∈ AStarM.dictKeys s.visited) rest x hchain
      (by rw [hx]; exact h3)
      (by
        intro e he
        rw [hlast] at he
        injection he with he2
        rw [← he2]
        exact hbnv)
    obtain ⟨hmv, hsum⟩ := hR
    obtain ⟨c_v, hcv⟩ := dictLookup_isSome_of_mem _ _ hPv
    have hvpair : (v, c_v) ∈ s.visited := (dictLookup_mem_keys _ _ _ hcv).2
    have hub := hbnds u humem
    have huib : inBounds u :=
      ⟨hub.1, le_trans hub.2.1 hbib.2.1, hub.2.2.1,
        le_trans hub.2.2.2 hbib.2.2.2⟩
    have huav : u ∈ AStarM.get_available_coords s.dangers s.visited v := by
      rw [mem_get_available_coords]
      refine ⟨hmv, huib, ?_, dictLookup_none_of_not_mem _ _ hPu⟩
      rw [hdang]
      exact List.not_mem_nil u
    have hfmem : (v, c_v) ∈ s.visited.filter (fun pc =>
        decide (u ∈ AStarM.get_available_coords s.dangers s.visited pc.1)) :=
      List.mem_filter.2 ⟨hvpair, decide_eq_true huav⟩
    have hspec := update_all_available_spec s.keymaker s.dangers s.visited h1 u
    obtain ⟨cu, hcl, hc1, hc2, hc3, hc4, hpath, hmem, hle⟩ :=
      hspec.2 (List.ne_nil_of_mem hfmem)
    have hfle : cu.from_init ≤ c_v.from_init + 1 :=
      hle _ (List.mem_map_of_mem _ hfmem)
    have hlook2 : AStarM.dictLookup s.available_cells u = some cu := by
      rw [h7]
      exact hcl
    exact ⟨u, cu, (v, c_v), (dictLookup_mem_keys _ _ _ hlook2).2, hvpair,
      hc1, hc2, hc3, hfle, hsum, hub.1, hub.2.1, hub.2.2.1, hub.2.2.2⟩

/-- On a danger-free state whose visited costs all equal the coordinate
sum of their key, the picked best cell's cost equals the coordinate sum of
its coordinates: the engine's pick is optimal. -/
theorem pick_opt (obs : Env) (s : AStarM.AState) (h : aWF obs s)
    (hdang : s.dangers = [])
    (hEI : ∀ pc ∈ s.visited, pc.2.from_init = AStarM.sumC pc.1)
    (best : AStarM.Cell)
    (hb : AStarM.get_best_cell s.available_cells = some best) :
    best.from_init = AStarM.sumC best.coords := by
  obtain ⟨hmin, hnv, hib, hnd, htg, htot, hnb, hpath, hwmin, hwall⟩ :=
    get_best_props obs s h best hb
  obtain ⟨w, hwvs, hwav, hww⟩ := hwmin
  have hwsum := hEI w hwvs
  have hwmv : (best.coords.1 - w.1.1, best.coords.2 - w.1.2) ∈
      AStarM.POSSIBLE_MOVES := ((mem_get_available_coords _ _ _ _).1 hwav).1
  have hlow : AStarM.sumC best.coords ≤ best.from_init := by
    rw [hww, hwsum]
    unfold AStarM.sumC
    unfold AStarM.POSSIBLE_MOVES at hwmv
    simp only [List.mem_cons, List.not_mem_nil, or_false, Prod.mk.injEq] at hwmv
    omega
  rcases Nat.lt_or_ge (AStarM.sumC best.coords) best.from_init with hgt | hle2
  · exfalso
    have hbnv : best.coords ∉ AStarM.dictKeys s.visited := by
      intro hc
      obtain ⟨c, hcc⟩ := dictLookup_isSome_of_mem _ _ hc
      rw [hnv] at hcc
      cases hcc
    obtain ⟨u, cu, vc, hpair, hvc, hcuc, hcutg, hcutot, hcule, hcusum,
      hu1, hu2, hu3, hu4⟩ :=
      exists_frontier_at_unvisited obs s h hdang best.coords hib hbnv
    have hvsum := hEI vc hvc
    have hcmp := hmin (u, cu) hpair
    rw [cellLt_false_iff] at hcmp
    have hcmp2 : best.total_path < cu.total_path ∨
        (cu.total_path = best.total_path ∧ best.to_goal ≤ cu.to_goal) := hcmp
    have hsumle : AStarM.sumC u ≤ AStarM.sumC best.coords := by
      unfold AStarM.sumC
      omega
    have htri : AStarM.to_goals s.keymaker u ≤
        (AStarM.sumC best.coords - AStarM.sumC u) +
          AStarM.to_goals s.keymaker best.coords := by
      unfold AStarM.to_goals AStarM.sumC
      omega
    omega
  · exact Nat.le_antisymm hle2 hlow

/-- On a danger-free environment the danger set stays empty and every
visited cell's accumulated cost equals the coordinate sum of its key, at
every step of the run. -/
theorem empty_run_inv (obs : Env) (K : Pos) (hib : inBounds K)
    (hdf : ∀ p, AStarM.danger_positions (obs p) = []) (n : Nat) :
    (AStarM.aStarSteps obs K n).dangers = [] ∧
    (∀ pc ∈ (AStarM.aStarSteps obs K n).visited,
      pc.2.from_init = AStarM.sumC pc.1) := by
  induction n with
  | zero =>
    constructor
    · show AStarM.update_dangers [] (obs (0, 0)) = []
      unfold AStarM.update_dangers
      rw [hdf]
      rfl
    · intro pc hpc
      have hpc' : pc ∈ [(((0, 0) : Pos), AStarM.mkCell (0, 0) 0
          (AStarM.to_goals K (0, 0)) [(0, 0)])] := hpc
      have h2 := List.mem_singleton.1 hpc'
      subst h2
      rfl
  | succ n ih =>
    obtain ⟨ihd, ihv⟩ := ih
    have haWF := aWF_run obs K hib n
    have hstep : AStarM.aStarSteps obs K (n + 1) =
        AStarM.find_path_step obs (AStarM.aStarSteps obs K n) := rfl
    rw [hstep]
    generalize hs : AStarM.aStarSteps obs K n = s at ihd ihv haWF
    by_cases hd : s.done = true
    · rw [find_path_step_done obs s hd]
      exact ⟨ihd, ihv⟩
    · have hd' : s.done = false := by revert hd; cases s.done <;> simp
      cases hb : AStarM.get_best_cell s.available_cells with
      | none =>
        rw [find_path_step_fail obs s hd' hb]
        exact ⟨ihd, ihv⟩
      | some best =>
        by_cases hk : best.coords = s.keymaker
        · rw [find_path_step_success obs s best hd' hb hk]
          exact ⟨ihd, ihv⟩
        · rw [find_path_step_move obs s best hd' hb hk]
          have hopt := pick_opt obs s haWF ihd ihv best hb
          have hnkeys : best.coords ∉ AStarM.dictKeys s.visited := by
            intro hcon
            obtain ⟨c, hc⟩ := dictLookup_isSome_of_mem _ _ hcon
            rw [(get_best_props obs s haWF best hb).2.1] at hc
            cases hc
          have hins := dictInsert_not_mem s.visited best.coords best hnkeys
          constructor
          · show AStarM.update_dangers s.dangers (obs best.coords) = []
            unfold AStarM.update_dangers
            rw [hdf, List.append_nil, ihd]
          · intro pc hpc
            have hpc2 : pc ∈ AStarM.dictInsert s.visited best.coords best := hpc
            rw [hins] at hpc2
            rcases List.mem_append.1 hpc2 with hold | hnew
            · exact ihv pc hold
            · have h2 := List.mem_singleton.1 hnew
              subst h2
              exact hopt

/-- While the run has not terminated, the visited set has grown by one key
per loop iteration. -/
theorem visited_growth (obs : Env) (K : Pos) (hib : inBounds K) :
    ∀ n, (AStarM.aStarSteps obs K n).done = false →
      n + 1 ≤ (AStarM.dictKeys (AStarM.aStarSteps obs K n).visited).length := by
  intro n
  induction n with
  | zero =>
    intro _
    exact Nat.le_refl 1
  | succ n ih =>
    intro hnd
    have haWF := aWF_run obs K hib n
    have hstep : AStarM.aStarSteps obs K (n + 1) =
        AStarM.find_path_step obs (AStarM.aStarSteps obs K n) := rfl
    rw [hstep] at hnd ⊢
    generalize hs : AStarM.aStarSteps obs K n = s at ih hnd haWF ⊢
    by_cases hd : s.done = true
    · rw [find_path_step_done obs s hd, hd] at hnd
      cases hnd
    · have hd' : s.done = false := by revert hd; cases s.done <;> simp
      have hlen := ih hd'
      cases hb : AStarM.get_best_cell s.available_cells with
      | none =>
        rw [find_path_step_fail obs s hd' hb] at hnd
        have h2 : (true : Bool) = false := hnd
        cases h2
      | some best =>
        by_cases hk : best.coords = s.keymaker
        · rw [find_path_step_success obs s best hd' hb hk] at hnd
          have h2 : (true : Bool) = false := hnd
          cases h2
        · rw [find_path_step_move obs s best hd' hb hk]
          have hnkeys : best.coords ∉ AStarM.dictKeys s.visited := by
            intro hcon
            obtain ⟨c, hc⟩ := dictLookup_isSome_of_mem _ _ hcon
            rw [(get_best_props obs s haWF best hb).2.1] at hc
            cases hc
          show n + 1 + 1 ≤
            (AStarM.dictKeys (AStarM.dictInsert s.visited best.coords best)).length
          rw [dictKeys_insert, if_neg hnkeys, List.length_append]
          simp only [List.length_singleton]
          omega

/-- Every run with an in-bounds keymaker has terminated by step 81: the
9 by 9 grid cannot supply more than 81 distinct visited keys. -/
theorem exists_terminal (obs : Env) (K : Pos) (hib : inBounds K) :
    (AStarM.aStarSteps obs K 81).done = true := by
  by_contra hc
  have hc' : (AStarM.aStarSteps obs K 81).done = false := by
    revert hc; cases (AStarM.aStarSteps obs K 81).done <;> simp
  have hg := visited_growth obs K hib 81 hc'
  have haWF := aWF_run obs K hib 81
  have hlen : (AStarM.dictKeys (AStarM.aStarSteps obs K 81).visited).length ≤ 81 :=
    length_le_card_grid _ haWF.1 (by
      intro p hp
      obtain ⟨qc, hqc, hqc1⟩ := List.mem_map.1 hp
      rw [← hqc1]
      exact (haWF.2.1 qc hqc).2.1)
  omega

/-- Claim C4, amended: for every in-bounds target position OTHER THAN the
origin, on a danger-free environment the Frontier strategy terminates,
within at most 81 loop iterations, with a success report whose move count
equals the Manhattan distance between the origin and the target (the code's
own heuristic value at the origin).  The original claim's "every target
position" fails at the origin itself: see the counterexample. -/
theorem C4_manhattan_amended (obs : Env) (K : Pos)
    (hib : inBounds K) (hne : K ≠ ((0, 0) : Pos))
    (hdf : ∀ p, AStarM.danger_positions (obs p) = []) :
    ∃ n, n ≤ 81 ∧ (AStarM.aStarSteps obs K n).done = true ∧
      (AStarM.aStarSteps obs K n).output.getLast? =
        some (AStarM.Event.success (AStarM.to_goals K (0, 0))) ∧
      (∀ m, AStarM.aStarSteps obs K (n + m) = AStarM.aStarSteps obs K n) := by
  have hterm : ∃ n, (AStarM.aStarSteps obs K n).done = true :=
    ⟨81, exists_terminal obs K hib⟩
  have hn0le : Nat.find hterm ≤ 81 :=
    Nat.find_min' hterm (exists_terminal obs K hib)
  have hdone0 : (AStarM.aStarSteps obs K (Nat.find hterm)).done = true :=
    Nat.find_spec hterm
  obtain ⟨n1, hn1⟩ : ∃ n1, Nat.find hterm = n1 + 1 := by
    have hpos : Nat.find hterm ≠ 0 := by
      intro hc
      have h2 := Nat.find_spec hterm
      rw [hc] at h2
      have h3 : (false : Bool) = true := h2
      cases h3
    exact ⟨Nat.find hterm - 1, by omega⟩
  have hprev : ¬ (AStarM.aStarSteps obs K n1).done = true :=
    Nat.find_min hterm (by omega)
  have hprev' : (AStarM.aStarSteps obs K n1).done = false := by
    revert hprev; cases (AStarM.aStarSteps obs K n1).done <;> simp
  have haWF := aWF_run obs K hib n1
  obtain ⟨hdang, hEI⟩ := empty_run_inv obs K hib hdf n1
  have hkm := aStarSteps_keymaker obs K n1
  have hstep : AStarM.aStarSteps obs K (Nat.find hterm) =
      AStarM.find_path_step obs (AStarM.aStarSteps obs K n1) := by
    rw [hn1]
    rfl
  have hKnv : K ∉ AStarM.dictKeys (AStarM.aStarSteps obs K n1).visited := by
    intro hc
    exact hne (haWF.2.2.2.2.2.1 K hc hkm.symm)
  cases hb : AStarM.get_best_cell
      (AStarM.aStarSteps obs K n1).available_cells with
  | none =>
    exfalso
    obtain ⟨u, cu, vc, hpair, -⟩ := exists_frontier_at_unvisited obs
      (AStarM.aStarSteps obs K n1) haWF hdang K hib hKnv
    rw [get_best_cell_none_iff] at hb
    rw [hb] at hpair
    cases hpair
  | some best =>
    by_cases hk : best.coords = (AStarM.aStarSteps obs K n1).keymaker
    · have hopt := pick_opt obs (AStarM.aStarSteps obs K n1) haWF hdang hEI
        best hb
      refine ⟨Nat.find hterm, hn0le, hdone0, ?_,
        fun m => aStarSteps_absorb obs K (Nat.find hterm) hdone0 m⟩
      rw [hstep, find_path_step_success obs _ best hprev' hb hk]
      show ((AStarM.aStarSteps obs K n1).output ++
          [AStarM.Event.success best.from_init]).getLast? =
        some (AStarM.Event.success (AStarM.to_goals K (0, 0)))
      rw [List.getLast?_concat]
      have hbc : best.coords = K := by rw [hk, hkm]
      have hsum : AStarM.sumC K = AStarM.to_goals K (0, 0) := by
        unfold AStarM.sumC AStarM.to_goals
        omega
      rw [hopt, hbc, hsum]
    · exfalso
      have h2 := hdone0
      rw [hstep, find_path_step_move obs _ best hprev' hb hk] at h2
      have h3 : (AStarM.aStarSteps obs K n1).done = true := h2
      rw [hprev'] at h3
      cases h3

/-- Claim C4, counterexample: with the target at the origin on the
danger-free environment, the Frontier strategy terminates (within 81
iterations) with the unreachable report e -1 as its final output and never
emits any success report, so its move count is not the Manhattan distance 0
claimed. -/
theorem C4_manhattan_counterexample :
    ∃ n, n ≤ 81 ∧ (AStarM.aStarSteps envEmpty (0, 0) n).done = true ∧
      (AStarM.aStarSteps envEmpty (0, 0) n).output.getLast? =
        some AStarM.Event.failure ∧
      ∀ m d, AStarM.Event.success d ∉
        (AStarM.aStarSteps envEmpty (0, 0) m).output := by
  have hib : inBounds ((0, 0) : Pos) := by decide
  have hterm : ∃ n, (AStarM.aStarSteps envEmpty (0, 0) n).done = true :=
    ⟨81, exists_terminal envEmpty (0, 0) hib⟩
  have hn0le : Nat.find hterm ≤ 81 :=
    Nat.find_min' hterm (exists_terminal envEmpty (0, 0) hib)
  have hdone0 : (AStarM.aStarSteps envEmpty (0, 0) (Nat.find hterm)).done =
      true := Nat.find_spec hterm
  obtain ⟨n1, hn1⟩ : ∃ n1, Nat.find hterm = n1 + 1 := by
    have hpos : Nat.find hterm ≠ 0 := by
      intro hc
      have h2 := Nat.find_spec hterm
      rw [hc] at h2
      have h3 : (false : Bool) = true := h2
      cases h3
    exact ⟨Nat.find hterm - 1, by omega⟩
  have hprev : ¬ (AStarM.aStarSteps envEmpty (0, 0) n1).done = true :=
    Nat.find_min hterm (by omega)
  have hprev' : (AStarM.aStarSteps envEmpty (0, 0) n1).done = false := by
    revert hprev
    cases (AStarM.aStarSteps envEmpty (0, 0) n1).done <;> simp
  have hstep : AStarM.aStarSteps envEmpty (0, 0) (Nat.find hterm) =
      AStarM.find_path_step envEmpty (AStarM.aStarSteps envEmpty (0, 0) n1) := by
    rw [hn1]
    rfl
  cases hb : AStarM.get_best_cell
      (AStarM.aStarSteps envEmpty (0, 0) n1).available_cells with
  | none =>
    refine ⟨Nat.find hterm, hn0le, hdone0, ?_,
      fun m d => aStar_origin_no_success envEmpty m d⟩
    rw [hstep, find_path_step_fail envEmpty _ hprev' hb]
    show ((AStarM.aStarSteps envEmpty (0, 0) n1).output ++
        [AStarM.Event.failure]).getLast? = some AStarM.Event.failure
    rw [List.getLast?_concat]
  | some best =>
    exfalso
    have haWF := aWF_run envEmpty (0, 0) hib n1
    by_cases hk : best.coords = (AStarM.aStarSteps envEmpty (0, 0) n1).keymaker
    · have hnv := (get_best_props envEmpty _ haWF best hb).2.1
      obtain ⟨c, hc⟩ := dictLookup_isSome_of_mem _ _ haWF.2.2.1
      rw [hk, aStarSteps_keymaker] at hnv
      rw [hnv] at hc
      cases hc
    · have h2 := hdone0
      rw [hstep, find_path_step_move envEmpty _ best hprev' hb hk] at h2
      have h3 : (AStarM.aStarSteps envEmpty (0, 0) n1).done = true := h2
      rw [hprev'] at h3
      cases h3

/-- Witness for C4_manhattan_amended: the danger-free environment with the
target at (0,1), Manhattan distance 1 from the origin. -/
theorem C4_manhattan_witness :
    (inBounds ((0, 1) : Pos) ∧ ((0, 1) : Pos) ≠ ((0, 0) : Pos) ∧
      (∀ p, AStarM.danger_positions (envEmpty p) = [])) ∧
    (∃ n, n ≤ 81 ∧ (AStarM.aStarSteps envEmpty (0, 1) n).done = true ∧
      (AStarM.aStarSteps envEmpty (0, 1) n).output.getLast? =
        some (AStarM.Event.success (AStarM.to_goals (0, 1) (0, 0))) ∧
      (∀ m, AStarM.aStarSteps envEmpty (0, 1) (n + m) =
        AStarM.aStarSteps envEmpty (0, 1) n)) :=
  ⟨⟨by decide, by decide, fun p => rfl⟩,
    C4_manhattan_amended envEmpty (0, 1) (by decide) (by decide) (fun p => rfl)⟩

/-- A visited key is in bounds and was emitted as a move. -/
theorem visited_key_props (obs : Env) (K : Pos) (hib : inBounds K) (n : Nat)
    (v : Pos) (hv : v ∈ AStarM.dictKeys (AStarM.aStarSteps obs K n).visited) :
    inBounds v ∧ AStarM.Event.move v ∈ (AStarM.aStarSteps obs K n).output := by
  obtain ⟨pc, hpc, hpc1⟩ := List.mem_map.1 hv
  have h2 := (aWF_run obs K hib n).2.1 pc hpc
  rw [← hpc1]
  exact ⟨h2.2.1, h2.2.2.2.2.2.2⟩

/-- Under a consistent environment (no response ever marks a moved-to cell
dangerous), a position already moved to is never in the danger set. -/
theorem aStar_moved_not_danger (obs : Env) (K : Pos) (hib : inBounds K)
    (hcons : ∀ p q, q ∈ AStarM.danger_positions (obs p) →
      ∀ m, AStarM.Event.move q ∉ (AStarM.aStarSteps obs K m).output)
    (n : Nat) (q : Pos)
    (hq : AStarM.Event.move q ∈ (AStarM.aStarSteps obs K n).output) :
    q ∉ (AStarM.aStarSteps obs K n).dangers := by
  intro hd
  obtain ⟨p, hp⟩ := (aWF_run obs K hib n).2.2.2.2.1 q hd
  exact hcons p q hp n hq

/-- Every move the a_star engine emits during one loop iteration goes to an
in-bounds position not in the danger set known at emission time. -/
theorem aStar_step_moves_safe (obs : Env) (K : Pos) (hib : inBounds K)
    (hcons : ∀ p q, q ∈ AStarM.danger_positions (obs p) →
      ∀ m, AStarM.Event.move q ∉ (AStarM.aStarSteps obs K m).output)
    (n : Nat) (q : Pos)
    (hq : AStarM.Event.move q ∈
      ((AStarM.aStarSteps obs K (n + 1)).output.drop
        (AStarM.aStarSteps obs K n).output.length)) :
    inBounds q ∧ q ∉ (AStarM.aStarSteps obs K n).dangers := by
  have haWF := aWF_run obs K hib n
  have hsafe : ∀ v, v ∈ AStarM.dictKeys (AStarM.aStarSteps obs K n).visited →
      inBounds v ∧ v ∉ (AStarM.aStarSteps obs K n).dangers := by
    intro v hv
    have h2 := visited_key_props obs K hib n v hv
    exact ⟨h2.1, aStar_moved_not_danger obs K hib hcons n v h2.2⟩
  have hstep : AStarM.aStarSteps obs K (n + 1) =
      AStarM.find_path_step obs (AStarM.aStarSteps obs K n) := rfl
  rw [hstep] at hq
  generalize hg : AStarM.aStarSteps obs K n = s at hq haWF hsafe ⊢
  by_cases hd : s.done = true
  · rw [find_path_step_done obs s hd] at hq
    rw [List.drop_length] at hq
    exact absurd hq (List.not_mem_nil _)
  · have hd' : s.done = false := by revert hd; cases s.done <;> simp
    cases hb : AStarM.get_best_cell s.available_cells with
    | none =>
      rw [find_path_step_fail obs s hd' hb] at hq
      have hq2 : AStarM.Event.move q ∈
          (s.output ++ [AStarM.Event.failure]).drop s.output.length := hq
      rw [List.drop_left] at hq2
      have h3 := List.mem_singleton.1 hq2
      cases h3
    | some best =>
      by_cases hk : best.coords = s.keymaker
      · rw [find_path_step_success obs s best hd' hb hk] at hq
        have hq2 : AStarM.Event.move q ∈
            (s.output ++ [AStarM.Event.success best.from_init]).drop
              s.output.length := hq
        rw [List.drop_left] at hq2
        have h3 := List.mem_singleton.1 hq2
        cases h3
      · rw [find_path_step_move obs s best hd' hb hk] at hq
        obtain ⟨hmin, hnv, hibb, hndb, htgb, htotb, hnbb, hpathb, hwminb,
          hwallb⟩ := get_best_props obs s haWF best hb
        have hq2 : AStarM.Event.move q ∈
            (s.output ++
              ((if s.current.neighbours.contains best.coords then []
                else AStarM.from_current_to_best s.current best) ++
                  [best.coords]).map AStarM.Event.move).drop
              s.output.length := hq
        rw [List.drop_left] at hq2
        obtain ⟨x, hx, heq⟩ := List.mem_map.1 hq2
        have hxq : x = q := by injection heq
        subst hxq
        rcases List.mem_append.1 hx with hx1 | hx1
        · cases hcont : s.current.neighbours.contains best.coords with
          | true =>
            rw [hcont] at hx1
            simp at hx1
          | false =>
            rw [hcont] at hx1
            simp only [Bool.false_eq_true, if_false] at hx1
            unfold AStarM.from_current_to_best at hx1
            rcases List.mem_append.1 hx1 with hx2 | hx2
            · rw [List.mem_reverse] at hx2
              exact hsafe x
                (haWF.2.2.2.1.2.2 x (List.mem_of_mem_dropLast hx2))
            · have hx3 := List.mem_of_mem_drop (List.mem_of_mem_dropLast hx2)
              obtain ⟨v, hvvs, hvav, hvpath⟩ := hpathb
              rw [hvpath] at hx3
              rcases List.mem_append.1 hx3 with hx4 | hx4
              · exact hsafe x ((haWF.2.1 v hvvs).2.2.2.2.1 x hx4)
              · have h5 := List.mem_singleton.1 hx4
                subst h5
                exact ⟨hibb, hndb⟩
        · have h5 := List.mem_singleton.1 hx1
          subst h5
          exact ⟨hibb, hndb⟩

/-- Provenance through _add_items: an entry of the updated map satisfies
any property P holding of the old map's entries and of the added items. -/
theorem add_items_prov (P : Pos → Char → Prop) (items : Items) :
    ∀ (m : Pos → Option Char), (∀ q c, m q = some c → P q c) →
    (∀ it ∈ items, P it.1 it.2) →
    ∀ q c, BacktrackM.add_items m items q = some c → P q c := by
  induction items with
  | nil =>
    intro m hm _ q c h
    exact hm q c h
  | cons it rest ih =>
    intro m hm hit q c h
    have h2 : BacktrackM.add_items (BacktrackM.map_set m it.1 it.2) rest q =
        some c := h
    refine ih (BacktrackM.map_set m it.1 it.2) ?_
      (fun it2 hit2 => hit it2 (List.mem_cons_of_mem _ hit2)) q c h2
    intro q2 c2 hq2
    unfold BacktrackM.map_set at hq2
    by_cases hqq : q2 = it.1
    · rw [if_pos hqq] at hq2
      injection hq2 with hc2
      subst hc2
      rw [hqq]
      exact hit it (List.mem_cons_self _ _)
    · rw [if_neg hqq] at hq2
      exact hm q2 c2 hq2

/-- Provenance through _add_visited: an entry of the updated map is an old
entry or the visited marker. -/
theorem add_visited_prov (m : Pos → Option Char) (p q : Pos) (c : Char)
    (h : BacktrackM.add_visited m p q = some c) :
    m q = some c ∨ c = ('.') := by
  unfold BacktrackM.add_visited at h
  cases hm : m p with
  | none =>
    rw [hm] at h
    have h2 : BacktrackM.map_set m p ('.') q = some c := h
    unfold BacktrackM.map_set at h2
    by_cases hqq : q = p
    · rw [if_pos hqq] at h2
      injection h2 with h3
      exact Or.inr h3.symm
    · rw [if_neg hqq] at h2
      exact Or.inl h2
  | some c0 =>
    rw [hm] at h
    exact Or.inl h

/-- Combined walk invariant of the exhaustive mapper used for move safety:
every Walk Stack cell has already been moved to and is in bounds; the
origin has been moved to; and every game-map entry is the visited marker or
stems from some response. -/
theorem bt_c8_inv (obs : Env) (n : Nat) :
    (∀ p ∈ (BacktrackM.fillMapSteps obs n).visited_path,
      p ∈ (BacktrackM.fillMapSteps obs n).moves ∧ inBounds p) ∧
    ((0, 0) : Pos) ∈ (BacktrackM.fillMapSteps obs n).moves ∧
    (∀ q c, (BacktrackM.fillMapSteps obs n).game_map q = some c →
      c = ('.') ∨ ∃ p, (q, c) ∈ BacktrackM.read_response_items (obs p)) := by
  induction n with
  | zero =>
    refine ⟨?_, ?_, ?_⟩
    · intro p hp
      have hp2 : p ∈ [((0, 0) : Pos)] := hp
      have h3 := List.mem_singleton.1 hp2
      subst h3
      exact ⟨List.mem_singleton_self _, by decide⟩
    · exact List.mem_singleton_self _
    · intro q c hqc
      have h2 : BacktrackM.add_visited
          (BacktrackM.add_items (fun _ => none)
            (BacktrackM.read_response_items (obs (0, 0)))) (0, 0) q =
          some c := hqc
      rcases add_visited_prov _ _ _ _ h2 with h3 | h3
      · refine add_items_prov
          (fun q2 c2 => c2 = ('.') ∨
            ∃ p, (q2, c2) ∈ BacktrackM.read_response_items (obs p))
          _ _ ?_ ?_ q c h3
        · intro q2 c2 hq2
          cases hq2
        · intro it hit
          obtain ⟨a, b⟩ := it
          exact Or.inr ⟨(0, 0), hit⟩
      · exact Or.inl h3
  | succ n ih =>
    obtain ⟨ihs, iho, ihm⟩ := ih
    have hstep : BacktrackM.fillMapSteps obs (n + 1) =
        BacktrackM.fill_map_step obs (BacktrackM.fillMapSteps obs n) := rfl
    rw [hstep]
    generalize hg : BacktrackM.fillMapSteps obs n = s at ihs iho ihm
    by_cases hfin : s.finished = true
    · rw [fill_map_step_finished obs s hfin]
      exact ⟨ihs, iho, ihm⟩
    · have hfin2 : s.finished = false := by revert hfin; cases s.finished <;> simp
      by_cases hcr : s.crashed = true
      · rw [fill_map_step_crashed obs s hcr]
        exact ⟨ihs, iho, ihm⟩
      · have hcr2 : s.crashed = false := by revert hcr; cases s.crashed <;> simp
        by_cases hhas : BacktrackM.has_available s.game_map
            (BacktrackM.get_current_pos s) = true
        · obtain ⟨n2, hn2, hnav⟩ := get_neighbour_of_has _ _ hhas
          obtain ⟨hnnbr, hnnone⟩ := (mem_get_available _ _ _).1 hnav
          have hnib : inBounds n2 := bt_get_neighbors_inBounds _ _ hnnbr
          by_cases h5 : s.is_first_backtrack = true
          · rw [fill_map_step_forward obs s n2 hfin2 hcr2 hhas h5 hn2]
            refine ⟨?_, List.mem_append_left _ iho, ?_⟩
            · intro p hp
              have hp2 : p ∈ s.visited_path ++ [n2] := hp
              rcases List.mem_append.1 hp2 with h | h
              · exact ⟨List.mem_append_left _ (ihs p h).1, (ihs p h).2⟩
              · have h3 := List.mem_singleton.1 h
                subst h3
                exact ⟨List.mem_append_right _ (List.mem_singleton_self _), hnib⟩
            · intro q c hqc
              have h2 : BacktrackM.add_visited
                  (BacktrackM.add_items s.game_map
                    (BacktrackM.read_response_items (obs n2))) n2 q =
                  some c := hqc
              rcases add_visited_prov _ _ _ _ h2 with h3 | h3
              · refine add_items_prov
                  (fun q2 c2 => c2 = ('.') ∨
                    ∃ p, (q2, c2) ∈ BacktrackM.read_response_items (obs p))
                  _ _ ihm ?_ q c h3
                intro it hit
                obtain ⟨a, b⟩ := it
                exact Or.inr ⟨n2, hit⟩
              · exact Or.inl h3
          · have h5f : s.is_first_backtrack = false := by
              revert h5; cases s.is_first_backtrack <;> simp
            rw [fill_map_step_resume obs s n2 hfin2 hcr2 hhas h5f hn2]
            refine ⟨?_, List.mem_append_left _ (List.mem_append_left _ iho), ?_⟩
            · intro p hp
              have hp2 : p ∈ s.visited_path ++ [n2] := hp
              rcases List.mem_append.1 hp2 with h | h
              · exact ⟨List.mem_append_left _ (List.mem_append_left _ (ihs p h).1),
                  (ihs p h).2⟩
              · have h3 := List.mem_singleton.1 h
                subst h3
                exact ⟨List.mem_append_right _ (List.mem_singleton_self _), hnib⟩
            · intro q c hqc
              have h2 : BacktrackM.add_visited
                  (BacktrackM.add_items s.game_map
                    (BacktrackM.read_response_items (obs n2))) n2 q =
                  some c := hqc
              rcases add_visited_prov _ _ _ _ h2 with h3 | h3
              · refine add_items_prov
                  (fun q2 c2 => c2 = ('.') ∨
                    ∃ p, (q2, c2) ∈ BacktrackM.read_response_items (obs p))
                  _ _ ihm ?_ q c h3
                intro it hit
                obtain ⟨a, b⟩ := it
                exact Or.inr ⟨n2, hit⟩
              · exact Or.inl h3
        · have hhasf : BacktrackM.has_available s.game_map
              (BacktrackM.get_current_pos s) = false := by
            revert hhas
            cases BacktrackM.has_available s.game_map
              (BacktrackM.get_current_pos s) <;> simp
          by_cases hcur0 : BacktrackM.get_current_pos s = (0, 0)
          · rw [fill_map_step_term obs s hfin2 hcr2 hcur0 hhasf]
            exact ⟨ihs, iho, ihm⟩
          · by_cases h5 : s.is_first_backtrack = true
            · cases hse : s.visited_path.isEmpty with
              | true =>
                rw [fill_map_step_crashA obs s hfin2 hcr2 hcur0 hhasf h5 hse]
                exact ⟨ihs, iho, ihm⟩
              | false =>
                cases hdl : s.visited_path.dropLast.getLast? with
                | none =>
                  rw [fill_map_step_crashB obs s hfin2 hcr2 hcur0 hhasf h5
                    hse hdl]
                  refine ⟨?_, iho, ihm⟩
                  intro p hp
                  have hp2 : p ∈ s.visited_path.dropLast := hp
                  exact ihs p (List.mem_of_mem_dropLast hp2)
                | some prev =>
                  rw [fill_map_step_backtrack_first obs s prev hfin2 hcr2
                    hcur0 hhasf h5 hse hdl]
                  refine ⟨?_, List.mem_append_left _ iho, ihm⟩
                  intro p hp
                  have hp2 : p ∈ s.visited_path.dropLast.dropLast := hp
                  have h3 := ihs p
                    (List.mem_of_mem_dropLast (List.mem_of_mem_dropLast hp2))
                  exact ⟨List.mem_append_left _ h3.1, h3.2⟩
            · have h5f : s.is_first_backtrack = false := by
                revert h5; cases s.is_first_backtrack <;> simp
              cases hdl : s.visited_path.getLast? with
              | none =>
                rw [fill_map_step_crashC obs s hfin2 hcr2 hcur0 hhasf h5f hdl]
                exact ⟨ihs, iho, ihm⟩
              | some prev =>
                rw [fill_map_step_backtrack_next obs s prev hfin2 hcr2
                  hcur0 hhasf h5f hdl]
                refine ⟨?_, List.mem_append_left _ iho, ihm⟩
                intro p hp
                have hp2 : p ∈ s.visited_path.dropLast := hp
                have h3 := ihs p (List.mem_of_mem_dropLast hp2)
                exact ⟨List.mem_append_left _ h3.1, h3.2⟩

/-- Under a consistent environment (no response ever marks a moved-to cell
with a danger item), a position already moved to never carries a danger
marking on the discovered map. -/
theorem bt_moved_not_danger (obs : Env)
    (hcons : ∀ p q c, (q, c) ∈ obs p → DANGER_ITEMS.contains c = true →
      ∀ m, q ∉ (BacktrackM.fillMapSteps obs m).moves) (n : Nat) (q : Pos)
    (hq : q ∈ (BacktrackM.fillMapSteps obs n).moves) :
    BacktrackM.isDangerInfo ((BacktrackM.fillMapSteps obs n).game_map q) =
      false := by
  cases hm : (BacktrackM.fillMapSteps obs n).game_map q with
  | none => rfl
  | some c =>
    show DANGER_ITEMS.contains c = false
    cases hdc : DANGER_ITEMS.contains c with
    | false => rfl
    | true =>
      exfalso
      rcases (bt_c8_inv obs n).2.2 q c hm with h3 | ⟨p, hp⟩
      · subst h3
        exact absurd hdc (by decide)
      · exact hcons p q c (List.mem_filter.1 hp).1 hdc n hq

/-- Every move the exhaustive mapper emits during one loop iteration goes
to an in-bounds position whose map entry, at emission time, is not a danger
item. -/
theorem bt_step_moves_safe (obs : Env)
    (hcons : ∀ p q c, (q, c) ∈ obs p → DANGER_ITEMS.contains c = true →
      ∀ m, q ∉ (BacktrackM.fillMapSteps obs m).moves) (n : Nat) (q : Pos)
    (hq : q ∈ ((BacktrackM.fillMapSteps obs (n + 1)).moves.drop
      (BacktrackM.fillMapSteps obs n).moves.length)) :
    inBounds q ∧
      BacktrackM.isDangerInfo
        ((BacktrackM.fillMapSteps obs n).game_map q) = false := by
  obtain ⟨ihs, iho, ihm⟩ := bt_c8_inv obs n
  have hnd : ∀ x, x ∈ (BacktrackM.fillMapSteps obs n).moves →
      BacktrackM.isDangerInfo
        ((BacktrackM.fillMapSteps obs n).game_map x) = false :=
    fun x hx => bt_moved_not_danger obs hcons n x hx
  have hstep : BacktrackM.fillMapSteps obs (n + 1) =
      BacktrackM.fill_map_step obs (BacktrackM.fillMapSteps obs n) := rfl
  rw [hstep] at hq
  generalize hg : BacktrackM.fillMapSteps obs n = s at ihs iho ihm hnd hq ⊢
  by_cases hfin : s.finished = true
  · rw [fill_map_step_finished obs s hfin] at hq
    rw [List.drop_length] at hq
    exact absurd hq (List.not_mem_nil _)
  · have hfin2 : s.finished = false := by revert hfin; cases s.finished <;> simp
    by_cases hcr : s.crashed = true
    · rw [fill_map_step_crashed obs s hcr] at hq
      rw [List.drop_length] at hq
      exact absurd hq (List.not_mem_nil _)
    · have hcr2 : s.crashed = false := by revert hcr; cases s.crashed <;> simp
      by_cases hhas : BacktrackM.has_available s.game_map
          (BacktrackM.get_current_pos s) = true
      · obtain ⟨n2, hn2, hnav⟩ := get_neighbour_of_has _ _ hhas
        obtain ⟨hnnbr, hnnone⟩ := (mem_get_available _ _ _).1 hnav
        have hnib : inBounds n2 := bt_get_neighbors_inBounds _ _ hnnbr
        by_cases h5 : s.is_first_backtrack = true
        · rw [fill_map_step_forward obs s n2 hfin2 hcr2 hhas h5 hn2] at hq
          have hq2 : q ∈ (s.moves ++ [n2]).drop s.moves.length := hq
          rw [List.drop_left] at hq2
          have h3 := List.mem_singleton.1 hq2
          subst h3
          refine ⟨hnib, ?_⟩
          rw [hnnone]
          rfl
        · have h5f : s.is_first_backtrack = false := by
            revert h5; cases s.is_first_backtrack <;> simp
          rw [fill_map_step_resume obs s n2 hfin2 hcr2 hhas h5f hn2] at hq
          have hq2 : q ∈ ((s.moves ++ [BacktrackM.get_current_pos s]) ++
              [n2]).drop s.moves.length := hq
          rw [List.append_assoc, List.drop_left] at hq2
          have hcsafe : BacktrackM.get_current_pos s ∈ s.moves ∧
              inBounds (BacktrackM.get_current_pos s) := by
            cases hlst : s.visited_path.getLast? with
            | some top =>
              rw [get_current_pos_eq s top hlst]
              exact ihs top (List.mem_of_mem_getLast? hlst)
            | none =>
              have hcur : BacktrackM.get_current_pos s = (0, 0) := by
                unfold BacktrackM.get_current_pos
                rw [hlst]
              rw [hcur]
              exact ⟨iho, by decide⟩
          rcases List.mem_cons.1 hq2 with h | h
          · subst h
            exact ⟨hcsafe.2, hnd _ hcsafe.1⟩
          · have h3 := List.mem_singleton.1 h
            subst h3
            refine ⟨hnib, ?_⟩
            rw [hnnone]
            rfl
      · have hhasf : BacktrackM.has_available s.game_map
            (BacktrackM.get_current_pos s) = false := by
          revert hhas
          cases BacktrackM.has_available s.game_map
            (BacktrackM.get_current_pos s) <;> simp
        by_cases hcur0 : BacktrackM.get_current_pos s = (0, 0)
        · rw [fill_map_step_term obs s hfin2 hcr2 hcur0 hhasf] at hq
          have hq2 : q ∈ s.moves.drop s.moves.length := hq
          rw [List.drop_length] at hq2
          exact absurd hq2 (List.not_mem_nil _)
        · by_cases h5 : s.is_first_backtrack = true
          · cases hse : s.visited_path.isEmpty with
            | true =>
              rw [fill_map_step_crashA obs s hfin2 hcr2 hcur0 hhasf h5 hse] at hq
              have hq2 : q ∈ s.moves.drop s.moves.length := hq
              rw [List.drop_length] at hq2
              exact absurd hq2 (List.not_mem_nil _)
            | false =>
              cases hdl : s.visited_path.dropLast.getLast? with
              | none =>
                rw [fill_map_step_crashB obs s hfin2 hcr2 hcur0 hhasf h5
                  hse hdl] at hq
                have hq2 : q ∈ s.moves.drop s.moves.length := hq
                rw [List.drop_length] at hq2
                exact absurd hq2 (List.not_mem_nil _)
              | some prev =>
                rw [fill_map_step_backtrack_first obs s prev hfin2 hcr2
                  hcur0 hhasf h5 hse hdl] at hq
                have hq2 : q ∈ (s.moves ++ [prev]).drop s.moves.length := hq
                rw [List.drop_left] at hq2
                have h3 := List.mem_singleton.1 hq2
                subst h3
                have h4 := ihs q (List.mem_of_mem_dropLast
                  (List.mem_of_mem_getLast? hdl))
                exact ⟨h4.2, hnd _ h4.1⟩
          · have h5f : s.is_first_backtrack = false := by
              revert h5; cases s.is_first_backtrack <;> simp
            cases hdl : s.visited_path.getLast? with
            | none =>
              rw [fill_map_step_crashC obs s hfin2 hcr2 hcur0 hhasf h5f hdl] at hq
              have hq2 : q ∈ s.moves.drop s.moves.length := hq
              rw [List.drop_length] at hq2
              exact absurd hq2 (List.not_mem_nil _)
            | some prev =>
              rw [fill_map_step_backtrack_next obs s prev hfin2 hcr2
                hcur0 hhasf h5f hdl] at hq
              have hq2 : q ∈ (s.moves ++ [prev]).drop s.moves.length := hq
              rw [List.drop_left] at hq2
              have h3 := List.mem_singleton.1 hq2
              subst h3
              have h4 := ihs q (List.mem_of_mem_getLast? hdl)
              exact ⟨h4.2, hnd _ h4.1⟩

/-- Claim C8: under either strategy, every emitted move's destination is in
bounds and is not recorded as dangerous at the time the move is emitted.
For a_star the record is the danger set; for backtracking it is a danger
item on the game map.  The initial move of each run (m 0 0) is emitted
before any danger knowledge exists; every later move is covered per loop
iteration, against the knowledge state of the preceding step.  Both halves
assume the environment is consistent with the game: no response ever marks
a position the run moves to as dangerous (dangers are static, so a reported
danger is never walked on). -/
theorem C8_moves_safe :
    (∀ (obs : Env) (K : Pos), inBounds K →
      (∀ p q, q ∈ AStarM.danger_positions (obs p) →
        ∀ m, AStarM.Event.move q ∉ (AStarM.aStarSteps obs K m).output) →
      (∀ q, AStarM.Event.move q ∈ (AStarM.aStarSteps obs K 0).output →
        inBounds q) ∧
      (∀ n q, AStarM.Event.move q ∈
          ((AStarM.aStarSteps obs K (n + 1)).output.drop
            (AStarM.aStarSteps obs K n).output.length) →
        inBounds q ∧ q ∉ (AStarM.aStarSteps obs K n).dangers)) ∧
    (∀ (obs : Env),
      (∀ p q c, (q, c) ∈ obs p → DANGER_ITEMS.contains c = true →
        ∀ m, q ∉ (BacktrackM.fillMapSteps obs m).moves) →
      (∀ q, q ∈ (BacktrackM.fillMapSteps obs 0).moves → inBounds q) ∧
      (∀ n q, q ∈ ((BacktrackM.fillMapSteps obs (n + 1)).moves.drop
          (BacktrackM.fillMapSteps obs n).moves.length) →
        inBounds q ∧
          BacktrackM.isDangerInfo
            ((BacktrackM.fillMapSteps obs n).game_map q) = false)) := by
  constructor
  · intro obs K hib hcons
    constructor
    · intro q hq
      have hq2 : AStarM.Event.move q ∈ [AStarM.Event.move ((0, 0) : Pos)] := hq
      have h3 := List.mem_singleton.1 hq2
      injection h3 with h4
      rw [h4]
      decide
    · intro n q hq
      exact aStar_step_moves_safe obs K hib hcons n q hq
  · intro obs hcons
    constructor
    · intro q hq
      have hq2 : q ∈ [((0, 0) : Pos)] := hq
      have h3 := List.mem_singleton.1 hq2
      rw [h3]
      decide
    · intro n q hq
      exact bt_step_moves_safe obs hcons n q hq

/-- Witness for C8_moves_safe: the empty environment (whose responses never
report anything, so the consistency hypotheses hold trivially) with the
keymaker at (1,0). -/
theorem C8_moves_safe_witness :
    ((inBounds ((1, 0) : Pos)) ∧
      (∀ p q, q ∈ AStarM.danger_positions (envEmpty p) →
        ∀ m, AStarM.Event.move q ∉
          (AStarM.aStarSteps envEmpty (1, 0) m).output) ∧
      (∀ p q c, (q, c) ∈ envEmpty p → DANGER_ITEMS.contains c = true →
        ∀ m, q ∉ (BacktrackM.fillMapSteps envEmpty m).moves)) ∧
    ((∀ q, AStarM.Event.move q ∈
        (AStarM.aStarSteps envEmpty (1, 0) 0).output → inBounds q) ∧
      (∀ n q, AStarM.Event.move q ∈
          ((AStarM.aStarSteps envEmpty (1, 0) (n + 1)).output.drop
            (AStarM.aStarSteps envEmpty (1, 0) n).output.length) →
        inBounds q ∧ q ∉ (AStarM.aStarSteps envEmpty (1, 0) n).dangers) ∧
      (∀ q, q ∈ (BacktrackM.fillMapSteps envEmpty 0).moves → inBounds q) ∧
      (∀ n q, q ∈ ((BacktrackM.fillMapSteps envEmpty (n + 1)).moves.drop
          (BacktrackM.fillMapSteps envEmpty n).moves.length) →
        inBounds q ∧
          BacktrackM.isDangerInfo
            ((BacktrackM.fillMapSteps envEmpty n).game_map q) = false)) := by
  have hconsA : ∀ p q, q ∈ AStarM.danger_positions (envEmpty p) →
      ∀ m, AStarM.Event.move q ∉ (AStarM.aStarSteps envEmpty (1, 0) m).output := by
    intro p q hq m
    have hq2 : q ∈ ([] : List Pos) := hq
    exact absurd hq2 (List.not_mem_nil q)
  have hconsB : ∀ p q c, (q, c) ∈ envEmpty p → DANGER_ITEMS.contains c = true →
      ∀ m, q ∉ (BacktrackM.fillMapSteps envEmpty m).moves := by
    intro p q c hc
    have hc2 : (q, c) ∈ ([] : Items) := hc
    exact absurd hc2 (List.not_mem_nil _)
  exact ⟨⟨by decide, hconsA, hconsB⟩,
    (C8_moves_safe.1 envEmpty (1, 0) (by decide) hconsA).1,
    (C8_moves_safe.1 envEmpty (1, 0) (by decide) hconsA).2,
    (C8_moves_safe.2 envEmpty hconsB).1,
    (C8_moves_safe.2 envEmpty hconsB).2⟩
